import Mathlib

/-!
# worktree: hook executor, hook output parser and verbose formatter

A shallow embedding of `internal/hooks/hooks.go`, `internal/commands/format.go`
and the tail of `internal/commands/info.go`, with theorems about them.

Conventions of the embedding

* Go `string` is Lean `String` (a Go string of valid UTF-8); the algorithms that walk
  a string are written over its list of characters (`String.data`), and positions in a
  string count characters.  `len(s)` is the UTF-8 byte count.
* Go `error` is `Option String`: `none` is `nil`, `some msg` is a non-nil error.
* Go `int` is `Int`; `time.Duration` is an `Int` number of nanoseconds.
* Everything outside the process (file system, child processes) is a state of an
  arbitrary type `σ`, reached only through the operations of an `OS σ`.
-/

/-! ## Go library helpers -/

/-- Decimal rendering of a Go `int`: `strconv.Itoa`, and `%d` of `fmt`. -/
def Itoa (n : Int) : String :=
  if n < 0 then "-" ++ Nat.repr n.natAbs else Nat.repr n.toNat

/-- The built-in `len` of a Go string: its number of bytes. -/
def len (s : String) : Nat := s.utf8ByteSize

namespace strings

/-! ## Package `strings` of the Go library -/

/-- The predicate `unicode.IsSpace`. -/
def isSpace (c : Char) : Bool :=
  (9 ≤ c.toNat && c.toNat ≤ 13) || c.toNat = 32 || c.toNat = 0x85 || c.toNat = 0xA0 ||
  c.toNat = 0x1680 || (0x2000 ≤ c.toNat && c.toNat ≤ 0x200A) || c.toNat = 0x2028 ||
  c.toNat = 0x2029 || c.toNat = 0x202F || c.toNat = 0x205F || c.toNat = 0x3000

/-- Characters of `strings.TrimSpace(s)`: leading and trailing white space removed. -/
def trimSpaceChars (l : List Char) : List Char :=
  (l.dropWhile isSpace).rdropWhile isSpace

/-- The function `strings.TrimSpace`. -/
def TrimSpace (s : String) : String := ⟨trimSpaceChars s.data⟩

/-- Position of the first `c` in the characters `l`, or `-1`. -/
def indexChars (c : Char) : List Char → Int
  | [] => -1
  | x :: xs => if x = c then 0 else if indexChars c xs < 0 then -1 else indexChars c xs + 1

/-- The function `strings.Index(s, sep)` for a one-character separator. -/
def Index (s : String) (c : Char) : Int := indexChars c s.data

/-- Pieces of the characters `l` between the occurrences of `sep`. -/
def splitChars (sep : Char) : List Char → List (List Char)
  | [] => [[]]
  | x :: xs =>
    if x = sep then [] :: splitChars sep xs
    else match splitChars sep xs with
      | [] => [[x]]
      | piece :: pieces => (x :: piece) :: pieces

/-- The function `strings.Split(s, sep)` for a one-character separator. -/
def Split (s : String) (sep : Char) : List String := (splitChars sep s.data).map String.mk

/-- The function `strings.Repeat(s, n)` for a one-character string. -/
def Repeat (c : Char) (n : Nat) : String := ⟨List.replicate n c⟩

end strings

/-- The slice expression `s[:i]`. -/
def sliceTo (s : String) (i : Int) : String := ⟨s.data.take i.toNat⟩

/-- The slice expression `s[i:]`. -/
def sliceFrom (s : String) (i : Int) : String := ⟨s.data.drop i.toNat⟩

namespace hooks

/-! ## Package `hooks` -/

/-- Env contains environment variables passed to hooks (hooks.go, lines 15-22). -/
structure Env where
  Name : String
  Path : String
  Branch : String
  RepoRoot : String
  WorktreeDir : String
  Index : Int
deriving DecidableEq, Repr

/-- The type `config.HookEntry` as the package uses it: a script path and a map of
extra variables.  The map is the sequence of its bindings in the order in which a
`range` loop visits them; Go leaves that order open, so the theorems below hold for
every sequence.  The keys of a map are pairwise distinct. -/
structure HookEntry where
  Script : String
  Env : List (String × String)
deriving DecidableEq, Repr

/-- The hook lists of `config.Config` (field `Hooks`), one per lifecycle stage. -/
structure HooksConfig where
  PreCreate : List HookEntry
  PostCreate : List HookEntry
  PreDelete : List HookEntry
  PostDelete : List HookEntry
  Info : List HookEntry
deriving DecidableEq, Repr

/-- The part of `config.Config` that the packages read. -/
structure Config where
  WorktreeDir : String
  Hooks : HooksConfig
deriving DecidableEq, Repr

/-- An `exec.Cmd` as the package fills it in.  `Capture` tells whether `Stdout` is a
buffer of the caller (`true`) or the standard output of the process (`false`);
`Stderr` is the standard error of the process in both cases. -/
structure Cmd where
  Path : String
  Args : List String
  Dir : String
  Env : List String
  Capture : Bool
deriving DecidableEq, Repr

/-- The operating system as the package sees it.  `Stat s p` tells whether
`os.Stat(p)` returns no error in state `s`; `Exec s c` is the outcome of running the
command `c` to completion (`cmd.Run()`): the next state, what the child wrote to its
standard output, and the error. `IsAbs` and `Join` are `filepath.IsAbs` and
`filepath.Join`, `Environ` is `os.Environ()`. -/
structure OS (σ : Type) where
  Environ : List String
  IsAbs : String → Bool
  Join : String → String → String
  Stat : σ → String → Bool
  Exec : σ → Cmd → σ × String × Option String

/-- The state threaded through the package: the outside state, the lines this process
has printed with `fmt.Println`, and the commands on which `cmd.Run()` has been called,
oldest first. -/
structure World (σ : Type) where
  sys : σ
  printed : List String
  runs : List Cmd

/-- ToEnvVars converts the Env struct to environment variable format
(hooks.go, lines 25-38). -/
def Env.ToEnvVars (e : Env) : List String :=
  let vars := [
    "WT_NAME=" ++ e.Name,
    "WT_PATH=" ++ e.Path,
    "WT_BRANCH=" ++ e.Branch,
    "WT_REPO_ROOT=" ++ e.RepoRoot,
    "WT_WORKTREE_DIR=" ++ e.WorktreeDir]
  if e.Index > 0 then vars ++ ["WT_INDEX=" ++ Itoa e.Index] else vars

/-- The method `cmd.Run()`: the command is recorded and handed to the operating system. -/
def cmdRun {σ : Type} (os : OS σ) (cmd : Cmd) (w : World σ) : World σ × String × Option String :=
  let r := os.Exec w.sys cmd
  ({ w with sys := r.1, runs := w.runs ++ [cmd] }, r.2.1, r.2.2)

/-- Lines 52-57 and 144-149: the script path that is checked and executed. -/
def scriptPath {σ : Type} (os : OS σ) (entry : HookEntry) (env : Env) : String :=
  if !os.IsAbs entry.Script then os.Join env.RepoRoot entry.Script else entry.Script

/-- Lines 70-76 and 165-171: the environment of the hook process. -/
def cmdEnv {σ : Type} (os : OS σ) (entry : HookEntry) (env : Env) : List String :=
  entry.Env.foldl (fun acc kv => acc ++ [kv.1 ++ "=" ++ kv.2]) (os.Environ ++ env.ToEnvVars)

/-- Lines 64-76 and 156-171: the command built for an entry. -/
def hookCmd {σ : Type} (os : OS σ) (entry : HookEntry) (env : Env) (workDir : String)
    (capture : Bool) : Cmd :=
  { Path := "/bin/bash"
    Args := ["/bin/bash", scriptPath os entry env]
    Dir := workDir
    Env := cmdEnv os entry env
    Capture := capture }

/-- runHook executes a single hook entry (hooks.go, lines 51-79). -/
def runHook {σ : Type} (os : OS σ) (entry : HookEntry) (env : Env) (workDir : String)
    (w : World σ) : World σ × Option String :=
  if !os.Stat w.sys (scriptPath os entry env) then
    (w, some ("hook script not found: " ++ scriptPath os entry env))
  else
    let r := cmdRun os (hookCmd os entry env workDir false) w
    (r.1, r.2.2)

/-- Run executes a list of hook entries (hooks.go, lines 41-48). -/
def Run {σ : Type} (os : OS σ) : List HookEntry → Env → String → World σ → World σ × Option String
  | [], _, _, w => (w, none)
  | entry :: rest, env, workDir, w =>
    match runHook os entry env workDir w with
    | (w1, some err) => (w1, some err)
    | (w1, none) => Run os rest env workDir w1

/-- The statement `fmt.Println(s)`. -/
def Println {σ : Type} (s : String) (w : World σ) : World σ :=
  { w with printed := w.printed ++ [s] }

/-- RunPreCreate runs pre-create hooks (hooks.go, lines 82-89). -/
def RunPreCreate {σ : Type} (os : OS σ) (cfg : Config) (env : Env) (w : World σ) :
    World σ × Option String :=
  if cfg.Hooks.PreCreate.length = 0 then (w, none)
  else Run os cfg.Hooks.PreCreate env env.RepoRoot (Println "Running pre-create hooks..." w)

/-- RunPostCreate runs post-create hooks (hooks.go, lines 92-99). -/
def RunPostCreate {σ : Type} (os : OS σ) (cfg : Config) (env : Env) (w : World σ) :
    World σ × Option String :=
  if cfg.Hooks.PostCreate.length = 0 then (w, none)
  else Run os cfg.Hooks.PostCreate env env.Path (Println "Running post-create hooks..." w)

/-- RunPreDelete runs pre-delete hooks (hooks.go, lines 102-109). -/
def RunPreDelete {σ : Type} (os : OS σ) (cfg : Config) (env : Env) (w : World σ) :
    World σ × Option String :=
  if cfg.Hooks.PreDelete.length = 0 then (w, none)
  else Run os cfg.Hooks.PreDelete env env.Path (Println "Running pre-delete hooks..." w)

/-- RunPostDelete runs post-delete hooks (hooks.go, lines 112-119). -/
def RunPostDelete {σ : Type} (os : OS σ) (cfg : Config) (env : Env) (w : World σ) :
    World σ × Option String :=
  if cfg.Hooks.PostDelete.length = 0 then (w, none)
  else Run os cfg.Hooks.PostDelete env env.RepoRoot (Println "Running post-delete hooks..." w)

/-- runHookCapture executes a single hook and captures its stdout
(hooks.go, lines 143-177). -/
def runHookCapture {σ : Type} (os : OS σ) (entry : HookEntry) (env : Env) (workDir : String)
    (w : World σ) : World σ × String × Option String :=
  if !os.Stat w.sys (scriptPath os entry env) then
    (w, "", some ("hook script not found: " ++ scriptPath os entry env))
  else
    match cmdRun os (hookCmd os entry env workDir true) w with
    | (w1, _, some err) => (w1, "", some err)
    | (w1, stdout, none) => (w1, stdout, none)

/-- The loop of runAndCapture (hooks.go, lines 132-139); `output` is the buffer. -/
def runAndCaptureLoop {σ : Type} (os : OS σ) (env : Env) (workDir : String) :
    List HookEntry → String → World σ → World σ × String × Option String
  | [], output, w => (w, output, none)
  | entry :: rest, output, w =>
    match runHookCapture os entry env workDir w with
    | (w1, _, some err) => (w1, "", some err)
    | (w1, out, none) => runAndCaptureLoop os env workDir rest (output ++ out) w1

/-- runAndCapture executes hooks and captures their stdout (hooks.go, lines 130-140). -/
def runAndCapture {σ : Type} (os : OS σ) (entries : List HookEntry) (env : Env)
    (workDir : String) (w : World σ) : World σ × String × Option String :=
  runAndCaptureLoop os env workDir entries "" w

/-- RunInfo runs info hooks and returns captured stdout (hooks.go, lines 122-127). -/
def RunInfo {σ : Type} (os : OS σ) (cfg : Config) (env : Env) (w : World σ) :
    World σ × String × Option String :=
  if cfg.Hooks.Info.length = 0 then (w, "", none)
  else runAndCapture os cfg.Hooks.Info env env.Path w

end hooks

namespace commands

open strings

/-! ## Package `commands` -/

/-- The verb `%-*s` of `fmt` with the width argument `width`.  A width above 1000000 is
refused (`tooLarge` in `fmt`): the text `%!(BADWIDTH)` is written in its place and `s`
follows without padding.  Otherwise `s` is padded with spaces on the right to `width`
characters. -/
def padRight (width : Nat) (s : String) : String :=
  if width > 1000000 then "%!(BADWIDTH)" ++ s
  else s ++ ⟨List.replicate (width - s.length) ' '⟩

/-! ## format.go -/

/-- KeyValue represents a key-value pair for formatting (format.go, lines 13-16). -/
structure KeyValue where
  Key : String
  Value : String
deriving DecidableEq, Repr

/-- VerboseInfo holds all the data needed to format verbose worktree output
(format.go, lines 19-27); `τ` is `time.Time` and `ς` is `*git.WorktreeStatus`. -/
structure VerboseInfo (τ ς : Type) where
  Name : String
  Branch : String
  Index : Int
  CreatedAt : τ
  Status : ς
  CurrentMarker : String
  HookOutput : String

/-- What format.go and info.go use from outside the repository sources at hand:
`t.IsZero()`, `time.Since(t)` in nanoseconds, `t.Format("2006-01-02")`, the function
`FormatCompactStatus` of the package, and the field `CreatedAt` of a status. -/
structure Lib (τ ς : Type) where
  IsZero : τ → Bool
  Since : τ → Int
  FormatDate : τ → String
  FormatCompactStatus : ς → String
  CreatedAt : ς → τ

/-- The loop of ParseHookKeyValues over the lines (format.go, lines 97-113). -/
def parseLines : List String → List KeyValue → List String → List KeyValue × List String
  | [], pairs, raw => (pairs, raw)
  | line :: rest, pairs, raw =>
    let trimmed := TrimSpace line
    if trimmed = "" then parseLines rest pairs raw
    else
      let idx := Index trimmed ':'
      if idx > 0 then
        let key := TrimSpace (sliceTo trimmed idx)
        let value := TrimSpace (sliceFrom trimmed (idx + 1))
        if len key > 0 ∧ len value > 0 then
          parseLines rest (pairs ++ [{ Key := key, Value := value }]) raw
        else parseLines rest pairs (raw ++ [trimmed])
      else parseLines rest pairs (raw ++ [trimmed])

/-- ParseHookKeyValues parses hook output into key-value pairs and raw lines
(format.go, lines 92-115).  A nil slice is the empty list. -/
def ParseHookKeyValues (output : String) : List KeyValue × List String :=
  if output = "" then ([], [])
  else parseLines (Split output '\n') [] []

/-! ### binary64 arithmetic

`time.Duration.Hours` returns a `float64`, and formatAge divides it and converts it
back to `int`.  A finite `float64` is the fraction `num / den`; every operation is the
exact operation followed by rounding to the nearest value with a 53 bit significand,
ties to even.  Magnitudes stay far below the overflow threshold here. -/

/-- An exact fraction `num / den`. -/
structure Frac where
  num : Int
  den : Nat
deriving DecidableEq, Repr

/-- Exact sum of two fractions. -/
def Frac.add (x y : Frac) : Frac := ⟨x.num * y.den + y.num * x.den, x.den * y.den⟩

/-- Exact quotient of two fractions. -/
def Frac.div (x y : Frac) : Frac := ⟨x.num * y.den * Int.sign y.num, x.den * y.num.natAbs⟩

/-- Conversion `int(f)` of Go: the fraction truncated toward zero. -/
def Frac.trunc (x : Frac) : Int := Int.tdiv x.num x.den

/-- Nearest integer to `a / b`, ties to the even one. -/
def roundHalfEven (a b : Nat) : Nat :=
  if 2 * (a % b) < b then a / b
  else if b < 2 * (a % b) then a / b + 1
  else if (a / b) % 2 = 0 then a / b else a / b + 1

/-- Helper of `log2`: the recursion, bounded by `fuel`. -/
def log2Fuel : Nat → Nat → Nat
  | 0, _ => 0
  | fuel + 1, n => if n < 2 then 0 else log2Fuel fuel (n / 2) + 1

/-- Largest `k` with `2 ^ k ≤ n`, for positive `n`. -/
def log2 (n : Nat) : Nat := log2Fuel n n

/-- Largest `e` with `2 ^ e ≤ a / b`, for positive `a` and `b`. -/
def ilog2 (a b : Nat) : Int :=
  if b * 2 ^ log2 a ≤ a * 2 ^ log2 b then (log2 a : Int) - log2 b
  else (log2 a : Int) - log2 b - 1

/-- Rounding of an exact value to `float64` (round to nearest, ties to even; the
exponent is at least -1022, below which values are subnormal). -/
def round64 (x : Frac) : Frac :=
  if x.num = 0 then ⟨0, 1⟩ else
  let a := x.num.natAbs
  let b := x.den
  let s := max (ilog2 a b) (-1022) - 52
  let r : Frac :=
    if 0 ≤ s then ⟨(roundHalfEven a (b * 2 ^ s.toNat) * 2 ^ s.toNat : Nat), 1⟩
    else ⟨(roundHalfEven (a * 2 ^ (-s).toNat) b : Nat), 2 ^ (-s).toNat⟩
  if x.num < 0 then ⟨-r.num, r.den⟩ else r

/-- Conversion `float64(n)` of an integer. -/
def float64 (n : Int) : Frac := round64 ⟨n, 1⟩

/-- The constant `time.Hour`, in nanoseconds. -/
def Hour : Int := 3600000000000

/-- The method `time.Duration.Hours`:
`hour := d / Hour; nsec := d % Hour; return float64(hour) + float64(nsec)/(60*60*1e9)`,
where `/` and `%` on integers truncate toward zero. -/
def Hours (d : Int) : Frac :=
  round64 ((float64 (Int.tdiv d Hour)).add
    (round64 ((float64 (Int.tmod d Hour)).div (float64 3600000000000))))

/-- formatAge formats a duration as a human-readable age string
(format.go, lines 118-145). -/
def formatAge (d : Int) : String :=
  let days := (round64 ((Hours d).div (float64 24))).trunc
  if days = 0 then
    let hours := (Hours d).trunc
    if hours = 0 then "less than an hour"
    else if hours = 1 then "1 hour"
    else Itoa hours ++ " hours"
  else if days = 1 then "1 day"
  else
    let weeks := Int.tdiv days 7
    if weeks ≥ 1 then
      if weeks = 1 then "1 week" else Itoa weeks ++ " weeks"
    else Itoa days ++ " days"

/-- collectBuiltinPairs collects the built-in key-value pairs for a worktree
(format.go, lines 64-87). -/
def collectBuiltinPairs {τ ς : Type} (lib : Lib τ ς) (info : VerboseInfo τ ς) : List KeyValue :=
  let pairs : List KeyValue := []
  let pairs := pairs ++ [{ Key := "Branch", Value := info.Branch }]
  let pairs := if info.Index > 0 then pairs ++ [{ Key := "Index", Value := Itoa info.Index }]
    else pairs
  let pairs := if !lib.IsZero info.CreatedAt then
      pairs ++ [{ Key := "Created",
                  Value := lib.FormatDate info.CreatedAt ++ " (" ++
                    formatAge (lib.Since info.CreatedAt) ++ " ago)" }]
    else pairs
  let statusStr := lib.FormatCompactStatus info.Status
  if statusStr ≠ "" then pairs ++ [{ Key := "Status", Value := statusStr }] else pairs

/-- The loop of lines 40-45: the largest `len(p.Key)`, starting from `maxKeyWidth`. -/
def maxKeyWidthLoop : List KeyValue → Nat → Nat
  | [], maxKeyWidth => maxKeyWidth
  | p :: rest, maxKeyWidth =>
    maxKeyWidthLoop rest (if len p.Key > maxKeyWidth then len p.Key else maxKeyWidth)

/-- The line written for one pair (format.go, line 52):
`fmt.Fprintf(out, "  %-*s %s\n", maxKeyWidth+1, p.Key+":", p.Value)`. -/
def pairLine (maxKeyWidth : Nat) (p : KeyValue) : String :=
  "  " ++ padRight (maxKeyWidth + 1) (p.Key ++ ":") ++ " " ++ p.Value ++ "\n"

/-- PrintVerboseWorktree prints a single worktree in verbose format
(format.go, lines 30-62); the result is the text written to `out`. -/
def PrintVerboseWorktree {τ ς : Type} (lib : Lib τ ς) (info : VerboseInfo τ ς) : String :=
  let pairs := collectBuiltinPairs lib info
  let parsed := ParseHookKeyValues info.HookOutput
  let pairs := pairs ++ parsed.1
  let maxKeyWidth := maxKeyWidthLoop pairs 0
  let out := info.CurrentMarker ++ info.Name ++ "\n"
  let out := pairs.foldl (fun out p => out ++ pairLine maxKeyWidth p) out
  if parsed.2.length > 0 then
    parsed.2.foldl (fun out line => out ++ ("  " ++ line ++ "\n")) (out ++ "\n")
  else out

/-! ## info.go -/

/-- The values that lines 38-95 of runInfo have computed when the hooks are reached. -/
structure InfoState (ς : Type) where
  Config : hooks.Config
  RepoRoot : String
  name : String
  worktreePath : String
  branch : String
  status : ς
  idx : Int
  currentMarker : String

/-- The function runInfo from line 97 on (info.go, lines 97-127): the info hooks are
run, then the report is written.  The result is the world after the hooks, the text
written to `cmd.OutOrStdout()`, and the returned error. -/
def runInfo {σ τ ς : Type} (os : hooks.OS σ) (lib : Lib τ ς) (st : InfoState ς)
    (w : hooks.World σ) : hooks.World σ × String × Option String :=
  let r : hooks.World σ × String :=
    if st.Config.Hooks.Info.length > 0 then
      let env : hooks.Env :=
        { Name := st.name
          Path := st.worktreePath
          Branch := st.branch
          RepoRoot := st.RepoRoot
          WorktreeDir := st.Config.WorktreeDir
          Index := st.idx }
      let res := hooks.RunInfo os st.Config env w
      (res.1, res.2.1)
    else (w, "")
  let separator := strings.Repeat '=' 80
  let out := separator ++ "\n"
  let out := out ++ PrintVerboseWorktree lib
    { Name := st.name
      Branch := st.branch
      Index := st.idx
      CreatedAt := lib.CreatedAt st.status
      Status := st.status
      CurrentMarker := st.currentMarker
      HookOutput := r.2 }
  let out := out ++ separator ++ "\n"
  (r.1, out, none)

end commands

/-! ## Specification vocabulary and sample data for package `hooks` -/

namespace hooks

/-- Name and value of an environment entry `name=value`: the text before the first
`=` and the text after it; `none` for an entry without `=`. -/
def splitEntry (s : String) : Option (String × String) :=
  if strings.Index s '=' < 0 then none
  else some (sliceTo s (strings.Index s '='), sliceFrom s (strings.Index s '=' + 1))

/-- The value a process started with the environment list `environ` sees for the
variable `k`: the value of the last entry of the list whose name is `k`. -/
def lookupEnv (environ : List String) (k : String) : Option String :=
  environ.reverse.findSome? fun s =>
    match splitEntry s with
    | some (name, value) => if name = k then some value else none
    | none => none

/-- Starting in world `w`, runHookCapture succeeds on every entry of the list in turn,
captures the outputs `outs` (one per entry, in order) and leaves world `w2`. -/
inductive AllCapture {σ : Type} (os : OS σ) (env : Env) (workDir : String) :
    List HookEntry → World σ → List String → World σ → Prop
  | nil (w : World σ) : AllCapture os env workDir [] w [] w
  | cons {entry : HookEntry} {rest : List HookEntry} {w w1 w2 : World σ} {out : String}
      {outs : List String} :
      runHookCapture os entry env workDir w = (w1, out, none) →
      AllCapture os env workDir rest w1 outs w2 →
      AllCapture os env workDir (entry :: rest) w (out :: outs) w2

/-- The world after `cmd.Run()` was called on the capturing command of `entry` and the
operating system went to state `s1`. -/
def afterRun {σ : Type} (os : OS σ) (entry : HookEntry) (env : Env) (workDir : String)
    (w : World σ) (s1 : σ) : World σ :=
  { w with sys := s1, runs := w.runs ++ [hookCmd os entry env workDir true] }

/-- Starting in world `w`, the script of every entry of the list is found when its turn
comes, and its process, started from the capturing command of the entry, exits with
success; `outs` holds what each process wrote to its standard output, one text per
entry, in order, and `w2` is the world after the last process. -/
inductive AllStdout {σ : Type} (os : OS σ) (env : Env) (workDir : String) :
    List HookEntry → World σ → List String → World σ → Prop
  | nil (w : World σ) : AllStdout os env workDir [] w [] w
  | cons {entry : HookEntry} {rest : List HookEntry} {w w2 : World σ} {s1 : σ} {out : String}
      {outs : List String} :
      os.Stat w.sys (scriptPath os entry env) = true →
      os.Exec w.sys (hookCmd os entry env workDir true) = (s1, out, none) →
      AllStdout os env workDir rest (afterRun os entry env workDir w s1) outs w2 →
      AllStdout os env workDir (entry :: rest) w (out :: outs) w2

/-- In world `w` the entry fails with the error `err` and leaves world `w2`: either its
script is not found, no process is started and the error names the script path; or its
process is run and exits with the error `err`. -/
def HookFails {σ : Type} (os : OS σ) (env : Env) (workDir : String) (entry : HookEntry)
    (w w2 : World σ) (err : String) : Prop :=
  (os.Stat w.sys (scriptPath os entry env) = false ∧ w2 = w ∧
    err = "hook script not found: " ++ scriptPath os entry env) ∨
  (os.Stat w.sys (scriptPath os entry env) = true ∧
    ∃ s1 out, os.Exec w.sys (hookCmd os entry env workDir true) = (s1, out, some err) ∧
      w2 = afterRun os entry env workDir w s1)

/-- Concatenation of a list of strings, nothing in between. -/
def concat : List String → String
  | [] => ""
  | s :: rest => s ++ concat rest

/-- A small operating system for the examples.  The outside state is the list of
files that exist.  Running a script appends the sentinel file `<script>.ran`; the child
prints `ran <script>` and a newline; the script `/repo/hooks/fail.sh` exits with status 1.
Paths are absolute when they start with `/`, and the paths joined in the examples are
already clean, so that joining them is putting a `/` in between. -/
def sampleOS : OS (List String) where
  Environ := ["HOME=/home/dev", "WT_NAME=ambient"]
  IsAbs := fun p => p.data.head? = some '/'
  Join := fun a b => a ++ "/" ++ b
  Stat := fun files p => decide (p ∈ files)
  Exec := fun files c =>
    match c.Args with
    | [_, script] =>
      (files ++ [script ++ ".ran"], "ran " ++ script ++ "\n",
        if script = "/repo/hooks/fail.sh" then some "exit status 1" else none)
    | _ => (files, "", some "exec: bad arguments")

/-- The initial world of the examples: three hook scripts exist. -/
def sampleWorld : World (List String) :=
  { sys := ["/repo/hooks/a.sh", "/repo/hooks/fail.sh", "/repo/hooks/c.sh"]
    printed := []
    runs := [] }

/-- The execution context of the examples. -/
def sampleEnv : Env :=
  { Name := "feature"
    Path := "/repo/worktrees/feature"
    Branch := "feature"
    RepoRoot := "/repo"
    WorktreeDir := "worktrees"
    Index := 2 }

/-- A configuration whose five stages each hold the one hook `hooks/a.sh`. -/
def sampleConfig : Config :=
  { WorktreeDir := "worktrees"
    Hooks :=
      { PreCreate := [⟨"hooks/a.sh", []⟩]
        PostCreate := [⟨"hooks/a.sh", []⟩]
        PreDelete := [⟨"hooks/a.sh", []⟩]
        PostDelete := [⟨"hooks/a.sh", []⟩]
        Info := [⟨"hooks/a.sh", []⟩] } }

end hooks

/-! ## Specification vocabulary and sample data for package `commands` -/

namespace commands

open strings

/-- What the parser makes of one line, in the words of the specification. -/
inductive LineClass where
  | blank
  | pair (kv : KeyValue)
  | raw (text : String)
deriving DecidableEq, Repr

/-- The classification of one line in the words of the specification: a line that is
blank after trimming is dropped; a line whose first colon is at a position greater
than zero, with non-empty trimmed text before and after that colon, is the pair of
these two texts; every other line is raw text, trimmed. -/
def classifyLine (line : String) : LineClass :=
  if TrimSpace line = "" then LineClass.blank
  else if Index line ':' > 0 ∧ TrimSpace (sliceTo line (Index line ':')) ≠ "" ∧
      TrimSpace (sliceFrom line (Index line ':' + 1)) ≠ "" then
    LineClass.pair
      { Key := TrimSpace (sliceTo line (Index line ':'))
        Value := TrimSpace (sliceFrom line (Index line ':' + 1)) }
  else LineClass.raw (TrimSpace line)

/-- The pair of a line classified as a pair. -/
def LineClass.pair? : LineClass → Option KeyValue
  | LineClass.pair kv => some kv
  | _ => none

/-- The text of a line classified as raw. -/
def LineClass.raw? : LineClass → Option String
  | LineClass.raw text => some text
  | _ => none

/-- The rational number a fraction stands for. -/
def Frac.val (x : Frac) : ℚ := (x.num : ℚ) / (x.den : ℚ)

/-- A value with a 53 bit significand: `n * 2 ^ t` with `|n| < 2 ^ 53` and `t` at
least the exponent of the smallest subnormal. -/
def Representable (f : ℚ) : Prop :=
  ∃ n t : ℤ, |n| < 2 ^ 53 ∧ -1074 ≤ t ∧ f = (n : ℚ) * (2 : ℚ) ^ t

/-- The buckets of the specification, from the whole hours `h` and the whole days
`days` of a duration. -/
def ageBucket (h days : Int) : String :=
  if h = 0 then "less than an hour"
  else if h = 1 then "1 hour"
  else if h ≤ 23 then Itoa h ++ " hours"
  else if days = 1 then "1 day"
  else if days ≤ 6 then Itoa days ++ " days"
  else if days ≤ 13 then "1 week"
  else Itoa (days / 7) ++ " weeks"

/-- A text without white space at either end. -/
def Trimmed (l : List Char) : Prop :=
  List.dropWhile isSpace l = l ∧ List.rdropWhile isSpace l = l

/-- What the parser guarantees of a pair: the key is not empty, has no white space at
either end and holds no colon and no newline; the value is not empty, has no white
space at either end and holds no newline. -/
def GoodPair (p : KeyValue) : Prop :=
  p.Key.data ≠ [] ∧ Trimmed p.Key.data ∧ ':' ∉ p.Key.data ∧ '\n' ∉ p.Key.data ∧
  p.Value.data ≠ [] ∧ Trimmed p.Value.data ∧ '\n' ∉ p.Value.data

/-- The characters of a line that holds a pair: `lead` spaces, the key, a colon, `pad`
spaces and the value. -/
def pairLineBody (lead pad : Nat) (p : KeyValue) : List Char :=
  (List.replicate lead ' ' ++ p.Key.data) ++ ':' :: (List.replicate pad ' ' ++ p.Value.data)

/-- The pair read back from a pair line written with a refused width: the text
`%!(BADWIDTH)` that `fmt` wrote before the key has become part of the key. -/
def badWidthPair (p : KeyValue) : KeyValue :=
  { Key := "%!(BADWIDTH)" ++ p.Key, Value := p.Value }

/-- A key of `n` bytes: the letter `k`, `n` times. -/
def longKey (n : Nat) : String := String.mk (List.replicate n 'k')

/-- A library for the examples: a time is `none` (the zero time) or the pair of its
formatted date and of the time elapsed since; a status is its creation time and the
text FormatCompactStatus gives for it. -/
def sampleLib : Lib (Option (String × Int)) (Option (String × Int) × String) where
  IsZero := fun t => t.isNone
  Since := fun t => (t.getD ("", 0)).2
  FormatDate := fun t => (t.getD ("", 0)).1
  FormatCompactStatus := fun s => s.2
  CreatedAt := fun s => s.1

/-- The VerboseInfo of TestKeyValueAlignment (format_test.go, lines 259-266), with an
empty compact status. -/
def alignmentInfo : VerboseInfo (Option (String × Int)) (Option (String × Int) × String) :=
  { Name := "test"
    Branch := "test-branch"
    Index := 1
    CreatedAt := none
    Status := (none, "")
    CurrentMarker := "  "
    HookOutput := "API Endpoint: http://localhost:3000\nPort: 3000" }

/-- A VerboseInfo whose hook output is the one free-form line `hello`. -/
def rawInfo : VerboseInfo (Option (String × Int)) (Option (String × Int) × String) :=
  { Name := "test"
    Branch := "main"
    Index := 0
    CreatedAt := none
    Status := (none, "")
    CurrentMarker := "  "
    HookOutput := "hello" }

/-- A VerboseInfo whose info hook printed one line: a key of 1000000 bytes, a colon, a
space and the value `v`. -/
def longKeyInfo : VerboseInfo (Option (String × Int)) (Option (String × Int) × String) :=
  { Name := "test"
    Branch := "main"
    Index := 0
    CreatedAt := none
    Status := (none, "")
    CurrentMarker := "  "
    HookOutput := longKey 1000000 ++ ": v\n" }

/-- The state of runInfo in the examples: the info stage holds the one hook
`hooks/missing.sh`, a script that does not exist. -/
def sampleInfoState : InfoState (Option (String × Int) × String) :=
  { Config :=
      { WorktreeDir := "worktrees"
        Hooks := { PreCreate := [], PostCreate := [], PreDelete := [], PostDelete := [],
                   Info := [⟨"hooks/missing.sh", []⟩] } }
    RepoRoot := "/repo"
    name := "feature"
    worktreePath := "/repo/worktrees/feature"
    branch := "feature"
    status := (none, "")
    idx := 0
    currentMarker := "* " }

end commands

/-! ## Package `userconfig`, as `config.go` uses it -/

namespace userconfig

/-- The per-repository override of `UserConfig.Repos`, with the fields config.go reads:
`Remote` (empty when unset) and `Fetch`, a `*bool` (`none` is nil). -/
structure RepoConfig where
  Remote : String
  Fetch : Option Bool
deriving DecidableEq, Repr

/-- The type `userconfig.UserConfig`, with the fields config.go reads.  The map `Repos` is
the sequence of its bindings in the order in which a `range` loop visits them; the keys
of a map are pairwise distinct. -/
structure UserConfig where
  Remote : String
  Fetch : Bool
  Repos : List (String × RepoConfig)
deriving DecidableEq, Repr

/-- Modelled from the spec: the function `ValidKeys`, the fixed enumerated set of keys
`remote` and `fetch`. -/
def ValidKeys : List String := ["remote", "fetch"]

/-- The rendering of a Go `bool` by `fmt` (`%v`, `Fprintln`). -/
def fmtBool (b : Bool) : String := if b then "true" else "false"

/-- The override bound to `repoPath` in the map, if any (`cfg.Repos[repoPath]`). -/
def lookupRepo (cfg : UserConfig) (repoPath : String) : Option RepoConfig :=
  (cfg.Repos.find? (fun kv => kv.1 = repoPath)).map (fun kv => kv.2)

/-- The map `Repos` with `repoPath` bound to `rc`: the binding is replaced in place when
the key is present and added at the end otherwise. -/
def setRepo : List (String × RepoConfig) → String → RepoConfig → List (String × RepoConfig)
  | [], repoPath, rc => [(repoPath, rc)]
  | kv :: rest, repoPath, rc =>
    if kv.1 = repoPath then (repoPath, rc) :: rest else kv :: setRepo rest repoPath rc

/-- Modelled from the spec: the method `GetGlobal`, the global value of a key, or a
failure for a key outside the enumerated set. -/
def GetGlobal (cfg : UserConfig) (key : String) : String × Option String :=
  if key = "remote" then (cfg.Remote, none)
  else if key = "fetch" then (fmtBool cfg.Fetch, none)
  else ("", some ("unknown config key: " ++ key))

/-- Modelled from the spec: the method `SetGlobal`.  It validates the key and, for the
boolean key, that the value is one of the two literals; it then sets the global value
and touches nothing else.  A failure changes nothing. -/
def SetGlobal (cfg : UserConfig) (key value : String) : UserConfig × Option String :=
  if key = "remote" then ({ cfg with Remote := value }, none)
  else if key = "fetch" then
    if value = "true" then ({ cfg with Fetch := true }, none)
    else if value = "false" then ({ cfg with Fetch := false }, none)
    else (cfg, some ("invalid value for fetch: " ++ value))
  else (cfg, some ("unknown config key: " ++ key))

/-- Modelled from the spec: the method `UnsetGlobal`, which puts a global value back to
its built-in default. -/
def UnsetGlobal (cfg : UserConfig) (key : String) : UserConfig × Option String :=
  if key = "remote" then ({ cfg with Remote := "" }, none)
  else if key = "fetch" then ({ cfg with Fetch := false }, none)
  else (cfg, some ("unknown config key: " ++ key))

/-- Modelled from the spec: the method `SetForRepo`, which changes only the override of
`repoPath`; the global values are untouched. -/
def SetForRepo (cfg : UserConfig) (repoPath key value : String) : UserConfig × Option String :=
  let rc := (lookupRepo cfg repoPath).getD { Remote := "", Fetch := none }
  if key = "remote" then
    ({ cfg with Repos := setRepo cfg.Repos repoPath { rc with Remote := value } }, none)
  else if key = "fetch" then
    if value = "true" then
      ({ cfg with Repos := setRepo cfg.Repos repoPath { rc with Fetch := some true } }, none)
    else if value = "false" then
      ({ cfg with Repos := setRepo cfg.Repos repoPath { rc with Fetch := some false } }, none)
    else (cfg, some ("invalid value for fetch: " ++ value))
  else (cfg, some ("unknown config key: " ++ key))

/-- Modelled from the spec: the method `UnsetForRepo`, which removes the override of a key
for `repoPath`, and the whole binding once it holds no override. -/
def UnsetForRepo (cfg : UserConfig) (repoPath key : String) : UserConfig × Option String :=
  match lookupRepo cfg repoPath with
  | none =>
    if key = "remote" ∨ key = "fetch" then (cfg, none)
    else (cfg, some ("unknown config key: " ++ key))
  | some rc =>
    let drop (rc2 : RepoConfig) : UserConfig :=
      if rc2.Remote = "" ∧ rc2.Fetch = none then
        { cfg with Repos := cfg.Repos.filter (fun kv => kv.1 ≠ repoPath) }
      else { cfg with Repos := setRepo cfg.Repos repoPath rc2 }
    if key = "remote" then (drop { rc with Remote := "" }, none)
    else if key = "fetch" then (drop { rc with Fetch := none }, none)
    else (cfg, some ("unknown config key: " ++ key))

/-- Modelled from the spec: the method `GetRemoteForRepo`, the effective remote of a
repository: its override when one is set, else the global value. -/
def GetRemoteForRepo (cfg : UserConfig) (repoPath : String) : String :=
  match lookupRepo cfg repoPath with
  | some rc => if rc.Remote ≠ "" then rc.Remote else cfg.Remote
  | none => cfg.Remote

/-- Modelled from the spec: the method `GetFetchForRepo`, the effective fetch of a
repository: its override when one is set, else the global value. -/
def GetFetchForRepo (cfg : UserConfig) (repoPath : String) : Bool :=
  match lookupRepo cfg repoPath with
  | some rc => rc.Fetch.getD cfg.Fetch
  | none => cfg.Fetch

end userconfig

/-! ## config.go -/

namespace commands

open userconfig

/-- What config.go reaches outside the process: `config.GetMainRepoRoot()` (the root
and the error) and `userconfig.Save(cfg)` (the next outside state and the error). -/
structure ConfigSys (σ : Type) where
  GetMainRepoRoot : σ → String × Option String
  Save : σ → UserConfig → σ × Option String

/-- The state of a config command: the outside state, the in-memory configuration
`cfg` points to (the methods of `cfg` change it in place), the text written to `cmd.OutOrStdout()`, the lines written with
`cmd.PrintErrln`, and the configurations handed to `userconfig.Save`, oldest first. -/
structure ConfigState (σ : Type) where
  sys : σ
  cfg : UserConfig
  out : String
  errLines : List String
  saved : List UserConfig

/-- The call `userconfig.Save(cfg)`. -/
def Save {σ : Type} (sys : ConfigSys σ) (s : ConfigState σ) : ConfigState σ × Option String :=
  let r := sys.Save s.sys s.cfg
  ({ s with sys := r.1, saved := s.saved ++ [s.cfg] }, r.2)

/-- The function `strings.Join(elems, sep)`. -/
def Join (elems : List String) (sep : String) : String :=
  match elems with
  | [] => ""
  | e :: rest => rest.foldl (fun acc x => acc ++ sep ++ x) e

/-- The error of an invalid key (config.go, lines 169, 200 and 246). -/
def unknownKeyError (key : String) : String :=
  "unknown config key: " ++ key ++ "\nValid keys: " ++ Join ValidKeys ", "

/-- The function isValidKey (config.go, lines 275-282). -/
def isValidKey (key : String) : Bool :=
  let rec loop : List String → Bool
    | [] => false
    | k :: rest => if k = key then true else loop rest
  loop ValidKeys

/-- The function printConfigList (config.go, lines 92-117); the result is the text
written to `cmd.OutOrStdout()`. -/
def printConfigList (cfg : UserConfig) : String :=
  let out := ""
  let out := if cfg.Remote ≠ "" then out ++ ("remote = " ++ cfg.Remote ++ " (global)\n") else out
  let out :=
    if cfg.Fetch then out ++ "fetch = true (global)\n"
    else if cfg.Remote ≠ "" then out ++ "fetch = false (global)\n"
    else out
  cfg.Repos.foldl (fun out kv =>
    let out := if kv.2.Remote ≠ "" then
        out ++ ("repos." ++ kv.1 ++ ".remote = " ++ kv.2.Remote ++ "\n")
      else out
    match kv.2.Fetch with
    | some b => out ++ ("repos." ++ kv.1 ++ ".fetch = " ++ fmtBool b ++ "\n")
    | none => out) out

/-- The function getConfig (config.go, lines 166-195). -/
def getConfig {σ : Type} (sys : ConfigSys σ) (configGlobal : Bool) (key : String)
    (s : ConfigState σ) : ConfigState σ × Option String :=
  if !isValidKey key then (s, some (unknownKeyError key))
  else if configGlobal then
    match GetGlobal s.cfg key with
    | (_, some err) => (s, some err)
    | (value, none) => ({ s with out := s.out ++ value ++ "\n" }, none)
  else
    match sys.GetMainRepoRoot s.sys with
    | (_, some _) => (s, some "not in a git repository (use --global for global config)")
    | (repoRoot, none) =>
      if key = "remote" then
        ({ s with out := s.out ++ GetRemoteForRepo s.cfg repoRoot ++ "\n" }, none)
      else if key = "fetch" then
        ({ s with out := s.out ++ fmtBool (GetFetchForRepo s.cfg repoRoot) ++ "\n" }, none)
      else (s, none)

/-- The warning of setConfig (config.go, lines 216 and 231). -/
def fetchWarning : String := "Warning: fetch has no effect when remote is not set"

/-- The tail of setConfig and unsetConfig: the configuration is saved
(config.go, lines 235-240 and 267-272). -/
def saveConfig {σ : Type} (sys : ConfigSys σ) (s : ConfigState σ) :
    ConfigState σ × Option String :=
  match Save sys s with
  | (s1, some err) => (s1, some ("failed to save config: " ++ err))
  | (s1, none) => (s1, none)

/-- The function setConfig (config.go, lines 197-241). -/
def setConfig {σ : Type} (sys : ConfigSys σ) (configGlobal : Bool) (key value : String)
    (s : ConfigState σ) : ConfigState σ × Option String :=
  if !isValidKey key then (s, some (unknownKeyError key))
  else if key = "fetch" ∧ value ≠ "true" ∧ value ≠ "false" then
    (s, some "fetch must be 'true' or 'false'")
  else if configGlobal then
    match SetGlobal s.cfg key value with
    | (cfg1, some err) => ({ s with cfg := cfg1 }, some err)
    | (cfg1, none) =>
      let s1 := { s with cfg := cfg1 }
      let s2 :=
        if key = "fetch" ∧ value = "true" ∧ s1.cfg.Remote = "" then
          { s1 with errLines := s1.errLines ++ [fetchWarning] }
        else s1
      saveConfig sys s2
  else
    match sys.GetMainRepoRoot s.sys with
    | (_, some _) => (s, some "not in a git repository (use --global for global config)")
    | (repoRoot, none) =>
      match SetForRepo s.cfg repoRoot key value with
      | (cfg1, some err) => ({ s with cfg := cfg1 }, some err)
      | (cfg1, none) =>
        let s1 := { s with cfg := cfg1 }
        let s2 :=
          if key = "fetch" ∧ value = "true" ∧ GetRemoteForRepo s1.cfg repoRoot = "" then
            { s1 with errLines := s1.errLines ++ [fetchWarning] }
          else s1
        saveConfig sys s2

/-- The function unsetConfig (config.go, lines 243-273). -/
def unsetConfig {σ : Type} (sys : ConfigSys σ) (configGlobal : Bool) (key : String)
    (s : ConfigState σ) : ConfigState σ × Option String :=
  if !isValidKey key then (s, some (unknownKeyError key))
  else if configGlobal then
    match UnsetGlobal s.cfg key with
    | (cfg1, some err) => ({ s with cfg := cfg1 }, some err)
    | (cfg1, none) => saveConfig sys { s with cfg := cfg1 }
  else
    match sys.GetMainRepoRoot s.sys with
    | (_, some _) =>
      (s, some "not in a git repository (use --global to unset global config)")
    | (repoRoot, none) =>
      match UnsetForRepo s.cfg repoRoot key with
      | (cfg1, some err) => ({ s with cfg := cfg1 }, some err)
      | (cfg1, none) => saveConfig sys { s with cfg := cfg1 }

/-- The remote resolved for the scope setConfig writes to: the global remote under
`--global`, the effective remote of the repository otherwise; `none` outside a
repository. -/
def resolvedRemote {σ : Type} (sys : ConfigSys σ) (configGlobal : Bool) (s : ConfigState σ) :
    Option String :=
  if configGlobal then some s.cfg.Remote
  else match sys.GetMainRepoRoot s.sys with
    | (_, some _) => none
    | (repoRoot, none) => some (GetRemoteForRepo s.cfg repoRoot)

/-- The fetch value of a scope in the configuration `cfg`: the global fetch under
`--global`, the fetch override of the repository `repoRoot` otherwise (`none` when the
repository has no fetch override). -/
def scopeFetch (configGlobal : Bool) (repoRoot : String) (cfg : UserConfig) : Option Bool :=
  if configGlobal then some cfg.Fetch
  else (lookupRepo cfg repoRoot).bind (fun rc => rc.Fetch)

/-- The lines printConfigList writes for the global values, in the words of the
specification. -/
def globalLines (cfg : UserConfig) : String :=
  (if cfg.Remote ≠ "" then "remote = " ++ cfg.Remote ++ " (global)\n" else "") ++
  (if cfg.Fetch then "fetch = true (global)\n"
   else if cfg.Remote ≠ "" then "fetch = false (global)\n" else "")

/-- The lines printConfigList writes for one repository override, in the words of the
specification. -/
def repoLines (kv : String × RepoConfig) : String :=
  (if kv.2.Remote ≠ "" then "repos." ++ kv.1 ++ ".remote = " ++ kv.2.Remote ++ "\n" else "") ++
  (match kv.2.Fetch with
   | some b => "repos." ++ kv.1 ++ ".fetch = " ++ fmtBool b ++ "\n"
   | none => "")

/-- A system for the examples: the outside state is the saved configuration, if any;
the repository root is `/repo`; saving succeeds. -/
def sampleConfigSys : ConfigSys (Option UserConfig) where
  GetMainRepoRoot := fun _ => ("/repo", none)
  Save := fun _ cfg => (some cfg, none)

/-- A system for the examples where saving always fails. -/
def readOnlyConfigSys : ConfigSys (Option UserConfig) where
  GetMainRepoRoot := fun _ => ("/repo", none)
  Save := fun disk _ => (disk, some "permission denied")

/-- The state of the examples: defaults everywhere, nothing written or saved yet. -/
def sampleConfigState : ConfigState (Option UserConfig) :=
  { sys := none
    cfg := { Remote := "", Fetch := false, Repos := [] }
    out := ""
    errLines := []
    saved := [] }

end commands

/-! # Lemmas on the string functions -/

namespace strings

theorem indexChars_ge (c : Char) (l : List Char) : -1 ≤ indexChars c l := by
  induction l with
  | nil => simp [indexChars]
  | cons x xs ih =>
    unfold indexChars
    split
    · omega
    · split <;> omega

theorem indexChars_neg_iff (c : Char) (l : List Char) : indexChars c l < 0 ↔ c ∉ l := by
  induction l with
  | nil => simp [indexChars]
  | cons x xs ih =>
    unfold indexChars
    by_cases hx : x = c
    · simp [hx]
    · have hge := indexChars_ge c xs
      have hx2 : ¬ c = x := fun h => hx h.symm
      by_cases hn : indexChars c xs < 0
      · simp [hx, hx2, hn, ih.mp hn]
      · have : c ∈ xs := by
          by_contra hc
          exact hn (ih.mpr hc)
        simp only [hx, hn, if_false, List.mem_cons, hx2, this, or_true, not_true_eq_false,
          iff_false, not_lt]
        omega

theorem indexChars_append_not_mem (c : Char) (a b : List Char) (h : c ∉ a) :
    indexChars c (a ++ b) = if indexChars c b < 0 then -1 else a.length + indexChars c b := by
  induction a with
  | nil => 
    have := indexChars_ge c b
    simp only [List.nil_append, List.length_nil, Nat.cast_zero, zero_add]
    split <;> omega
  | cons x xs ih =>
    simp only [List.mem_cons, not_or] at h
    have hx : ¬ x = c := fun e => h.1 e.symm
    have ih2 := ih h.2
    have hge := indexChars_ge c b
    rw [List.cons_append, indexChars, if_neg hx, ih2]
    by_cases hb : indexChars c b < 0
    · simp [hb]
    · have : ¬ ((xs.length : Int) + indexChars c b < 0) := by omega
      simp only [hb, if_false, this, List.length_cons, Nat.cast_add, Nat.cast_one]
      omega

theorem indexChars_append_cons (c : Char) (a b : List Char) (h : c ∉ a) :
    indexChars c (a ++ c :: b) = a.length := by
  rw [indexChars_append_not_mem c a _ h]
  simp [indexChars]

end strings

theorem findSome_congr {α β : Type} (l : List α) (f g : α → Option β)
    (h : ∀ a ∈ l, f a = g a) : l.findSome? f = l.findSome? g := by
  induction l with
  | nil => rfl
  | cons a rest ih =>
    rw [List.findSome?_cons, List.findSome?_cons, h a (List.mem_cons_self _ _),
      ih (fun b hb => h b (List.mem_cons_of_mem _ hb))]


namespace strings

theorem rdropWhile_append_of_pos {p : Char → Bool} (a b : List Char) (h : ∀ c ∈ b, p c) :
    List.rdropWhile p (a ++ b) = List.rdropWhile p a := by
  unfold List.rdropWhile
  rw [List.reverse_append, List.dropWhile_append_of_pos]
  intro c hc
  exact h c (List.mem_reverse.mp hc)

theorem rdropWhile_append_rtakeWhile (p : Char → Bool) (l : List Char) :
    List.rdropWhile p l ++ List.rtakeWhile p l = l := by
  unfold List.rdropWhile List.rtakeWhile
  rw [← List.reverse_append, List.takeWhile_append_dropWhile, List.reverse_reverse]

theorem trimSpaceChars_append_left (a x : List Char) (h : ∀ c ∈ a, isSpace c) :
    trimSpaceChars (a ++ x) = trimSpaceChars x := by
  unfold trimSpaceChars
  rw [List.dropWhile_append_of_pos h]

theorem trimSpaceChars_append_right (x b : List Char) (h : ∀ c ∈ b, isSpace c) :
    trimSpaceChars (x ++ b) = trimSpaceChars x := by
  unfold trimSpaceChars
  rw [List.dropWhile_append]
  split
  · rename_i he
    have hx : List.dropWhile isSpace x = [] := by simpa using he
    have hb : List.dropWhile isSpace b = [] := List.dropWhile_eq_nil_iff.mpr h
    rw [hx, hb]
  · exact rdropWhile_append_of_pos _ _ h

/-- A list of characters is its leading white space, its trimmed text and its trailing
white space. -/
theorem trimSpaceChars_decomp (l : List Char) :
    ∃ a b, l = a ++ trimSpaceChars l ++ b ∧ (∀ c ∈ a, isSpace c) ∧ (∀ c ∈ b, isSpace c) := by
  refine ⟨l.takeWhile isSpace, List.rtakeWhile isSpace (l.dropWhile isSpace), ?_, ?_, ?_⟩
  · unfold trimSpaceChars
    rw [List.append_assoc, rdropWhile_append_rtakeWhile, List.takeWhile_append_dropWhile]
  · intro c hc
    exact (List.mem_takeWhile_imp hc)
  · intro c hc
    exact List.mem_rtakeWhile_imp hc

theorem indexChars_split (c : Char) (l : List Char) (h : 0 ≤ indexChars c l) :
    l = l.take (indexChars c l).toNat ++ c :: l.drop ((indexChars c l).toNat + 1) ∧
    c ∉ l.take (indexChars c l).toNat := by
  induction l with
  | nil => simp [indexChars] at h
  | cons x xs ih =>
    by_cases hx : x = c
    · simp [indexChars, hx]
    · have hge := indexChars_ge c xs
      by_cases hn : indexChars c xs < 0
      · simp [indexChars, hx, hn] at h
      · have h0 : 0 ≤ indexChars c xs := by omega
        obtain ⟨ih1, ih2⟩ := ih h0
        have hval : indexChars c (x :: xs) = indexChars c xs + 1 := by
          simp [indexChars, hx, hn]
        have hnat : (indexChars c xs + 1).toNat = (indexChars c xs).toNat + 1 := by omega
        rw [hval, hnat]
        constructor
        · simp only [List.take_succ_cons, List.drop_succ_cons, List.cons_append]
          rw [← ih1]
        · simp only [List.take_succ_cons, List.mem_cons, not_or]
          exact ⟨fun e => hx e.symm, ih2⟩

theorem splitChars_ne_nil (sep : Char) (l : List Char) : splitChars sep l ≠ [] := by
  induction l with
  | nil => simp [splitChars]
  | cons x xs ih =>
    unfold splitChars
    split
    · simp
    · split <;> simp

/-- The pieces of a split, joined again with the separator, are the text that was
split. -/
theorem splitChars_intercalate (sep : Char) (l : List Char) :
    List.intercalate [sep] (splitChars sep l) = l := by
  induction l with
  | nil => simp [splitChars, List.intercalate]
  | cons x xs ih =>
    unfold splitChars
    by_cases hx : x = sep
    · simp only [hx, if_true]
      rcases hs : splitChars sep xs with _ | ⟨p, ps⟩
      · exact absurd hs (splitChars_ne_nil sep xs)
      · rw [hs] at ih
        rw [← ih]
        simp [List.intercalate, List.intersperse]
    · simp only [hx, if_false]
      rcases hs : splitChars sep xs with _ | ⟨p, ps⟩
      · exact absurd hs (splitChars_ne_nil sep xs)
      · rw [hs] at ih
        rw [← ih]
        cases ps <;> simp [List.intercalate, List.intersperse]

/-- No piece of a split holds the separator. -/
theorem splitChars_no_sep (sep : Char) (l : List Char) :
    ∀ p ∈ splitChars sep l, sep ∉ p := by
  induction l with
  | nil => simp [splitChars]
  | cons x xs ih =>
    unfold splitChars
    by_cases hx : x = sep
    · simp only [hx, if_true, List.mem_cons]
      rintro p (rfl | hp)
      · simp
      · exact ih p hp
    · simp only [hx, if_false]
      rcases hs : splitChars sep xs with _ | ⟨q, qs⟩
      · exact absurd hs (splitChars_ne_nil sep xs)
      · rw [hs] at ih
        simp only [List.mem_cons]
        rintro p (rfl | hp)
        · simp only [List.mem_cons, not_or]
          exact ⟨fun e => hx e.symm, ih q (List.mem_cons_self _ _)⟩
        · exact ih p (List.mem_cons_of_mem _ hp)

end strings

theorem len_pos_iff (s : String) : len s > 0 ↔ s ≠ "" := by
  obtain ⟨l⟩ := s
  cases l with
  | nil => simp [len, String.utf8ByteSize, String.utf8ByteSize.go]
  | cons c cs =>
    have := Char.utf8Size_pos c
    simp only [len, String.utf8ByteSize, String.utf8ByteSize.go, gt_iff_lt, ne_eq, String.ext_iff]
    constructor
    · intro _ h; simp at h
    · intro _; omega

/-! # Lemmas on the binary64 arithmetic -/

namespace commands


theorem log2Fuel_eq (fuel n : Nat) (h : n ≤ fuel) : log2Fuel fuel n = Nat.log 2 n := by
  induction fuel generalizing n with
  | zero =>
    have : n = 0 := by omega
    subst this
    simp [log2Fuel]
  | succ k ih =>
    unfold log2Fuel
    split
    · rename_i hlt
      rw [Nat.log_of_lt hlt]
    · rename_i hge
      rw [ih (n / 2) (by omega)]
      conv_rhs => rw [Nat.log]
      simp only [show 2 ≤ n by omega, true_and, Nat.one_lt_ofNat, ↓reduceDIte]

theorem log2_eq (n : Nat) : log2 n = Nat.log 2 n := log2Fuel_eq n n le_rfl

theorem log2_spec (n : Nat) (h : 0 < n) : 2 ^ log2 n ≤ n ∧ n < 2 ^ (log2 n + 1) := by
  rw [log2_eq]
  exact ⟨Nat.pow_log_le_self 2 (by omega), Nat.lt_pow_succ_log_self (by norm_num) n⟩

theorem ilog2_spec (a b : Nat) (ha : 0 < a) (hb : 0 < b) :
    (2 : ℚ) ^ (ilog2 a b) ≤ (a : ℚ) / b ∧ (a : ℚ) / b < (2 : ℚ) ^ (ilog2 a b + 1) := by
  obtain ⟨ha1, ha2⟩ := log2_spec a ha
  obtain ⟨hb1, hb2⟩ := log2_spec b hb
  have hbq : (0 : ℚ) < b := by exact_mod_cast hb
  have ha1q : ((2 : ℚ) ^ (log2 a : ℤ)) ≤ a := by
    rw [zpow_natCast]; exact_mod_cast ha1
  have ha2q : (a : ℚ) < (2 : ℚ) ^ ((log2 a : ℤ) + 1) := by
    rw [show ((log2 a : ℤ) + 1) = ((log2 a + 1 : ℕ) : ℤ) by push_cast; ring, zpow_natCast]
    exact_mod_cast ha2
  have hb1q : ((2 : ℚ) ^ (log2 b : ℤ)) ≤ b := by
    rw [zpow_natCast]; exact_mod_cast hb1
  have hb2q : (b : ℚ) < (2 : ℚ) ^ ((log2 b : ℤ) + 1) := by
    rw [show ((log2 b : ℤ) + 1) = ((log2 b + 1 : ℕ) : ℤ) by push_cast; ring, zpow_natCast]
    exact_mod_cast hb2
  have h2 : (0 : ℚ) < 2 := by norm_num
  have hpa : (0 : ℚ) < (2 : ℚ) ^ (log2 a : ℤ) := zpow_pos h2 _
  have hpb : (0 : ℚ) < (2 : ℚ) ^ (log2 b : ℤ) := zpow_pos h2 _
  unfold ilog2
  split
  · rename_i hle
    have hleq : (b : ℚ) * (2 : ℚ) ^ (log2 a : ℤ) ≤ a * (2 : ℚ) ^ (log2 b : ℤ) := by
      rw [zpow_natCast, zpow_natCast]; exact_mod_cast hle
    constructor
    · rw [zpow_sub₀ (by norm_num), div_le_div_iff₀ hpb hbq]
      linarith
    · rw [show ((log2 a : ℤ) - log2 b + 1) = ((log2 a : ℤ) + 1) - log2 b by ring,
        zpow_sub₀ (by norm_num), div_lt_div_iff₀ hbq hpb]
      nlinarith
  · rename_i hle
    have hleq : (a : ℚ) * (2 : ℚ) ^ (log2 b : ℤ) < b * (2 : ℚ) ^ (log2 a : ℤ) := by
      rw [zpow_natCast, zpow_natCast]; exact_mod_cast (not_le.mp hle)
    constructor
    · rw [show ((log2 a : ℤ) - log2 b - 1) = (log2 a : ℤ) - ((log2 b : ℤ) + 1) by ring,
        zpow_sub₀ (by norm_num), div_le_div_iff₀ (zpow_pos h2 _) hbq]
      nlinarith
    · rw [show ((log2 a : ℤ) - log2 b - 1 + 1) = (log2 a : ℤ) - log2 b by ring,
        zpow_sub₀ (by norm_num), div_lt_div_iff₀ hbq hpb]
      linarith

theorem roundHalfEven_near (a b : Nat) (hb : 0 < b) :
    |((roundHalfEven a b : ℕ) : ℚ) - (a : ℚ) / b| ≤ 1 / 2 := by
  have hbq : (0 : ℚ) < b := by exact_mod_cast hb
  have hdm : (a : ℚ) = b * (a / b : ℕ) + (a % b : ℕ) := by
    exact_mod_cast (Nat.div_add_mod a b).symm
  have hmod : ((a % b : ℕ) : ℚ) < b := by exact_mod_cast Nat.mod_lt a hb
  have hmod0 : (0 : ℚ) ≤ ((a % b : ℕ) : ℚ) := by positivity
  have hq : (a : ℚ) / b = (a / b : ℕ) + ((a % b : ℕ) : ℚ) / b := by
    field_simp
    linarith
  unfold roundHalfEven
  split
  · rename_i h
    have hq2 : (2 : ℚ) * (a % b : ℕ) < b := by exact_mod_cast h
    rw [hq, abs_le]
    constructor
    · have : ((a % b : ℕ) : ℚ) / b ≤ 1 / 2 := by
        rw [div_le_div_iff₀ hbq (by norm_num)]; linarith
      linarith
    · have : 0 ≤ ((a % b : ℕ) : ℚ) / b := by positivity
      linarith
  · split
    · rename_i h1 h
      have hq2 : (b : ℚ) < 2 * (a % b : ℕ) := by exact_mod_cast h
      rw [hq, abs_le]
      push_cast
      constructor
      · have : ((a % b : ℕ) : ℚ) / b ≤ 1 := by
          rw [div_le_one hbq]; linarith
        linarith
      · have : 1 / 2 ≤ ((a % b : ℕ) : ℚ) / b := by
          rw [div_le_div_iff₀ (by norm_num) hbq]; linarith
        linarith
    · rename_i h1 h2
      have heq : 2 * (a % b) = b := by omega
      have heqq : (2 : ℚ) * (a % b : ℕ) = b := by exact_mod_cast heq
      have hhalf : ((a % b : ℕ) : ℚ) / b = 1 / 2 := by
        rw [div_eq_div_iff (ne_of_gt hbq) (by norm_num)]; linarith
      split
      · rw [hq, hhalf, abs_le]; constructor <;> linarith
      · rw [hq, hhalf, abs_le]; push_cast; constructor <;> linarith



theorem int_nearest (m N : ℤ) (X : ℚ) (h : |(m : ℚ) - X| ≤ 1 / 2) :
    |(m : ℚ) - X| ≤ |(N : ℚ) - X| := by
  by_cases hmN : N = m
  · rw [hmN]
  · have h1 : (1 : ℚ) ≤ |(N : ℚ) - m| := by
      have : (1 : ℤ) ≤ |N - m| := Int.one_le_abs (sub_ne_zero.mpr hmN)
      exact_mod_cast this
    have h2 : |(N : ℚ) - m| ≤ |(N : ℚ) - X| + |(m : ℚ) - X| := by
      have := abs_sub_le (N : ℚ) X m
      rwa [abs_sub_comm X (m : ℚ)] at this
    linarith

/-- The value of the rounding of a positive fraction: a multiple `m * 2 ^ s` of the
unit in the last place, with `m` a nearest integer to the scaled value. -/
theorem round64_pos (x : Frac) (hnum : 0 < x.num) (hden : 0 < x.den) :
    ∃ m : ℕ, (round64 x).val = (m : ℚ) * (2 : ℚ) ^ (max (ilog2 x.num.natAbs x.den) (-1022) - 52) ∧
      |(m : ℚ) - x.val / (2 : ℚ) ^ (max (ilog2 x.num.natAbs x.den) (-1022) - 52)| ≤ 1 / 2 ∧
      0 < (round64 x).den := by
  have hne : x.num ≠ 0 := by omega
  have hnl : ¬ x.num < 0 := by omega
  have hxval : x.val = (x.num.natAbs : ℚ) / x.den := by
    unfold Frac.val
    have h1 : (x.num.natAbs : ℤ) = x.num := Int.natAbs_of_nonneg (by omega)
    have h2 : ((x.num.natAbs : ℤ) : ℚ) = (x.num : ℚ) := by rw [h1]
    rw [← h2, Int.cast_natCast]
  have hbq : (0 : ℚ) < x.den := by exact_mod_cast hden
  unfold round64
  simp only [hne, if_false, hnl]
  generalize max (ilog2 x.num.natAbs x.den) (-1022) - 52 = s
  have h2 : (0 : ℚ) < 2 := by norm_num
  by_cases hs : 0 ≤ s
  · simp only [hs, if_true]
    have hpow : ((2 ^ s.toNat : ℕ) : ℚ) = (2 : ℚ) ^ s := by
      have : s = (s.toNat : ℤ) := (Int.toNat_of_nonneg hs).symm
      conv_rhs => rw [this, zpow_natCast]
      push_cast; rfl
    have hB : 0 < x.den * 2 ^ s.toNat := Nat.mul_pos hden (Nat.two_pow_pos _)
    refine ⟨roundHalfEven x.num.natAbs (x.den * 2 ^ s.toNat), ?_, ?_, by norm_num⟩
    · unfold Frac.val
      push_cast
      rw [← hpow]
      push_cast
      simp
    · have := roundHalfEven_near x.num.natAbs (x.den * 2 ^ s.toNat) hB
      rw [hxval, ← hpow]
      push_cast at this ⊢
      rw [div_div]
      exact this
  · simp only [hs, if_false]
    have hs2 : 0 ≤ -s := by omega
    have hpow : ((2 ^ (-s).toNat : ℕ) : ℚ) = (2 : ℚ) ^ (-s) := by
      have : -s = ((-s).toNat : ℤ) := (Int.toNat_of_nonneg hs2).symm
      conv_rhs => rw [this, zpow_natCast]
      push_cast; rfl
    have hpp : (0 : ℚ) < (2 : ℚ) ^ (-s) := zpow_pos h2 _
    refine ⟨roundHalfEven (x.num.natAbs * 2 ^ (-s).toNat) x.den, ?_, ?_, Nat.two_pow_pos _⟩
    · unfold Frac.val
      simp only [Int.cast_natCast]
      rw [hpow, zpow_neg, div_eq_mul_inv, inv_inv]
    · have := roundHalfEven_near (x.num.natAbs * 2 ^ (-s).toNat) x.den hden
      rw [hxval]
      push_cast at this
      rw [show ((2 : ℚ) ^ (-s).toNat) = (2 : ℚ) ^ (-s) by
        have := hpow; push_cast at this; exact this] at this
      rw [zpow_neg] at this
      have e : (x.num.natAbs : ℚ) / x.den / (2 : ℚ) ^ s =
          (x.num.natAbs : ℚ) * ((2 : ℚ) ^ s)⁻¹ / x.den := by
        field_simp
        left
        ring
      rw [e]
      exact this



theorem abs_scale (m v P : ℚ) (hP : 0 < P) : |m * P - v| = |m - v / P| * P := by
  have : m * P - v = (m - v / P) * P := by field_simp
  rw [this, abs_mul, abs_of_pos hP]

/-- Rounding a positive fraction gives a value at least as near to it as any
non-negative value with a 53 bit significand. -/
theorem round64_nearest_pos (x : Frac) (hnum : 0 < x.num) (hden : 0 < x.den)
    (n : ℕ) (t : ℤ) (hn : n < 2 ^ 53) (ht : -1074 ≤ t) :
    |(round64 x).val - x.val| ≤ |(n : ℚ) * (2 : ℚ) ^ t - x.val| := by
  obtain ⟨m, hval, hnear, _⟩ := round64_pos x hnum hden
  have ha : 0 < x.num.natAbs := Int.natAbs_pos.mpr (by omega)
  obtain ⟨hlo, _⟩ := ilog2_spec x.num.natAbs x.den ha hden
  have hxval : x.val = (x.num.natAbs : ℚ) / x.den := by
    unfold Frac.val
    have h1 : (x.num.natAbs : ℤ) = x.num := Int.natAbs_of_nonneg (by omega)
    have h2 : ((x.num.natAbs : ℤ) : ℚ) = (x.num : ℚ) := by rw [h1]
    rw [← h2, Int.cast_natCast]
  rw [← hxval] at hlo
  generalize ilog2 x.num.natAbs x.den = e at hval hnear hlo
  rw [hval]
  have h2 : (0 : ℚ) < 2 := by norm_num
  have hP : (0 : ℚ) < (2 : ℚ) ^ (max e (-1022) - 52) := zpow_pos h2 _
  by_cases hts : max e (-1022) - 52 ≤ t
  · -- the candidate is a multiple of the unit in the last place
    have hd : 0 ≤ t - (max e (-1022) - 52) := by omega
    have hsplit : (n : ℚ) * (2 : ℚ) ^ t =
        (((n * 2 ^ (t - (max e (-1022) - 52)).toNat : ℕ) : ℤ) : ℚ) *
          (2 : ℚ) ^ (max e (-1022) - 52) := by
      have e1 : t = (max e (-1022) - 52) + ((t - (max e (-1022) - 52)).toNat : ℤ) := by
        rw [Int.toNat_of_nonneg hd]; ring
      conv_lhs => rw [e1, zpow_add₀ (by norm_num : (2 : ℚ) ≠ 0), zpow_natCast]
      push_cast
      ring
    rw [hsplit, abs_scale _ _ _ hP, abs_scale _ _ _ hP]
    apply mul_le_mul_of_nonneg_right _ hP.le
    have := int_nearest (m : ℤ) ((n * 2 ^ (t - (max e (-1022) - 52)).toNat : ℕ) : ℤ)
      (x.val / (2 : ℚ) ^ (max e (-1022) - 52)) (by exact_mod_cast hnear)
    exact_mod_cast this
  · -- the candidate lies below the binade of the value
    have hlt : t < max e (-1022) - 52 := by omega
    have he : max e (-1022) = e := by
      rcases le_total e (-1022) with h | h
      · rw [max_eq_right h] at hlt; omega
      · exact max_eq_left h
    rw [he] at hlt hP hnear ⊢
    have hbelow : (n : ℚ) * (2 : ℚ) ^ t ≤ (2 : ℚ) ^ e := by
      have h1 : (n : ℚ) ≤ (2 : ℚ) ^ (53 : ℤ) := by
        have : (n : ℚ) ≤ ((2 ^ 53 : ℕ) : ℚ) := by exact_mod_cast hn.le
        have e53 : ((2 ^ 53 : ℕ) : ℚ) = (2 : ℚ) ^ (53 : ℤ) := by norm_num
        rwa [e53] at this
      have h3 : (2 : ℚ) ^ t ≤ (2 : ℚ) ^ (e - 53) :=
        zpow_le_zpow_right₀ (by norm_num) (by omega)
      calc (n : ℚ) * (2 : ℚ) ^ t ≤ (2 : ℚ) ^ (53 : ℤ) * (2 : ℚ) ^ (e - 53) :=
            mul_le_mul h1 h3 (zpow_pos h2 _).le (zpow_pos h2 _).le
        _ = (2 : ℚ) ^ e := by
            rw [← zpow_add₀ (by norm_num : (2 : ℚ) ≠ 0)]; congr 1; ring
    have hpow : (2 : ℚ) ^ e = (((2 ^ 52 : ℕ) : ℤ) : ℚ) * (2 : ℚ) ^ (e - 52) := by
      have : (((2 ^ 52 : ℕ) : ℤ) : ℚ) = (2 : ℚ) ^ (52 : ℤ) := by norm_num
      rw [this, ← zpow_add₀ (by norm_num : (2 : ℚ) ≠ 0)]; congr 1; ring
    have hnear2 : |(m : ℚ) * (2 : ℚ) ^ (e - 52) - x.val| ≤ |(2 : ℚ) ^ e - x.val| := by
      rw [hpow, abs_scale _ _ _ hP, abs_scale _ _ _ hP]
      apply mul_le_mul_of_nonneg_right _ hP.le
      have := int_nearest (m : ℤ) ((2 ^ 52 : ℕ) : ℤ) (x.val / (2 : ℚ) ^ (e - 52))
        (by exact_mod_cast hnear)
      exact_mod_cast this
    calc |(m : ℚ) * (2 : ℚ) ^ (e - 52) - x.val| ≤ |(2 : ℚ) ^ e - x.val| := hnear2
      _ = x.val - (2 : ℚ) ^ e := by rw [abs_sub_comm, abs_of_nonneg (by linarith)]
      _ ≤ x.val - (n : ℚ) * (2 : ℚ) ^ t := by linarith
      _ = |(n : ℚ) * (2 : ℚ) ^ t - x.val| := by
          rw [abs_sub_comm, abs_of_nonneg (by linarith)]

theorem round64_zero (x : Frac) (h : x.num = 0) : (round64 x).val = 0 ∧ x.val = 0 := by
  unfold round64 Frac.val
  simp [h]

theorem round64_neg (x : Frac) (h : x.num < 0) :
    (round64 x).val = -(round64 ⟨-x.num, x.den⟩).val := by
  have hne : x.num ≠ 0 := by omega
  have hne2 : -x.num ≠ 0 := by omega
  have hnl : ¬ (-x.num < 0) := by omega
  unfold round64 Frac.val
  simp only [hne, hne2, h, hnl, if_true, if_false, Int.natAbs_neg]
  split <;> simp [neg_div]

theorem round64_nearest_nonneg (x : Frac) (hnum : 0 < x.num) (hden : 0 < x.den)
    (f : ℚ) (hf : Representable f) :
    |(round64 x).val - x.val| ≤ |f - x.val| := by
  obtain ⟨n, t, hn, ht, rfl⟩ := hf
  have hxpos : 0 < x.val := by
    unfold Frac.val
    exact div_pos (by exact_mod_cast hnum) (by exact_mod_cast hden)
  have h2 : (0 : ℚ) < (2 : ℚ) ^ t := zpow_pos (by norm_num) _
  rcases le_or_lt 0 n with h0 | h0
  · have hnat : ((n.toNat : ℕ) : ℤ) = n := Int.toNat_of_nonneg h0
    have := round64_nearest_pos x hnum hden n.toNat t
      (by have : |n| = n := abs_of_nonneg h0
          omega) ht
    have hc : ((n.toNat : ℕ) : ℚ) = (n : ℚ) := by exact_mod_cast hnat
    rwa [hc] at this
  · have h1 := round64_nearest_pos x hnum hden 0 t (by norm_num) ht
    have hneg : (n : ℚ) * (2 : ℚ) ^ t < 0 :=
      mul_neg_of_neg_of_pos (by exact_mod_cast h0) h2
    calc |(round64 x).val - x.val| ≤ |((0 : ℕ) : ℚ) * (2 : ℚ) ^ t - x.val| := h1
      _ = x.val := by simp [abs_of_pos hxpos]
      _ ≤ |(n : ℚ) * (2 : ℚ) ^ t - x.val| := by
          rw [abs_sub_comm, abs_of_pos (by linarith)]; linarith

theorem representable_neg (f : ℚ) (hf : Representable f) : Representable (-f) := by
  obtain ⟨n, t, hn, ht, rfl⟩ := hf
  exact ⟨-n, t, by rwa [abs_neg], ht, by push_cast; ring⟩

/-- Rounding gives a value at least as near to the exact one as any value with a
53 bit significand. -/
theorem round64_nearest (x : Frac) (hden : 0 < x.den) (f : ℚ) (hf : Representable f) :
    |(round64 x).val - x.val| ≤ |f - x.val| := by
  rcases lt_trichotomy x.num 0 with h | h | h
  · rw [round64_neg x h]
    have hx : x.val = -(Frac.val ⟨-x.num, x.den⟩) := by
      unfold Frac.val; push_cast; rw [neg_div, neg_neg]
    have := round64_nearest_nonneg ⟨-x.num, x.den⟩ (by simp; omega) hden (-f)
      (representable_neg f hf)
    rw [hx]
    calc |-(round64 ⟨-x.num, x.den⟩).val - -(Frac.val ⟨-x.num, x.den⟩)|
        = |(round64 ⟨-x.num, x.den⟩).val - (Frac.val ⟨-x.num, x.den⟩)| := by
          rw [← abs_neg]; congr 1; ring
      _ ≤ |-f - Frac.val ⟨-x.num, x.den⟩| := this
      _ = |f - -(Frac.val ⟨-x.num, x.den⟩)| := by
          rw [← abs_neg]; congr 1; ring
  · obtain ⟨h1, h2⟩ := round64_zero x h
    rw [h1, h2]
    simp
  · exact round64_nearest_nonneg x h hden f hf

/-- Rounding does not cross a value with a 53 bit significand, from below. -/
theorem round64_le (x : Frac) (hden : 0 < x.den) (f : ℚ) (hf : Representable f)
    (h : x.val ≤ f) : (round64 x).val ≤ f := by
  by_contra hc
  push_neg at hc
  have := round64_nearest x hden f hf
  rw [abs_of_pos (by linarith), abs_of_nonneg (by linarith)] at this
  linarith

/-- Rounding does not cross a value with a 53 bit significand, from above. -/
theorem round64_ge (x : Frac) (hden : 0 < x.den) (f : ℚ) (hf : Representable f)
    (h : f ≤ x.val) : f ≤ (round64 x).val := by
  by_contra hc
  push_neg at hc
  have := round64_nearest x hden f hf
  rw [abs_sub_comm, abs_of_pos (by linarith), abs_sub_comm, abs_of_nonneg (by linarith)] at this
  linarith

theorem round64_den_pos (x : Frac) (hden : 0 < x.den) : 0 < (round64 x).den := by
  rcases lt_trichotomy x.num 0 with h | h | h
  · have hne : x.num ≠ 0 := by omega
    unfold round64
    simp only [hne, if_false, h, if_true]
    split
    · norm_num
    · exact Nat.two_pow_pos _
  · unfold round64; simp [h]
  · exact (round64_pos x h hden).choose_spec.2.2



theorem Frac.val_add (x y : Frac) (hx : 0 < x.den) (hy : 0 < y.den) :
    (x.add y).val = x.val + y.val ∧ 0 < (x.add y).den := by
  have hxq : (x.den : ℚ) ≠ 0 := by exact_mod_cast hx.ne'
  have hyq : (y.den : ℚ) ≠ 0 := by exact_mod_cast hy.ne'
  constructor
  · unfold Frac.add Frac.val
    push_cast
    field_simp
  · exact Nat.mul_pos hx hy

theorem Frac.val_div (x y : Frac) (hx : 0 < x.den) (hy : 0 < y.den) (hn : 0 < y.num) :
    (x.div y).val = x.val / y.val ∧ 0 < (x.div y).den := by
  have hxq : (x.den : ℚ) ≠ 0 := by exact_mod_cast hx.ne'
  have hyq : (y.den : ℚ) ≠ 0 := by exact_mod_cast hy.ne'
  have hnq : (y.num : ℚ) ≠ 0 := by exact_mod_cast hn.ne'
  have hsign : Int.sign y.num = 1 := Int.sign_eq_one_of_pos hn
  have habs : ((y.num.natAbs : ℕ) : ℚ) = (y.num : ℚ) := by
    have h1 : (y.num.natAbs : ℤ) = y.num := Int.natAbs_of_nonneg hn.le
    have h2 : ((y.num.natAbs : ℤ) : ℚ) = (y.num : ℚ) := by rw [h1]
    rw [← h2, Int.cast_natCast]
  constructor
  · unfold Frac.div Frac.val
    simp only [hsign, mul_one]
    push_cast
    rw [habs]
    field_simp
  · exact Nat.mul_pos hx (Int.natAbs_pos.mpr hn.ne')

theorem representable_int (n : ℤ) (h : |n| < 2 ^ 53) : Representable (n : ℚ) :=
  ⟨n, 0, h, by norm_num, by simp⟩

theorem float64_val (n : ℤ) (h : |n| < 2 ^ 53) :
    (float64 n).val = n ∧ 0 < (float64 n).den := by
  have hv : (Frac.val ⟨n, 1⟩) = n := by simp [Frac.val]
  refine ⟨le_antisymm ?_ ?_, round64_den_pos _ (by norm_num)⟩
  · exact round64_le ⟨n, 1⟩ (by norm_num) n (representable_int n h) (by rw [hv])
  · exact round64_ge ⟨n, 1⟩ (by norm_num) n (representable_int n h) (by rw [hv])

theorem Frac.trunc_eq (x : Frac) (k : ℤ) (hden : 0 < x.den) (hk : 0 ≤ k)
    (hlo : (k : ℚ) ≤ x.val) (hhi : x.val < k + 1) : x.trunc = k := by
  have hdq : (0 : ℚ) < x.den := by exact_mod_cast hden
  unfold Frac.val at hlo hhi
  rw [le_div_iff₀ hdq] at hlo
  rw [div_lt_iff₀ hdq] at hhi
  have h1 : k * x.den ≤ x.num := by exact_mod_cast hlo
  have h2 : x.num < (k + 1) * x.den := by exact_mod_cast hhi
  have hnn : 0 ≤ x.num := le_trans (by positivity) h1
  have hd : (0 : ℤ) < x.den := by exact_mod_cast hden
  unfold Frac.trunc
  rw [Int.tdiv_eq_ediv hnn hd.le]
  apply le_antisymm
  · have := Int.ediv_lt_of_lt_mul hd h2
    omega
  · exact Int.le_ediv_of_mul_le hd h1

/-- formatAge is the bucket of `h` and `days` as soon as the float64 hours truncate to
`h` and the float64 days truncate to `days`. -/
theorem formatAge_of_trunc (d h days : ℤ) (hh : 0 ≤ h) (hhd : days = h / 24)
    (h1 : (Hours d).trunc = h)
    (h2 : (round64 ((Hours d).div (float64 24))).trunc = days) :
    formatAge d = ageBucket h days := by
  unfold formatAge ageBucket
  simp only [h1, h2]
  have hd0 : 0 ≤ days := by omega
  by_cases c0 : days = 0
  · have : h ≤ 23 := by omega
    simp only [c0, if_true]
    by_cases c1 : h = 0
    · simp [c1]
    · by_cases c2 : h = 1
      · simp [c2]
      · simp [c1, c2, this]
  · have hge : ¬ h ≤ 23 := by omega
    have hne0 : ¬ h = 0 := by omega
    have hne1 : ¬ h = 1 := by omega
    simp only [c0, if_false, hne0, hne1, hge]
    by_cases c1 : days = 1
    · simp [c1]
    · simp only [c1, if_false]
      have ht : Int.tdiv days 7 = days / 7 := Int.tdiv_eq_ediv hd0 (by norm_num)
      rw [ht]
      by_cases c6 : days ≤ 6
      · have : ¬ (days / 7 ≥ 1) := by omega
        simp [this, c6]
      · have hw : days / 7 ≥ 1 := by omega
        simp only [hw, if_true, c6, if_false]
        by_cases c13 : days ≤ 13
        · have : days / 7 = 1 := by omega
          simp [this, c13]
        · have : ¬ days / 7 = 1 := by omega
          simp [this, c13]



theorem Frac.num_pos_of_val_pos (x : Frac) (hden : 0 < x.den) (h : 0 < x.val) : 0 < x.num := by
  unfold Frac.val at h
  have hdq : (0 : ℚ) < x.den := by exact_mod_cast hden
  have : (0 : ℚ) < x.num := by
    by_contra hc
    push_neg at hc
    have := div_nonpos_of_nonpos_of_nonneg hc hdq.le
    linarith
  exact_mod_cast this

/-- Bounds on the float64 hours of a non-negative duration, from a bound on the
fraction of an hour and bounds on the sum, all with 53 bit significands. -/
theorem Hours_bounds (d : ℤ) (h0 : 0 ≤ d) (hlt : d < 2 ^ 63) (lo hi qhi : ℚ)
    (rlo : Representable lo) (rhi : Representable hi) (rq : Representable qhi)
    (h1 : ((d % Hour : ℤ) : ℚ) / 3600000000000 ≤ qhi)
    (h2 : lo ≤ ((d / Hour : ℤ) : ℚ))
    (h3 : ((d / Hour : ℤ) : ℚ) + qhi ≤ hi) :
    lo ≤ (Hours d).val ∧ (Hours d).val ≤ hi ∧ 0 < (Hours d).den := by
  have hH : (0 : ℤ) < Hour := by decide
  have hdiv : Int.tdiv d Hour = d / Hour := Int.tdiv_eq_ediv h0 hH.le
  have hmod : Int.tmod d Hour = d % Hour := Int.tmod_eq_emod h0 hH.le
  have hq0 : 0 ≤ d / Hour := Int.ediv_nonneg h0 hH.le
  have hqlt : d / Hour < 2 ^ 53 := by
    have : d / Hour ≤ d := Int.ediv_le_self _ h0
    have h64 : d / Hour < 2 ^ 63 / Hour + 1 := by
      have := Int.ediv_le_ediv hH (show d ≤ 2 ^ 63 by omega)
      omega
    have : (2 : ℤ) ^ 63 / Hour + 1 < 2 ^ 53 := by decide
    omega
  have hr0 : 0 ≤ d % Hour := Int.emod_nonneg _ hH.ne'
  have hrlt : d % Hour < Hour := Int.emod_lt_of_pos _ hH
  have hHour : Hour = 3600000000000 := rfl
  obtain ⟨fh, fhd⟩ := float64_val (d / Hour) (by rw [abs_of_nonneg hq0]; exact hqlt)
  obtain ⟨fn, fnd⟩ := float64_val (d % Hour) (by
    rw [abs_of_nonneg hr0]
    have : Hour < 2 ^ 53 := by decide
    omega)
  obtain ⟨fc, fcd⟩ := float64_val 3600000000000 (by decide)
  have fcn : 0 < (float64 3600000000000).num :=
    Frac.num_pos_of_val_pos _ fcd (by rw [fc]; norm_num)
  obtain ⟨xv, xd⟩ := Frac.val_div _ _ fnd fcd fcn
  rw [fn, fc] at xv
  have hq_hi := round64_le _ xd qhi rq (by rw [xv]; exact_mod_cast h1)
  have hq_lo := round64_ge _ xd 0 ⟨0, 0, by norm_num, by norm_num, by simp⟩ (by
    rw [xv]
    have : (0 : ℚ) ≤ ((d % Hour : ℤ) : ℚ) := by exact_mod_cast hr0
    positivity)
  have hqd := round64_den_pos _ xd
  obtain ⟨yv, yd⟩ := Frac.val_add _ _ fhd hqd
  rw [fh] at yv
  unfold Hours
  rw [hdiv, hmod]
  refine ⟨?_, ?_, round64_den_pos _ yd⟩
  · apply round64_ge _ yd lo rlo
    rw [yv]; linarith
  · apply round64_le _ yd hi rhi
    rw [yv]; linarith

/-- Bounds on the float64 quotient by 24 of a float64 value. -/
theorem div24_bounds (H : Frac) (hden : 0 < H.den) (lo hi : ℚ)
    (rlo : Representable lo) (rhi : Representable hi)
    (h1 : lo ≤ H.val / 24) (h2 : H.val / 24 ≤ hi) :
    lo ≤ (round64 (H.div (float64 24))).val ∧ (round64 (H.div (float64 24))).val ≤ hi ∧
      0 < (round64 (H.div (float64 24))).den := by
  obtain ⟨fc, fcd⟩ := float64_val 24 (by decide)
  have fcn : 0 < (float64 24).num := Frac.num_pos_of_val_pos _ fcd (by rw [fc]; norm_num)
  obtain ⟨zv, zd⟩ := Frac.val_div H _ hden fcd fcn
  rw [fc] at zv
  refine ⟨?_, ?_, round64_den_pos _ zd⟩
  · apply round64_ge _ zd lo rlo
    rw [zv]; exact_mod_cast h1
  · apply round64_le _ zd hi rhi
    rw [zv]; exact_mod_cast h2

end commands

/-! # Theorems -/

namespace hooks

/-! ## Hook executor -/

theorem runHook_ok {σ : Type} (os : OS σ) (entry : HookEntry) (env : Env) (workDir : String)
    (w w1 : World σ) (h : runHook os entry env workDir w = (w1, none)) :
    w1.runs = w.runs ++ [hookCmd os entry env workDir false] := by
  unfold runHook at h
  split at h
  · simp at h
  · simp only [cmdRun, Prod.mk.injEq] at h
    rw [← h.1]

theorem runHook_err {σ : Type} (os : OS σ) (entry : HookEntry) (env : Env) (workDir : String)
    (w w1 : World σ) (err : String) (h : runHook os entry env workDir w = (w1, some err)) :
    w1.runs = w.runs ∨ w1.runs = w.runs ++ [hookCmd os entry env workDir false] := by
  unfold runHook at h
  split at h
  · simp only [Prod.mk.injEq] at h
    left; rw [← h.1]
  · simp only [cmdRun, Prod.mk.injEq] at h
    right; rw [← h.1]

/-- The example of C1: in the stage `a.sh, fail.sh, c.sh` the second entry fails; Run
returns its error, the sentinels of the first two scripts exist and that of the third
does not, and two commands were run. -/
theorem Run_three_entries_second_fails :
    (Run sampleOS [⟨"hooks/a.sh", []⟩, ⟨"hooks/fail.sh", []⟩, ⟨"hooks/c.sh", []⟩]
        sampleEnv "/repo" sampleWorld).2 = some "exit status 1" ∧
    (Run sampleOS [⟨"hooks/a.sh", []⟩, ⟨"hooks/fail.sh", []⟩, ⟨"hooks/c.sh", []⟩]
        sampleEnv "/repo" sampleWorld).1.sys =
      ["/repo/hooks/a.sh", "/repo/hooks/fail.sh", "/repo/hooks/c.sh",
        "/repo/hooks/a.sh.ran", "/repo/hooks/fail.sh.ran"] ∧
    ((Run sampleOS [⟨"hooks/a.sh", []⟩, ⟨"hooks/fail.sh", []⟩, ⟨"hooks/c.sh", []⟩]
        sampleEnv "/repo" sampleWorld).1.runs.map Cmd.Args) =
      [["/bin/bash", "/repo/hooks/a.sh"], ["/bin/bash", "/repo/hooks/fail.sh"]] := by
  decide

/-- C7. ToEnvVars returns the five context variables in the fixed order, followed by
`WT_INDEX=<decimal index>` exactly when the index is positive; an entry named
`WT_INDEX` is present if and only if the index is positive. -/
theorem ToEnvVars_entries (e : Env) :
    e.ToEnvVars =
      ["WT_NAME=" ++ e.Name, "WT_PATH=" ++ e.Path, "WT_BRANCH=" ++ e.Branch,
        "WT_REPO_ROOT=" ++ e.RepoRoot, "WT_WORKTREE_DIR=" ++ e.WorktreeDir] ++
      (if 0 < e.Index then ["WT_INDEX=" ++ Nat.repr e.Index.toNat] else []) ∧
    ((∃ v, "WT_INDEX=" ++ v ∈ e.ToEnvVars) ↔ 0 < e.Index) := by
  constructor
  · unfold Env.ToEnvVars Itoa
    by_cases h : 0 < e.Index
    · have h2 : ¬ e.Index < 0 := by omega
      simp [h, h2]
    · simp [h]
  · unfold Env.ToEnvVars Itoa
    by_cases h : 0 < e.Index
    · simp only [gt_iff_lt, h, if_true, iff_true]
      refine ⟨Itoa e.Index, ?_⟩
      simp [Itoa]
    · simp only [gt_iff_lt, h, if_false, iff_false]
      rintro ⟨v, hv⟩
      simp only [List.mem_cons, String.ext_iff, String.data_append, List.mem_singleton,
        List.not_mem_nil, or_false] at hv
      rcases hv with hv | hv | hv | hv | hv <;> simp at hv

/-! ## Environment of the hook process -/

theorem cmdEnv_eq {σ : Type} (os : OS σ) (entry : HookEntry) (env : Env) :
    cmdEnv os entry env =
      os.Environ ++ env.ToEnvVars ++ entry.Env.map (fun kv => kv.1 ++ "=" ++ kv.2) := by
  unfold cmdEnv
  generalize os.Environ ++ env.ToEnvVars = acc
  induction entry.Env generalizing acc with
  | nil => simp
  | cons kv rest ih => simp [List.foldl_cons, ih]

theorem splitEntry_binding (k v : String) (hk : '=' ∉ k.data) :
    splitEntry (k ++ "=" ++ v) = some (k, v) := by
  have hdata : (k ++ "=" ++ v).data = k.data ++ '=' :: v.data := by
    simp [String.data_append]
  have hidx : strings.Index (k ++ "=" ++ v) '=' = k.data.length := by
    unfold strings.Index
    rw [hdata, strings.indexChars_append_cons _ _ _ hk]
  unfold splitEntry
  rw [hidx]
  have hnn : ¬ ((k.data.length : Int) < 0) := by omega
  simp only [hnn, if_false, sliceTo, sliceFrom, hdata, Int.toNat_ofNat, Option.some.injEq,
    Prod.mk.injEq]
  constructor
  · simp
  · have : ((k.data.length : Int) + 1).toNat = k.data.length + 1 := by omega
    rw [this]
    show String.mk (List.drop (k.data.length + 1) (k.data ++ '=' :: v.data)) = v
    rw [List.drop_append]
    rfl

theorem findSome_binding (L : List (String × String)) (k v : String)
    (hmem : (k, v) ∈ L) (huniq : ∀ v2, (k, v2) ∈ L → v2 = v) :
    L.findSome? (fun kv => if kv.1 = k then some kv.2 else none) = some v := by
  induction L with
  | nil => simp at hmem
  | cons kv rest ih =>
    rw [List.findSome?_cons]
    by_cases hkv : kv.1 = k
    · have : kv.2 = v := huniq kv.2 (by rw [← hkv]; simp)
      simp [hkv, this]
    · simp only [hkv, if_false]
      apply ih
      · rcases List.mem_cons.mp hmem with h | h
        · exact absurd (by rw [← h]) hkv
        · exact h
      · intro v2 h2
        exact huniq v2 (List.mem_cons_of_mem _ h2)

theorem nodup_keys_unique (L : List (String × String)) (hnd : (L.map Prod.fst).Nodup)
    (k v v2 : String) (h1 : (k, v) ∈ L) (h2 : (k, v2) ∈ L) : v2 = v := by
  induction L with
  | nil => simp at h1
  | cons kv rest ih =>
    simp only [List.map_cons, List.nodup_cons, List.mem_map, not_exists, not_and] at hnd
    rcases List.mem_cons.mp h1 with e1 | m1 <;> rcases List.mem_cons.mp h2 with e2 | m2
    · rw [← e1] at e2
      exact (Prod.mk.inj e2).2
    · exact absurd (by rw [← e1]) (hnd.1 (k, v2) m2)
    · exact absurd (by rw [← e2]) (hnd.1 (k, v) m1)
    · exact ih hnd.2 m1 m2

/-- C8, as amended. The environment of the hook process is the ambient environment,
then the context variables of ToEnvVars, then the overrides of the entry as `k=v`;
runHook and runHookCapture run no command with another environment; and when no
override key contains `=`, the value the process sees for an override key `k` is the
value `v` of the entry, whatever the ambient and the context variables bind. -/
theorem cmdEnv_override_wins {σ : Type} (os : OS σ) (entry : HookEntry) (env : Env)
    (workDir : String) (k v : String)
    (hkeys : (entry.Env.map Prod.fst).Nodup)
    (hclean : ∀ kv ∈ entry.Env, '=' ∉ kv.1.data)
    (hmem : (k, v) ∈ entry.Env) :
    cmdEnv os entry env =
      os.Environ ++ env.ToEnvVars ++ entry.Env.map (fun kv => kv.1 ++ "=" ++ kv.2) ∧
    (∀ w c, c ∈ (runHook os entry env workDir w).1.runs → c ∈ w.runs ∨ c.Env = cmdEnv os entry env) ∧
    (∀ w c, c ∈ (runHookCapture os entry env workDir w).1.runs →
      c ∈ w.runs ∨ c.Env = cmdEnv os entry env) ∧
    lookupEnv (cmdEnv os entry env) k = some v := by
  refine ⟨cmdEnv_eq os entry env, ?_, ?_, ?_⟩
  · intro w c hc
    unfold runHook at hc
    split at hc
    · exact Or.inl hc
    · simp only [cmdRun, List.mem_append, List.mem_singleton] at hc
      rcases hc with h | h
      · exact Or.inl h
      · right; rw [h]; rfl
  · intro w c hc
    unfold runHookCapture at hc
    split at hc
    · exact Or.inl hc
    · have hruns : (cmdRun os (hookCmd os entry env workDir true) w).1.runs =
          w.runs ++ [hookCmd os entry env workDir true] := rfl
      split at hc <;> rename_i heq <;>
        · have h1 := congrArg (fun r => r.1.runs) heq
          simp only [hruns] at h1
          simp only [← h1, List.mem_append, List.mem_singleton] at hc
          rcases hc with h | h
          · exact Or.inl h
          · right; rw [h]; rfl
  · rw [cmdEnv_eq]
    unfold lookupEnv
    rw [List.reverse_append, List.findSome?_append, ← List.map_reverse, List.findSome?_map]
    have hfun : ∀ kv ∈ entry.Env.reverse,
        ((fun s => match splitEntry s with
          | some (name, value) => if name = k then some value else none
          | none => none) ∘ fun kv : String × String => kv.1 ++ "=" ++ kv.2) kv =
        (fun kv : String × String => if kv.1 = k then some kv.2 else none) kv := by
      intro kv hkv
      simp only [Function.comp]
      rw [splitEntry_binding kv.1 kv.2 (hclean kv (List.mem_reverse.mp hkv))]
    have hfind : entry.Env.reverse.findSome? ((fun s => match splitEntry s with
          | some (name, value) => if name = k then some value else none
          | none => none) ∘ fun kv : String × String => kv.1 ++ "=" ++ kv.2) = some v := by
      have := findSome_binding entry.Env.reverse k v (List.mem_reverse.mpr hmem)
        (fun v2 h2 => nodup_keys_unique entry.Env hkeys k v v2 hmem (List.mem_reverse.mp h2))
      rw [← this]
      exact findSome_congr _ _ _ hfun
    rw [hfind]
    rfl

/-- Witness of C8: the override `WT_NAME=mine` wins over the ambient `WT_NAME=ambient`
and over the context variable `WT_NAME=feature`. -/
theorem cmdEnv_override_wins_witness :
    lookupEnv (cmdEnv sampleOS ⟨"hooks/a.sh", [("PORT", "3000"), ("WT_NAME", "mine")]⟩ sampleEnv)
      "WT_NAME" = some "mine" :=
  (cmdEnv_override_wins sampleOS ⟨"hooks/a.sh", [("PORT", "3000"), ("WT_NAME", "mine")]⟩ sampleEnv
    "/repo" "WT_NAME" "mine" (by decide) (by decide) (by decide)).2.2.2

/-- Counterexample to C8 as stated: for the override key `A=B` with value `c` the list
holds the entry `A=B=c`, which binds the name `A`; the name `A=B` has no binding. -/
theorem cmdEnv_override_counterexample :
    ("A=B", "c") ∈ (⟨"hooks/a.sh", [("A=B", "c")]⟩ : HookEntry).Env ∧
    lookupEnv (cmdEnv sampleOS ⟨"hooks/a.sh", [("A=B", "c")]⟩ sampleEnv) "A=B" = none ∧
    lookupEnv (cmdEnv sampleOS ⟨"hooks/a.sh", [("A=B", "c")]⟩ sampleEnv) "A" = some "B=c" := by
  decide

/-! ## Script path -/

/-- C9. The path that runHook and runHookCapture check and execute is the script path
of the entry when it is absolute and the join of the repository root with it when it
is relative: a missing file at that path gives the error naming that path and runs
nothing, otherwise `/bin/bash` is run on that path.  The working directory takes no
part in it: with two working directories the path checked and the arguments of the
command are the same. -/
theorem scriptPath_from_repo_root {σ : Type} (os : OS σ) (entry : HookEntry) (env : Env)
    (workDir workDir2 : String) (w : World σ) :
    scriptPath os entry env =
      (if os.IsAbs entry.Script then entry.Script else os.Join env.RepoRoot entry.Script) ∧
    runHook os entry env workDir w =
      (if os.Stat w.sys (scriptPath os entry env) then
        ((cmdRun os (hookCmd os entry env workDir false) w).1,
          (cmdRun os (hookCmd os entry env workDir false) w).2.2)
      else (w, some ("hook script not found: " ++ scriptPath os entry env))) ∧
    (runHookCapture os entry env workDir w).1 =
      (if os.Stat w.sys (scriptPath os entry env) then
        (cmdRun os (hookCmd os entry env workDir true) w).1
      else w) ∧
    ((runHookCapture os entry env workDir w).2.2 =
        some ("hook script not found: " ++ scriptPath os entry env) ∨
      os.Stat w.sys (scriptPath os entry env) = true) ∧
    (∀ capture, (hookCmd os entry env workDir capture).Args =
      ["/bin/bash", scriptPath os entry env]) ∧
    (∀ capture, (hookCmd os entry env workDir capture).Args =
      (hookCmd os entry env workDir2 capture).Args) := by
  refine ⟨?_, ?_, ?_, ?_, fun _ => rfl, fun _ => rfl⟩
  · unfold scriptPath
    cases os.IsAbs entry.Script <;> rfl
  · unfold runHook
    cases os.Stat w.sys (scriptPath os entry env) <;> rfl
  · unfold runHookCapture
    cases hs : os.Stat w.sys (scriptPath os entry env)
    · rfl
    · simp only [Bool.not_true, Bool.false_eq_true, if_false, if_true]
      split <;> rename_i heq <;> rw [heq]
  · unfold runHookCapture
    cases hs : os.Stat w.sys (scriptPath os entry env)
    · left; rfl
    · right; rfl

/-! ## Capturing mode -/

theorem concat_append (xs ys : List String) : concat (xs ++ ys) = concat xs ++ concat ys := by
  induction xs with
  | nil => simp [concat]
  | cons x rest ih => simp [concat, ih, String.append_assoc]

theorem runHookCapture_ok {σ : Type} (os : OS σ) (entry : HookEntry) (env : Env)
    (workDir : String) (w w1 : World σ) (out : String)
    (h : runHookCapture os entry env workDir w = (w1, out, none)) :
    w1.runs = w.runs ++ [hookCmd os entry env workDir true] := by
  unfold runHookCapture at h
  split at h
  · simp at h
  · have hruns : (cmdRun os (hookCmd os entry env workDir true) w).1.runs =
        w.runs ++ [hookCmd os entry env workDir true] := rfl
    split at h <;> rename_i heq
    · simp at h
    · simp only [Prod.mk.injEq] at h
      rw [← h.1, ← hruns, heq]

theorem runHookCapture_err {σ : Type} (os : OS σ) (entry : HookEntry) (env : Env)
    (workDir : String) (w w1 : World σ) (out err : String)
    (h : runHookCapture os entry env workDir w = (w1, out, some err)) :
    out = "" ∧ (w1.runs = w.runs ∨ w1.runs = w.runs ++ [hookCmd os entry env workDir true]) := by
  unfold runHookCapture at h
  split at h
  · simp only [Prod.mk.injEq] at h
    exact ⟨h.2.1.symm, Or.inl (by rw [← h.1])⟩
  · have hruns : (cmdRun os (hookCmd os entry env workDir true) w).1.runs =
        w.runs ++ [hookCmd os entry env workDir true] := rfl
    split at h <;> rename_i heq
    · simp only [Prod.mk.injEq] at h
      exact ⟨h.2.1.symm, Or.inr (by rw [← h.1, ← hruns, heq])⟩
    · simp at h

theorem runAndCaptureLoop_spec {σ : Type} (os : OS σ) (env : Env) (workDir : String)
    (entries : List HookEntry) (output : String) (w : World σ) :
    (∃ outs w2, AllCapture os env workDir entries w outs w2 ∧
        runAndCaptureLoop os env workDir entries output w = (w2, output ++ concat outs, none) ∧
        w2.runs = w.runs ++ entries.map (fun e => hookCmd os e env workDir true)) ∨
    (∃ pre e post outs w1 w2 err, entries = pre ++ e :: post ∧
        AllCapture os env workDir pre w outs w1 ∧
        w1.runs = w.runs ++ pre.map (fun e => hookCmd os e env workDir true) ∧
        runHookCapture os e env workDir w1 = (w2, "", some err) ∧
        runAndCaptureLoop os env workDir entries output w = (w2, "", some err) ∧
        (w2.runs = w1.runs ∨ w2.runs = w1.runs ++ [hookCmd os e env workDir true])) := by
  induction entries generalizing w output with
  | nil =>
    exact Or.inl ⟨[], w, AllCapture.nil w, by simp [runAndCaptureLoop, concat], by simp⟩
  | cons entry rest ih =>
    rcases hr : runHookCapture os entry env workDir w with ⟨w1, out, _ | err⟩
    · have hruns := runHookCapture_ok os entry env workDir w w1 out hr
      rcases ih (output ++ out) w1 with ⟨outs, w2, hall, hrun, hlog⟩ |
        ⟨pre, e, post, outs, wa, wb, err, hsplit, hall, hlog, hfail, hrun, hlast⟩
      · refine Or.inl ⟨out :: outs, w2, AllCapture.cons hr hall, ?_, ?_⟩
        · simp only [runAndCaptureLoop, hr, hrun, concat, String.append_assoc]
        · rw [hlog, hruns]; simp
      · refine Or.inr ⟨entry :: pre, e, post, out :: outs, wa, wb, err, by simp [hsplit],
          AllCapture.cons hr hall, ?_, hfail, ?_, hlast⟩
        · rw [hlog, hruns]; simp
        · simp only [runAndCaptureLoop, hr, hrun]
    · obtain ⟨hout, hlast⟩ := runHookCapture_err os entry env workDir w w1 out err hr
      subst hout
      refine Or.inr ⟨[], entry, rest, [], w, w1, err, rfl, AllCapture.nil w, by simp, hr, ?_, hlast⟩
      simp only [runAndCaptureLoop, hr]

theorem runHookCapture_stdout {σ : Type} (os : OS σ) (entry : HookEntry) (env : Env)
    (workDir : String) (w w1 : World σ) (out : String)
    (h : runHookCapture os entry env workDir w = (w1, out, none)) :
    os.Stat w.sys (scriptPath os entry env) = true ∧
    ∃ s1, os.Exec w.sys (hookCmd os entry env workDir true) = (s1, out, none) ∧
      w1 = afterRun os entry env workDir w s1 := by
  unfold runHookCapture at h
  cases hs : os.Stat w.sys (scriptPath os entry env)
  · simp [hs] at h
  · refine ⟨rfl, ?_⟩
    rcases he : os.Exec w.sys (hookCmd os entry env workDir true) with ⟨s1, o, _ | e⟩
    · simp only [hs, Bool.not_true, Bool.false_eq_true, if_false, cmdRun, he, Prod.mk.injEq] at h
      exact ⟨s1, by rw [h.2.1], by rw [← h.1]; rfl⟩
    · simp [hs, cmdRun, he] at h

theorem runHookCapture_fails {σ : Type} (os : OS σ) (entry : HookEntry) (env : Env)
    (workDir : String) (w w1 : World σ) (out err : String)
    (h : runHookCapture os entry env workDir w = (w1, out, some err)) :
    HookFails os env workDir entry w w1 err := by
  unfold runHookCapture at h
  cases hs : os.Stat w.sys (scriptPath os entry env)
  · simp only [hs, Bool.not_false, if_true, Prod.mk.injEq, Option.some.injEq] at h
    exact Or.inl ⟨hs, h.1.symm, h.2.2.symm⟩
  · refine Or.inr ⟨hs, ?_⟩
    rcases he : os.Exec w.sys (hookCmd os entry env workDir true) with ⟨s1, o, _ | e⟩
    · simp [hs, cmdRun, he] at h
    · simp only [hs, Bool.not_true, Bool.false_eq_true, if_false, cmdRun, he, Prod.mk.injEq,
        Option.some.injEq] at h
      exact ⟨s1, o, by rw [h.2.2], by rw [← h.1]; rfl⟩

theorem AllStdout_of_AllCapture {σ : Type} (os : OS σ) (env : Env) (workDir : String)
    (entries : List HookEntry) (w w2 : World σ) (outs : List String)
    (h : AllCapture os env workDir entries w outs w2) :
    AllStdout os env workDir entries w outs w2 := by
  induction h with
  | nil w => exact AllStdout.nil w
  | cons hr _ ih =>
    obtain ⟨hs, s1, he, hw⟩ := runHookCapture_stdout os _ env workDir _ _ _ hr
    subst hw
    exact AllStdout.cons hs he ih

/-- C10. runAndCapture either finds and runs the script of every entry in turn, each
process exiting with success, and returns the concatenation of what the processes wrote
to their standard output, in declared order and with nothing in between, with no error;
or the list splits as `pre ++ e :: post` where every entry of `pre` succeeds, `e` fails
with `err` (its script is not found, or its process exits with `err`), and runAndCapture
returns the empty string with `err`, the output captured from `pre` being dropped and
nothing of `post` being run.  RunInfo is runAndCapture on the info stage in the worktree
path, and with an empty info stage it returns the empty string and no error, and changes
nothing. -/
theorem runAndCapture_concatenates {σ : Type} (os : OS σ) (entries : List HookEntry)
    (env : Env) (workDir : String) (w : World σ) (cfg : Config) :
    ((∃ outs w2, AllStdout os env workDir entries w outs w2 ∧
        runAndCapture os entries env workDir w = (w2, concat outs, none) ∧
        w2.runs = w.runs ++ entries.map (fun e => hookCmd os e env workDir true)) ∨
    (∃ pre e post outs w1 w2 err, entries = pre ++ e :: post ∧
        AllStdout os env workDir pre w outs w1 ∧
        w1.runs = w.runs ++ pre.map (fun e => hookCmd os e env workDir true) ∧
        HookFails os env workDir e w1 w2 err ∧
        runAndCapture os entries env workDir w = (w2, "", some err) ∧
        (w2.runs = w1.runs ∨ w2.runs = w1.runs ++ [hookCmd os e env workDir true]))) ∧
    RunInfo os cfg env w = runAndCapture os cfg.Hooks.Info env env.Path w ∧
    RunInfo os { cfg with Hooks := { cfg.Hooks with Info := [] } } env w = (w, "", none) := by
  refine ⟨?_, ?_, by simp [RunInfo]⟩
  · rcases runAndCaptureLoop_spec os env workDir entries "" w with
      ⟨outs, w2, hall, hrun, hlog⟩ |
      ⟨pre, e, post, outs, w1, w2, err, hsplit, hall, hlog, hfail, hrun, hlast⟩
    · refine Or.inl ⟨outs, w2, AllStdout_of_AllCapture os env workDir _ _ _ _ hall, ?_, hlog⟩
      simpa [runAndCapture] using hrun
    · exact Or.inr ⟨pre, e, post, outs, w1, w2, err, hsplit,
        AllStdout_of_AllCapture os env workDir _ _ _ _ hall, hlog,
        runHookCapture_fails os e env workDir w1 w2 "" err hfail, hrun, hlast⟩
  · unfold RunInfo
    split
    · rename_i h
      have hnil : cfg.Hooks.Info = [] := List.length_eq_zero.mp h
      rw [hnil]
      rfl
    · rfl

/-- The example of C10: two info hooks succeed and their outputs are concatenated;
with a failing hook in the middle the result is the empty string and the error, and
the third hook is not run. -/
theorem runAndCapture_examples :
    (runAndCapture sampleOS [⟨"hooks/a.sh", []⟩, ⟨"hooks/c.sh", []⟩] sampleEnv "/repo"
        sampleWorld).2 = ("ran /repo/hooks/a.sh\nran /repo/hooks/c.sh\n", none) ∧
    (runAndCapture sampleOS [⟨"hooks/a.sh", []⟩, ⟨"hooks/fail.sh", []⟩, ⟨"hooks/c.sh", []⟩]
        sampleEnv "/repo" sampleWorld).2 = ("", some "exit status 1") ∧
    ((runAndCapture sampleOS [⟨"hooks/a.sh", []⟩, ⟨"hooks/fail.sh", []⟩, ⟨"hooks/c.sh", []⟩]
        sampleEnv "/repo" sampleWorld).1.runs.map Cmd.Args) =
      [["/bin/bash", "/repo/hooks/a.sh"], ["/bin/bash", "/repo/hooks/fail.sh"]] := by
  decide

/-! ## Stage entry points -/

theorem Run_runs {σ : Type} (os : OS σ) (entries : List HookEntry) (env : Env)
    (workDir : String) (w : World σ) :
    ∃ new, (Run os entries env workDir w).1.runs = w.runs ++ new ∧
      ∀ c ∈ new, c.Dir = workDir ∧ c.Capture = false := by
  induction entries generalizing w with
  | nil => exact ⟨[], by simp [Run], by simp⟩
  | cons entry rest ih =>
    rcases hr : runHook os entry env workDir w with ⟨w1, _ | err⟩
    · obtain ⟨new, hnew, hall⟩ := ih w1
      refine ⟨hookCmd os entry env workDir false :: new, ?_, ?_⟩
      · simp only [Run, hr]
        rw [hnew, runHook_ok os entry env workDir w w1 hr]
        simp
      · intro c hc
        rcases List.mem_cons.mp hc with h | h
        · rw [h]; exact ⟨rfl, rfl⟩
        · exact hall c h
    · rcases runHook_err os entry env workDir w w1 err hr with h | h
      · exact ⟨[], by simp [Run, hr, h], by simp⟩
      · refine ⟨[hookCmd os entry env workDir false], by simp [Run, hr, h], ?_⟩
        intro c hc
        rw [List.mem_singleton.mp hc]
        exact ⟨rfl, rfl⟩

theorem runAndCapture_runs {σ : Type} (os : OS σ) (entries : List HookEntry) (env : Env)
    (workDir : String) (w : World σ) :
    ∃ new, (runAndCapture os entries env workDir w).1.runs = w.runs ++ new ∧
      ∀ c ∈ new, c.Dir = workDir ∧ c.Capture = true := by
  unfold runAndCapture
  rcases runAndCaptureLoop_spec os env workDir entries "" w with
    ⟨outs, w2, _, hrun, hlog⟩ | ⟨pre, e, post, outs, w1, w2, err, _, _, hlog, _, hrun, hlast⟩
  · refine ⟨entries.map (fun e => hookCmd os e env workDir true), by rw [hrun]; exact hlog, ?_⟩
    intro c hc
    obtain ⟨e, _, he⟩ := List.mem_map.mp hc
    rw [← he]; exact ⟨rfl, rfl⟩
  · rcases hlast with h | h
    · refine ⟨pre.map (fun e => hookCmd os e env workDir true), by rw [hrun]; simp [h, hlog], ?_⟩
      intro c hc
      obtain ⟨e, _, he⟩ := List.mem_map.mp hc
      rw [← he]; exact ⟨rfl, rfl⟩
    · refine ⟨pre.map (fun e => hookCmd os e env workDir true) ++ [hookCmd os e env workDir true],
        by rw [hrun]; simp [h, hlog], ?_⟩
      intro c hc
      rcases List.mem_append.mp hc with hc | hc
      · obtain ⟨e, _, he⟩ := List.mem_map.mp hc
        rw [← he]; exact ⟨rfl, rfl⟩
      · rw [List.mem_singleton.mp hc]; exact ⟨rfl, rfl⟩

/-- C5, as amended. Every command run by RunPreCreate and by RunPostDelete has the
repository root as working directory; every command run by RunPostCreate, by
RunPreDelete and by RunInfo has the worktree path as working directory; the commands
of RunInfo capture their standard output and those of the four other stages do not. -/
theorem stage_working_directories {σ : Type} (os : OS σ) (cfg : Config) (env : Env)
    (w : World σ) :
    (∃ new, (RunPreCreate os cfg env w).1.runs = w.runs ++ new ∧
      ∀ c ∈ new, c.Dir = env.RepoRoot ∧ c.Capture = false) ∧
    (∃ new, (RunPostCreate os cfg env w).1.runs = w.runs ++ new ∧
      ∀ c ∈ new, c.Dir = env.Path ∧ c.Capture = false) ∧
    (∃ new, (RunPreDelete os cfg env w).1.runs = w.runs ++ new ∧
      ∀ c ∈ new, c.Dir = env.Path ∧ c.Capture = false) ∧
    (∃ new, (RunPostDelete os cfg env w).1.runs = w.runs ++ new ∧
      ∀ c ∈ new, c.Dir = env.RepoRoot ∧ c.Capture = false) ∧
    (∃ new, (RunInfo os cfg env w).1.runs = w.runs ++ new ∧
      ∀ c ∈ new, c.Dir = env.Path ∧ c.Capture = true) := by
  refine ⟨?_, ?_, ?_, ?_, ?_⟩
  · unfold RunPreCreate
    split
    · exact ⟨[], by simp, by simp⟩
    · exact Run_runs os _ env env.RepoRoot (Println _ w)
  · unfold RunPostCreate
    split
    · exact ⟨[], by simp, by simp⟩
    · exact Run_runs os _ env env.Path (Println _ w)
  · unfold RunPreDelete
    split
    · exact ⟨[], by simp, by simp⟩
    · exact Run_runs os _ env env.Path (Println _ w)
  · unfold RunPostDelete
    split
    · exact ⟨[], by simp, by simp⟩
    · exact Run_runs os _ env env.RepoRoot (Println _ w)
  · unfold RunInfo
    split
    · exact ⟨[], by simp, by simp⟩
    · exact runAndCapture_runs os _ env env.Path w

/-- Counterexample to C5 as stated: with one hook per stage, the command of
RunPreDelete runs in the worktree path, not in the repository root, and the command
of RunPostDelete runs in the repository root, not in the worktree path. -/
theorem stage_working_directories_counterexample :
    sampleEnv.RepoRoot = "/repo" ∧ sampleEnv.Path = "/repo/worktrees/feature" ∧
    (RunPreDelete sampleOS sampleConfig sampleEnv sampleWorld).1.runs.map Cmd.Dir =
      ["/repo/worktrees/feature"] ∧
    (RunPostDelete sampleOS sampleConfig sampleEnv sampleWorld).1.runs.map Cmd.Dir =
      ["/repo"] := by
  decide

end hooks

set_option maxRecDepth 100000

namespace commands

open strings hooks

/-! ## Hook output parser -/

theorem isSpace_colon : isSpace ':' = false := by decide

theorem colon_not_mem_of_space (a : List Char) (h : ∀ c ∈ a, isSpace c) : ':' ∉ a := by
  intro hc
  have := h _ hc
  rw [isSpace_colon] at this
  exact absurd this (by decide)

/-- The first colon of a line and the first colon of its trimmed text cut out the
same key and the same value. -/
theorem colon_of_trimmed (l : List Char) :
    (indexChars ':' (trimSpaceChars l) < 0 → indexChars ':' l < 0) ∧
    (0 ≤ indexChars ':' (trimSpaceChars l) →
      0 ≤ indexChars ':' l ∧
      ((0 < indexChars ':' (trimSpaceChars l)) → 0 < indexChars ':' l) ∧
      ((indexChars ':' (trimSpaceChars l) = 0) →
        trimSpaceChars (l.take (indexChars ':' l).toNat) = []) ∧
      trimSpaceChars (l.take (indexChars ':' l).toNat) =
        trimSpaceChars ((trimSpaceChars l).take (indexChars ':' (trimSpaceChars l)).toNat) ∧
      trimSpaceChars (l.drop ((indexChars ':' l).toNat + 1)) =
        trimSpaceChars ((trimSpaceChars l).drop
          ((indexChars ':' (trimSpaceChars l)).toNat + 1))) := by
  obtain ⟨a, b, hl, ha, hb⟩ := trimSpaceChars_decomp l
  have hca := colon_not_mem_of_space a ha
  have hcb := colon_not_mem_of_space b hb
  generalize trimSpaceChars l = t at hl
  constructor
  · intro hneg
    rw [indexChars_neg_iff] at hneg ⊢
    rw [hl]
    simp [hca, hcb, hneg]
  · intro hpos
    obtain ⟨hsplit, hnot⟩ := indexChars_split ':' t hpos
    generalize hi : (indexChars ':' t).toNat = i at hsplit hnot
    have hti : indexChars ':' t = i := by omega
    have hl2 : l = (a ++ t.take i) ++ ':' :: (t.drop (i + 1) ++ b) := by
      rw [hl]
      conv_lhs => rw [hsplit]
      simp
    have hidx : indexChars ':' l = ((a ++ t.take i).length : Nat) := by
      conv_lhs => rw [hl2]
      apply indexChars_append_cons
      simp [hca, hnot]
    have hnat : (indexChars ':' l).toNat = (a ++ t.take i).length := by omega
    have htake : l.take (a ++ t.take i).length = a ++ t.take i := by
      conv_lhs => rw [hl2]
      rw [List.take_left]
    have hdrop : l.drop ((a ++ t.take i).length + 1) = t.drop (i + 1) ++ b := by
      conv_lhs => rw [hl2]
      rw [List.drop_append]
      rfl
    rw [hnat, htake, hdrop]
    refine ⟨by omega, ?_, ?_, ?_, ?_⟩
    · intro h0
      have : 0 < (t.take i).length := by
        have hlen : i < t.length := by
          have := congrArg List.length hsplit
          simp only [List.length_append, List.length_cons, List.length_take,
            List.length_drop] at this
          omega
        simp only [List.length_take]
        omega
      rw [hidx]
      simp only [List.length_append, Nat.cast_add]
      omega
    · intro h0
      have hi0 : i = 0 := by omega
      subst hi0
      simp only [List.take_zero, List.append_nil]
      have := trimSpaceChars_append_left a [] ha
      simpa [trimSpaceChars] using this
    · exact trimSpaceChars_append_left a _ ha
    · exact trimSpaceChars_append_right _ b hb

/-- One step of the loop of ParseHookKeyValues, read off the classification. -/
theorem parseLines_cons (line : String) (rest : List String) (pairs : List KeyValue)
    (raw : List String) :
    parseLines (line :: rest) pairs raw =
      parseLines rest (pairs ++ ((classifyLine line).pair?).toList)
        (raw ++ ((classifyLine line).raw?).toList) := by
  obtain ⟨hneg, hpos⟩ := colon_of_trimmed line.data
  rw [parseLines]
  unfold classifyLine
  by_cases hblank : TrimSpace line = ""
  · simp [hblank, LineClass.pair?, LineClass.raw?]
  · simp only [hblank, if_false]
    have hge := indexChars_ge ':' (trimSpaceChars line.data)
    by_cases hidx : Index (TrimSpace line) ':' > 0
    · have hidx2 : 0 < indexChars ':' (trimSpaceChars line.data) := hidx
      obtain ⟨_, hgt, _, hkey, hval⟩ := hpos (by omega)
      have hkeyS : TrimSpace (sliceTo line (Index line ':')) =
          TrimSpace (sliceTo (TrimSpace line) (Index (TrimSpace line) ':')) := by
        simp only [TrimSpace, sliceTo, Index]
        exact congrArg String.mk hkey
      have hvalS : TrimSpace (sliceFrom line (Index line ':' + 1)) =
          TrimSpace (sliceFrom (TrimSpace line) (Index (TrimSpace line) ':' + 1)) := by
        simp only [TrimSpace, sliceFrom, Index]
        have e1 : (indexChars ':' line.data + 1).toNat = (indexChars ':' line.data).toNat + 1 := by
          have := hgt hidx2
          omega
        have e2 : (indexChars ':' (trimSpaceChars line.data) + 1).toNat =
            (indexChars ':' (trimSpaceChars line.data)).toNat + 1 := by omega
        rw [e1, e2]
        exact congrArg String.mk hval
      have hgt2 : Index line ':' > 0 := hgt hidx2
      simp only [hidx, if_true, hgt2, true_and, len_pos_iff, ← hkeyS, ← hvalS]
      by_cases hkv : TrimSpace (sliceTo line (Index line ':')) ≠ "" ∧
          TrimSpace (sliceFrom line (Index line ':' + 1)) ≠ ""
      · simp [hkv, LineClass.pair?, LineClass.raw?]
      · simp [hkv, LineClass.pair?, LineClass.raw?]
    · simp only [hidx, if_false]
      have hnot : ¬ (Index line ':' > 0 ∧ TrimSpace (sliceTo line (Index line ':')) ≠ "" ∧
          TrimSpace (sliceFrom line (Index line ':' + 1)) ≠ "") := by
        rintro ⟨h1, h2, _⟩
        have hidx3 : ¬ 0 < indexChars ':' (trimSpaceChars line.data) := hidx
        by_cases hz : indexChars ':' (trimSpaceChars line.data) < 0
        · have : indexChars ':' line.data < 0 := hneg hz
          have h1b : 0 < indexChars ':' line.data := h1
          omega
        · have hz0 : indexChars ':' (trimSpaceChars line.data) = 0 := by omega
          obtain ⟨_, _, hempty, _, _⟩ := hpos (by omega)
          apply h2
          simp only [TrimSpace, sliceTo, Index]
          rw [hempty hz0]
      simp [hnot, LineClass.pair?, LineClass.raw?]

theorem parseLines_eq (lines : List String) (pairs : List KeyValue) (raw : List String) :
    parseLines lines pairs raw =
      (pairs ++ (lines.map classifyLine).filterMap LineClass.pair?,
        raw ++ (lines.map classifyLine).filterMap LineClass.raw?) := by
  induction lines generalizing pairs raw with
  | nil => simp [parseLines]
  | cons line rest ih =>
    rw [parseLines_cons, ih]
    cases hc : classifyLine line <;>
      simp [LineClass.pair?, LineClass.raw?, List.filterMap_cons, hc]

/-- C2. ParseHookKeyValues classifies every line of its input (the pieces between
newlines) as the specification says, and returns the pairs of the lines classified as
pairs and the texts of the lines classified as raw, each in line order.  A key with an
empty value gives a raw line, and a value may contain colons. -/
theorem ParseHookKeyValues_classifies (output : String) :
    ParseHookKeyValues output =
      (((Split output '\n').map classifyLine).filterMap LineClass.pair?,
        ((Split output '\n').map classifyLine).filterMap LineClass.raw?) ∧
    ParseHookKeyValues "SomeKey:" = ([], ["SomeKey:"]) ∧
    ParseHookKeyValues "URL: http://localhost:3000" =
      ([{ Key := "URL", Value := "http://localhost:3000" }], []) := by
  refine ⟨?_, by decide, by decide⟩
  unfold ParseHookKeyValues
  split
  · rename_i h
    subst h
    decide
  · rw [parseLines_eq]
    simp

/-! ## Age of a worktree -/

/-- C3, at the failing input. For the duration of 175 days less one nanosecond, which
holds 4199 whole hours and 174 whole days, `Hours` rounds up to 4200 and formatAge
returns "25 weeks", where 174 days are 24 whole weeks. -/
theorem formatAge_rounds_up_to_next_week :
    Int.tdiv 15119999999999999 Hour = 4199 ∧
    Int.tdiv 15119999999999999 (24 * Hour) = 174 ∧
    Int.tdiv 174 7 = 24 ∧
    (Hours 15119999999999999).trunc = 4200 ∧
    formatAge 15119999999999999 = "25 weeks" := by
  decide

/-- The examples of C3: 30 minutes, 1 hour, 5 hours, 24 hours, 3 days, 7 days and
21 days. -/
theorem formatAge_examples :
    formatAge (30 * 60 * 1000000000) = "less than an hour" ∧
    formatAge Hour = "1 hour" ∧
    formatAge (5 * Hour) = "5 hours" ∧
    formatAge (24 * Hour) = "1 day" ∧
    formatAge (3 * 24 * Hour) = "3 days" ∧
    formatAge (7 * 24 * Hour) = "1 week" ∧
    formatAge (21 * 24 * Hour) = "3 weeks" := by
  decide

/-- On every whole number of hours that a `time.Duration` can hold, formatAge is the
bucket of the specification. -/
theorem formatAge_whole_hours (n : ℤ) (h0 : 0 ≤ n) (hlt : n * Hour < 2 ^ 63) :
    formatAge (n * Hour) = ageBucket n (n / 24) := by
  have hH : (0 : ℤ) < Hour := by decide
  have hHour : Hour = 3600000000000 := rfl
  have hn : n < 2 ^ 22 := by
    rw [hHour] at hlt
    norm_num at hlt ⊢
    omega
  have hdiv : n * Hour / Hour = n := Int.mul_ediv_cancel _ hH.ne'
  have hmod : n * Hour % Hour = 0 := Int.mul_emod_left _ _
  have hd0 : 0 ≤ n * Hour := Int.mul_nonneg h0 hH.le
  obtain ⟨hlo, hhi, hden⟩ := Hours_bounds (n * Hour) hd0 hlt n n 0
    (representable_int n (by rw [abs_of_nonneg h0]; omega))
    (representable_int n (by rw [abs_of_nonneg h0]; omega))
    ⟨0, 0, by norm_num, by norm_num, by simp⟩
    (by rw [hmod]; simp) (by rw [hdiv]) (by rw [hdiv]; simp)
  have hval : (Hours (n * Hour)).val = n := le_antisymm hhi hlo
  have hk0 : 0 ≤ n / 24 := Int.ediv_nonneg h0 (by norm_num)
  have hk1 : 24 * (n / 24) ≤ n := Int.mul_ediv_self_le (by norm_num)
  have hk2 : n < 24 * (n / 24) + 24 := by
    have := Int.lt_ediv_add_one_mul_self n (show (0 : ℤ) < 24 by norm_num)
    linarith
  have hk1q : (24 : ℚ) * ((n / 24 : ℤ) : ℚ) ≤ (n : ℚ) := by exact_mod_cast hk1
  have hk2q : (n : ℚ) ≤ 24 * ((n / 24 : ℤ) : ℚ) + 23 := by
    have : n ≤ 24 * (n / 24) + 23 := by omega
    exact_mod_cast this
  obtain ⟨dlo, dhi, dden⟩ := div24_bounds (Hours (n * Hour)) hden
    ((n / 24 : ℤ) : ℚ) (((n / 24 : ℤ) : ℚ) + 31 / 32)
    (representable_int _ (by rw [abs_of_nonneg hk0]; omega))
    ⟨32 * (n / 24) + 31, -5, by rw [abs_of_nonneg (by omega)]; omega, by norm_num, by
      push_cast
      rw [show (2 : ℚ) ^ (-5 : ℤ) = 1 / 32 by norm_num]
      ring⟩
    (by rw [hval]; linarith) (by rw [hval]; linarith)
  apply formatAge_of_trunc (n * Hour) n (n / 24) h0 rfl
  · exact Frac.trunc_eq _ n hden h0 (by rw [hval]) (by rw [hval]; linarith)
  · exact Frac.trunc_eq _ (n / 24) dden hk0 dlo (by linarith)

/-- On every non-negative duration below 64 days, formatAge is the bucket of the
specification, computed from the whole hours and the whole days of the duration. -/
theorem formatAge_below_64_days (d : ℤ) (h0 : 0 ≤ d) (hlt : d < 1536 * Hour) :
    formatAge d = ageBucket (d / Hour) (d / (24 * Hour)) := by
  have hH : (0 : ℤ) < Hour := by decide
  have hHour : Hour = 3600000000000 := rfl
  have hq0 : 0 ≤ d / Hour := Int.ediv_nonneg h0 hH.le
  have hq1 : d / Hour < 1536 := Int.ediv_lt_of_lt_mul hH hlt
  have hr0 : 0 ≤ d % Hour := Int.emod_nonneg _ hH.ne'
  have hrlt : d % Hour < Hour := Int.emod_lt_of_pos _ hH
  have hdays : d / (24 * Hour) = d / Hour / 24 := by
    rw [hHour]
    omega
  have hq0q : (0 : ℚ) ≤ ((d / Hour : ℤ) : ℚ) := by exact_mod_cast hq0
  have hq1q : ((d / Hour : ℤ) : ℚ) ≤ 1535 := by
    have : d / Hour ≤ 1535 := by omega
    exact_mod_cast this
  have hp42 : (2 : ℚ) ^ (-42 : ℤ) = 1 / 4398046511104 := by norm_num
  have hp45 : (2 : ℚ) ^ (-45 : ℤ) = 1 / 35184372088832 := by norm_num
  have hp47 : (2 : ℚ) ^ (-47 : ℤ) = 1 / 140737488355328 := by norm_num
  obtain ⟨hlo, hhi, hden⟩ := Hours_bounds d h0 (by rw [hHour] at hlt; omega)
    ((d / Hour : ℤ) : ℚ) (((d / Hour : ℤ) : ℚ) + 1 - 1 / 4398046511104)
    (1 - 9 / 35184372088832)
    (representable_int _ (by rw [abs_of_nonneg hq0]; omega))
    ⟨(d / Hour + 1) * 4398046511104 - 1, -42, by rw [abs_of_nonneg (by omega)]; omega,
      by norm_num, by push_cast; rw [hp42]; ring⟩
    ⟨35184372088832 - 9, -45, by norm_num, by norm_num, by push_cast; rw [hp45]; ring⟩
    (by
      have : ((d % Hour : ℤ) : ℚ) ≤ 3600000000000 - 1 := by
        have : d % Hour ≤ 3600000000000 - 1 := by omega
        exact_mod_cast this
      rw [div_le_iff₀ (by norm_num)]
      linarith)
    le_rfl (by linarith)
  have hk0 : 0 ≤ d / Hour / 24 := Int.ediv_nonneg hq0 (by norm_num)
  have hk1 : 24 * (d / Hour / 24) ≤ d / Hour := Int.mul_ediv_self_le (by norm_num)
  have hk2 : d / Hour ≤ 24 * (d / Hour / 24) + 23 := by omega
  have hk3 : d / Hour / 24 ≤ 63 := by omega
  have hk1q : (24 : ℚ) * ((d / Hour / 24 : ℤ) : ℚ) ≤ ((d / Hour : ℤ) : ℚ) := by
    exact_mod_cast hk1
  have hk2q : ((d / Hour : ℤ) : ℚ) ≤ 24 * ((d / Hour / 24 : ℤ) : ℚ) + 23 := by
    exact_mod_cast hk2
  obtain ⟨dlo, dhi, dden⟩ := div24_bounds (Hours d) hden
    ((d / Hour / 24 : ℤ) : ℚ) (((d / Hour / 24 : ℤ) : ℚ) + 1 - 1 / 140737488355328)
    (representable_int _ (by rw [abs_of_nonneg hk0]; omega))
    ⟨(d / Hour / 24 + 1) * 140737488355328 - 1, -47, by rw [abs_of_nonneg (by omega)]; omega,
      by norm_num, by push_cast; rw [hp47]; ring⟩
    (by linarith) (by linarith)
  rw [hdays]
  apply formatAge_of_trunc d (d / Hour) (d / Hour / 24) hq0 rfl
  · exact Frac.trunc_eq _ _ hden hq0 hlo (by linarith)
  · exact Frac.trunc_eq _ _ dden hk0 dlo (by linarith)

/-! ## Verbose report -/

/-- The pair line for a width that `fmt` accepts. -/
theorem pairLine_of_width (maxKeyWidth : Nat) (p : KeyValue) (hw : maxKeyWidth < 1000000) :
    pairLine maxKeyWidth p =
      "  " ++ (p.Key ++ ":" ++ String.mk (List.replicate
        (maxKeyWidth + 1 - (p.Key ++ ":").length) ' ')) ++ " " ++ p.Value ++ "\n" := by
  unfold pairLine padRight
  rw [if_neg (by omega)]

/-- The pair line for a width that `fmt` refuses. -/
theorem pairLine_bad_width (maxKeyWidth : Nat) (p : KeyValue) (hw : 1000000 ≤ maxKeyWidth) :
    pairLine maxKeyWidth p =
      "  " ++ ("%!(BADWIDTH)" ++ (p.Key ++ ":")) ++ " " ++ p.Value ++ "\n" := by
  unfold pairLine padRight
  rw [if_pos (by omega)]

/-- The colon of a pair line directly follows the key: for a key without a colon it
is at offset 2 plus the length of the key, whatever the alignment width, and 12
characters further when the width is refused. -/
theorem pairLine_colon_offset (maxKeyWidth : Nat) (p : KeyValue) (h : ':' ∉ p.Key.data) :
    Index (pairLine maxKeyWidth p) ':' =
      (if maxKeyWidth + 1 > 1000000 then 14 else 2) + p.Key.length := by
  by_cases hw : maxKeyWidth + 1 > 1000000
  · have hpre : ("%!(BADWIDTH)" : String).data =
        ['%', '!', '(', 'B', 'A', 'D', 'W', 'I', 'D', 'T', 'H', ')'] := rfl
    have hdata : (pairLine maxKeyWidth p).data =
        (' ' :: ' ' :: (['%', '!', '(', 'B', 'A', 'D', 'W', 'I', 'D', 'T', 'H', ')'] ++
          p.Key.data)) ++ ':' :: (' ' :: p.Value.data ++ ['\n']) := by
      rw [pairLine_bad_width maxKeyWidth p (by omega)]
      simp only [String.data_append, hpre]
      simp
    unfold Index
    rw [hdata, indexChars_append_cons, if_pos hw]
    · simp only [List.length_cons, List.length_append, List.length_nil, String.length]
      push_cast
      ring
    · simp only [List.mem_cons, List.mem_append, not_or]
      exact ⟨by decide, by decide, by decide, h⟩
  · have hdata : (pairLine maxKeyWidth p).data =
        (' ' :: ' ' :: p.Key.data) ++ ':' ::
          (List.replicate (maxKeyWidth + 1 - (p.Key ++ ":").length) ' ' ++ ' ' :: p.Value.data ++
            ['\n']) := by
      rw [pairLine_of_width maxKeyWidth p (by omega)]
      simp [String.data_append]
    unfold Index
    rw [hdata, indexChars_append_cons, if_neg hw]
    · simp only [List.length_cons, String.length]
      push_cast
      ring
    · simp only [List.mem_cons, not_or]
      exact ⟨by decide, by decide, h⟩

/-- C4, at the failing input. For the VerboseInfo of TestKeyValueAlignment the report
is the text below, and the first colon of its lines (header, four pairs, end) is at
the offsets 8, 7, 14 and 6 on the four pair lines: the colons are not in one column. -/
theorem PrintVerboseWorktree_colons_not_aligned :
    PrintVerboseWorktree sampleLib alignmentInfo =
      "  test\n" ++
      "  Branch:       test-branch\n" ++
      "  Index:        1\n" ++
      "  API Endpoint: http://localhost:3000\n" ++
      "  Port:         3000\n" ∧
    (Split (PrintVerboseWorktree sampleLib alignmentInfo) '\n').map (fun l => Index l ':') =
      [-1, 8, 7, 14, 6, -1] := by
  decide

/-! ## The info command -/

theorem RunInfo_failure_output {σ : Type} (os : hooks.OS σ) (cfg : hooks.Config)
    (env : hooks.Env) (w : hooks.World σ) (h : (hooks.RunInfo os cfg env w).2.2 ≠ none) :
    (hooks.RunInfo os cfg env w).2.1 = "" := by
  unfold hooks.RunInfo at h ⊢
  split
  · rfl
  · rename_i hlen
    simp only [hlen, if_false] at h
    unfold hooks.runAndCapture at h ⊢
    rcases hooks.runAndCaptureLoop_spec os env env.Path cfg.Hooks.Info "" w with
      ⟨outs, w2, _, hrun, _⟩ | ⟨pre, e, post, outs, w1, w2, err, _, _, _, _, hrun, _⟩
    · rw [hrun] at h
      exact absurd rfl h
    · rw [hrun]

/-- C6, as amended. When the info stage has at least one hook and RunInfo returns a
failure, runInfo drops the error: it returns nil and writes the report between the
two separator lines, with an empty hook output. -/
theorem runInfo_ignores_hook_failure {σ τ ς : Type} (os : hooks.OS σ) (lib : Lib τ ς)
    (st : InfoState ς) (w : hooks.World σ)
    (hlen : st.Config.Hooks.Info.length > 0)
    (hfail : (hooks.RunInfo os st.Config
      { Name := st.name, Path := st.worktreePath, Branch := st.branch, RepoRoot := st.RepoRoot,
        WorktreeDir := st.Config.WorktreeDir, Index := st.idx } w).2.2 ≠ none) :
    (runInfo os lib st w).2.2 = none ∧
    (runInfo os lib st w).2.1 =
      Repeat '=' 80 ++ "\n" ++
      PrintVerboseWorktree lib
        { Name := st.name, Branch := st.branch, Index := st.idx,
          CreatedAt := lib.CreatedAt st.status, Status := st.status,
          CurrentMarker := st.currentMarker, HookOutput := "" } ++
      Repeat '=' 80 ++ "\n" := by
  have hout := RunInfo_failure_output os st.Config _ w hfail
  unfold runInfo
  simp only [hlen, if_true, hout, and_self]

/-- Witness of C6 as amended: the only info hook is a missing script. -/
theorem runInfo_ignores_hook_failure_witness :
    (runInfo sampleOS sampleLib sampleInfoState sampleWorld).2.2 = none ∧
    (runInfo sampleOS sampleLib sampleInfoState sampleWorld).2.1 =
      Repeat '=' 80 ++ "\n" ++
      PrintVerboseWorktree sampleLib
        { Name := "feature", Branch := "feature", Index := 0,
          CreatedAt := none, Status := (none, ""),
          CurrentMarker := "* ", HookOutput := "" } ++
      Repeat '=' 80 ++ "\n" :=
  runInfo_ignores_hook_failure sampleOS sampleLib sampleInfoState sampleWorld (by decide)
    (by decide)

/-- Counterexample to C6 as stated: the info hook is a missing script and RunInfo
returns the error, yet runInfo returns nil and writes the whole report. -/
theorem runInfo_abort_counterexample :
    sampleInfoState.Config.Hooks.Info.length > 0 ∧
    (hooks.RunInfo sampleOS sampleInfoState.Config
      { Name := "feature", Path := "/repo/worktrees/feature", Branch := "feature",
        RepoRoot := "/repo", WorktreeDir := "worktrees", Index := 0 } sampleWorld).2.2 =
      some "hook script not found: /repo/hooks/missing.sh" ∧
    (runInfo sampleOS sampleLib sampleInfoState sampleWorld).2.2 = none ∧
    (runInfo sampleOS sampleLib sampleInfoState sampleWorld).2.1 =
      Repeat '=' 80 ++ "\n" ++ "* feature\n  Branch: feature\n" ++ Repeat '=' 80 ++ "\n" := by
  decide

end commands

namespace commands

open userconfig

/-! ## Configuration command -/

theorem isValidKey_iff (key : String) : isValidKey key = true ↔ key = "remote" ∨ key = "fetch" := by
  unfold isValidKey ValidKeys
  simp only [isValidKey.loop]
  by_cases h1 : "remote" = key
  · simp [h1]
  · by_cases h2 : "fetch" = key
    · simp [h1, h2]
    · have h1b : ¬ key = "remote" := fun e => h1 e.symm
      have h2b : ¬ key = "fetch" := fun e => h2 e.symm
      simp [h1, h2, h1b, h2b]

/-- C11. For a key outside `remote` and `fetch`, getConfig, setConfig and unsetConfig
return the error of an unknown key and leave the whole state as it was: the in-memory
configuration is unchanged and nothing is handed to Save.  For the key `fetch` with a
value other than `true` and `false`, setConfig returns an error and leaves the whole
state as it was. -/
theorem config_validation_no_mutation {σ : Type} (sys : ConfigSys σ) (configGlobal : Bool)
    (key value : String) (s : ConfigState σ) :
    (key ≠ "remote" ∧ key ≠ "fetch" →
      getConfig sys configGlobal key s = (s, some (unknownKeyError key)) ∧
      setConfig sys configGlobal key value s = (s, some (unknownKeyError key)) ∧
      unsetConfig sys configGlobal key s = (s, some (unknownKeyError key))) ∧
    (key = "fetch" ∧ value ≠ "true" ∧ value ≠ "false" →
      setConfig sys configGlobal key value s = (s, some "fetch must be 'true' or 'false'")) := by
  constructor
  · rintro ⟨h1, h2⟩
    have hv : isValidKey key = false := by
      cases hk : isValidKey key
      · rfl
      · rcases (isValidKey_iff key).mp hk with h | h
        · exact absurd h h1
        · exact absurd h h2
    simp [getConfig, setConfig, unsetConfig, hv]
  · rintro ⟨hk, hv1, hv2⟩
    subst hk
    have hvalid : isValidKey "fetch" = true := (isValidKey_iff "fetch").mpr (Or.inr rfl)
    simp [setConfig, hvalid, hv1, hv2]

/-- Witness of C11: the key `colour` is unknown, and `yes` is no value for `fetch`. -/
theorem config_validation_no_mutation_witness :
    (getConfig sampleConfigSys false "colour" sampleConfigState =
        (sampleConfigState, some (unknownKeyError "colour")) ∧
      setConfig sampleConfigSys false "colour" "red" sampleConfigState =
        (sampleConfigState, some (unknownKeyError "colour")) ∧
      unsetConfig sampleConfigSys false "colour" sampleConfigState =
        (sampleConfigState, some (unknownKeyError "colour"))) ∧
    setConfig sampleConfigSys true "fetch" "yes" sampleConfigState =
      (sampleConfigState, some "fetch must be 'true' or 'false'") :=
  ⟨(config_validation_no_mutation sampleConfigSys false "colour" "red" sampleConfigState).1
      ⟨by decide, by decide⟩,
    (config_validation_no_mutation sampleConfigSys true "fetch" "yes" sampleConfigState).2
      ⟨rfl, by decide, by decide⟩⟩

theorem saveConfig_spec {σ : Type} (sys : ConfigSys σ) (t : ConfigState σ) :
    (saveConfig sys t).1.errLines = t.errLines ∧ (saveConfig sys t).1.cfg = t.cfg ∧
    (saveConfig sys t).1.saved = t.saved ++ [t.cfg] ∧ (saveConfig sys t).1.out = t.out ∧
    ((saveConfig sys t).2 = none ↔ (sys.Save t.sys t.cfg).2 = none) := by
  unfold saveConfig Save
  rcases h : sys.Save t.sys t.cfg with ⟨d, _ | err⟩ <;> simp

theorem lookup_setRepo (L : List (String × RepoConfig)) (k : String) (rc : RepoConfig) :
    ((setRepo L k rc).find? (fun kv => kv.1 = k)).map (fun kv => kv.2) = some rc := by
  induction L with
  | nil => simp [setRepo]
  | cons kv rest ih =>
    unfold setRepo
    by_cases h : kv.1 = k
    · simp [h]
    · simp only [h, if_false]
      rw [List.find?_cons]
      simp only [h, decide_False]
      exact ih

theorem SetForRepo_fetch_true (cfg : UserConfig) (repoRoot : String) :
    (SetForRepo cfg repoRoot "fetch" "true").2 = none ∧
    (lookupRepo (SetForRepo cfg repoRoot "fetch" "true").1 repoRoot).bind (fun rc => rc.Fetch) =
      some true ∧
    GetRemoteForRepo (SetForRepo cfg repoRoot "fetch" "true").1 repoRoot =
      GetRemoteForRepo cfg repoRoot := by
  have hkey : ¬ ("fetch" = "remote") := by decide
  simp only [SetForRepo, hkey, if_false, if_true, true_and]
  generalize hrc : (lookupRepo cfg repoRoot).getD { Remote := "", Fetch := none } = rc
  have hl : ∀ rc2 : RepoConfig,
      lookupRepo { cfg with Repos := setRepo cfg.Repos repoRoot rc2 } repoRoot = some rc2 :=
    fun rc2 => lookup_setRepo _ _ _
  refine ⟨?_, ?_⟩
  · rw [hl]
    rfl
  · simp only [GetRemoteForRepo]
    rw [hl]
    rcases hlook : lookupRepo cfg repoRoot with _ | rc0
    · rw [hlook] at hrc
      simp only [Option.getD_none] at hrc
      subst hrc
      simp
    · rw [hlook] at hrc
      simp only [Option.getD_some] at hrc
      subst hrc
      simp

theorem setConfig_global_fetch {σ : Type} (sys : ConfigSys σ) (s : ConfigState σ) :
    setConfig sys true "fetch" "true" s =
      saveConfig sys
        { s with cfg := { s.cfg with Fetch := true },
                 errLines := if s.cfg.Remote = "" then s.errLines ++ [fetchWarning]
                   else s.errLines } ∧
    setConfig sys true "fetch" "false" s =
      saveConfig sys { s with cfg := { s.cfg with Fetch := false } } := by
  have hvalid : isValidKey "fetch" = true := (isValidKey_iff "fetch").mpr (Or.inr rfl)
  have hkey : ¬ ("fetch" = "remote") := by decide
  have htf : ¬ ("true" = "false") := by decide
  have hft : ¬ ("false" = "true") := by decide
  constructor
  · simp only [setConfig, hvalid, Bool.not_true, Bool.false_eq_true, if_false, if_true,
      SetGlobal, hkey, ne_eq, not_true_eq_false, false_and, and_false, true_and]
    by_cases h : s.cfg.Remote = "" <;> simp [h]
  · simp only [setConfig, hvalid, Bool.not_true, Bool.false_eq_true, if_false, if_true,
      SetGlobal, hkey, hft, ne_eq, not_true_eq_false, false_and, and_false, true_and]

theorem setConfig_repo_fetch {σ : Type} (sys : ConfigSys σ) (s : ConfigState σ) (root : String)
    (hroot : sys.GetMainRepoRoot s.sys = (root, none)) :
    setConfig sys false "fetch" "true" s =
      saveConfig sys
        { s with cfg := (SetForRepo s.cfg root "fetch" "true").1,
                 errLines := if GetRemoteForRepo s.cfg root = "" then
                     s.errLines ++ [fetchWarning]
                   else s.errLines } ∧
    setConfig sys false "fetch" "false" s =
      saveConfig sys { s with cfg := (SetForRepo s.cfg root "fetch" "false").1 } := by
  have hvalid : isValidKey "fetch" = true := (isValidKey_iff "fetch").mpr (Or.inr rfl)
  have hkey : ¬ ("fetch" = "remote") := by decide
  have hft : ¬ ("false" = "true") := by decide
  obtain ⟨f1, _, f3⟩ := SetForRepo_fetch_true s.cfg root
  have hset : SetForRepo s.cfg root "fetch" "true" =
      ((SetForRepo s.cfg root "fetch" "true").1, none) := by
    rw [← f1]
  have hsetF : SetForRepo s.cfg root "fetch" "false" =
      ((SetForRepo s.cfg root "fetch" "false").1, none) := by
    simp [SetForRepo, hkey, hft]
  constructor
  · simp only [setConfig, hvalid, Bool.not_true, Bool.false_eq_true, if_false,
      ne_eq, not_true_eq_false, false_and, and_false, true_and, hroot]
    rw [hset]
    simp only [f3]
    by_cases h : GetRemoteForRepo s.cfg root = "" <;> simp [h]
  · simp only [setConfig, hvalid, Bool.not_true, Bool.false_eq_true, if_false,
      ne_eq, not_true_eq_false, false_and, and_false, true_and, hroot, hft]
    rw [hsetF]

/-- C12, as amended. For setConfig with key `fetch` and value `true`, when the remote
resolved for the target scope is empty, exactly one warning is written, the
configuration with fetch set in that scope is handed to Save, and setConfig returns
nil exactly when Save does.  When the resolved remote is not empty, or the value is
`false`, no warning is written. -/
theorem setConfig_fetch_warning {σ : Type} (sys : ConfigSys σ) (configGlobal : Bool)
    (s : ConfigState σ) :
    (resolvedRemote sys configGlobal s = some "" →
      (setConfig sys configGlobal "fetch" "true" s).1.errLines = s.errLines ++ [fetchWarning] ∧
      (setConfig sys configGlobal "fetch" "true" s).1.saved =
        s.saved ++ [(setConfig sys configGlobal "fetch" "true" s).1.cfg] ∧
      scopeFetch configGlobal (sys.GetMainRepoRoot s.sys).1
        (setConfig sys configGlobal "fetch" "true" s).1.cfg = some true ∧
      ((setConfig sys configGlobal "fetch" "true" s).2 = none ↔
        (sys.Save s.sys (setConfig sys configGlobal "fetch" "true" s).1.cfg).2 = none)) ∧
    (∀ r, r ≠ "" → resolvedRemote sys configGlobal s = some r →
      (setConfig sys configGlobal "fetch" "true" s).1.errLines = s.errLines) ∧
    (setConfig sys configGlobal "fetch" "false" s).1.errLines = s.errLines := by
  cases configGlobal with
  | true =>
    obtain ⟨hT, hF⟩ := setConfig_global_fetch sys s
    rw [hT, hF]
    simp only [resolvedRemote, if_true, Option.some.injEq, scopeFetch]
    refine ⟨?_, ?_, (saveConfig_spec sys _).1⟩
    · intro h
      obtain ⟨h1, h2, h3, _, h5⟩ := saveConfig_spec sys
        { s with cfg := { s.cfg with Fetch := true },
                 errLines := if s.cfg.Remote = "" then s.errLines ++ [fetchWarning]
                   else s.errLines }
      rw [h1, h2, h3]
      refine ⟨by simp [h], rfl, rfl, ?_⟩
      simpa [h] using h5
    · intro r hr h
      have hne : ¬ s.cfg.Remote = "" := by rw [h]; exact hr
      rw [(saveConfig_spec sys _).1]
      simp only [hne, if_false]
  | false =>
    rcases hroot : sys.GetMainRepoRoot s.sys with ⟨root, _ | e⟩
    · obtain ⟨hT, hF⟩ := setConfig_repo_fetch sys s root hroot
      obtain ⟨_, f2, _⟩ := SetForRepo_fetch_true s.cfg root
      rw [hT, hF]
      simp only [resolvedRemote, Bool.false_eq_true, if_false, hroot, Option.some.injEq,
        scopeFetch]
      refine ⟨?_, ?_, (saveConfig_spec sys _).1⟩
      · intro h
        obtain ⟨h1, h2, h3, _, h5⟩ := saveConfig_spec sys
          { s with cfg := (SetForRepo s.cfg root "fetch" "true").1,
                   errLines := if GetRemoteForRepo s.cfg root = "" then
                       s.errLines ++ [fetchWarning]
                     else s.errLines }
        rw [h1, h2, h3]
        refine ⟨by simp [h], rfl, f2, ?_⟩
        simpa [h] using h5
      · intro r hr h
        have hne : ¬ GetRemoteForRepo s.cfg root = "" := by rw [h]; exact hr
        rw [(saveConfig_spec sys _).1]
        simp only [hne, if_false]
    · have hvalid : isValidKey "fetch" = true := (isValidKey_iff "fetch").mpr (Or.inr rfl)
      simp [resolvedRemote, hroot, setConfig, hvalid]

/-- Witness of C12 as amended: global scope, no remote set, saving succeeds. -/
theorem setConfig_fetch_warning_witness :
    (setConfig sampleConfigSys true "fetch" "true" sampleConfigState).1.errLines =
      [fetchWarning] ∧
    (setConfig sampleConfigSys true "fetch" "true" sampleConfigState).1.saved =
      [{ Remote := "", Fetch := true, Repos := [] }] ∧
    (setConfig sampleConfigSys true "fetch" "true" sampleConfigState).2 = none :=
  have h := (setConfig_fetch_warning sampleConfigSys true sampleConfigState).1 (by decide)
  ⟨h.1, by decide, by decide⟩

/-- Counterexample to C12 as stated: the global remote is empty and saving fails; the
warning is written, and setConfig returns the error of the failed save. -/
theorem setConfig_fetch_warning_counterexample :
    resolvedRemote readOnlyConfigSys true sampleConfigState = some "" ∧
    (setConfig readOnlyConfigSys true "fetch" "true" sampleConfigState).1.errLines =
      [fetchWarning] ∧
    (setConfig readOnlyConfigSys true "fetch" "true" sampleConfigState).2 =
      some "failed to save config: permission denied" ∧
    (setConfig readOnlyConfigSys true "fetch" "true" sampleConfigState).1.sys = none := by
  decide

theorem foldl_append_lines {α : Type} (f : α → String) (g : String → α → String)
    (hg : ∀ out a, g out a = out ++ f a) (l : List α) (init : String) :
    l.foldl g init = init ++ hooks.concat (l.map f) := by
  induction l generalizing init with
  | nil => simp [hooks.concat]
  | cons a rest ih =>
    rw [List.foldl_cons, ih, hg]
    simp [hooks.concat, String.append_assoc]

/-- C13. The text printConfigList writes is the global lines followed by the lines of
every repository override, in the order of the map.  The global lines are
`remote = r (global)` exactly when the global remote `r` is not empty, then
`fetch = true (global)` exactly when the global fetch is true, or `fetch = false (global)`
exactly when the global fetch is false and the global remote is not empty: with an
empty remote and fetch false there is no global line.  The lines of an override are
its remote line exactly when its remote is not empty, then its fetch line exactly
when its fetch is set. -/
theorem printConfigList_policy (cfg : UserConfig) (repos : List (String × RepoConfig))
    (kv : String × RepoConfig) :
    printConfigList cfg = globalLines cfg ++ hooks.concat (cfg.Repos.map repoLines) ∧
    globalLines cfg =
      (if cfg.Remote ≠ "" then "remote = " ++ cfg.Remote ++ " (global)\n" else "") ++
      (if cfg.Fetch then "fetch = true (global)\n"
       else if cfg.Remote ≠ "" then "fetch = false (global)\n" else "") ∧
    globalLines { Remote := "", Fetch := false, Repos := repos } = "" ∧
    globalLines { Remote := "", Fetch := true, Repos := repos } = "fetch = true (global)\n" ∧
    repoLines kv =
      (if kv.2.Remote ≠ "" then "repos." ++ kv.1 ++ ".remote = " ++ kv.2.Remote ++ "\n"
       else "") ++
      (if kv.2.Fetch = some true then "repos." ++ kv.1 ++ ".fetch = true\n"
       else if kv.2.Fetch = some false then "repos." ++ kv.1 ++ ".fetch = false\n"
       else "") := by
  refine ⟨?_, rfl, by simp [globalLines], by simp [globalLines], ?_⟩
  · unfold printConfigList
    rw [foldl_append_lines repoLines]
    · congr 1
      unfold globalLines
      by_cases h1 : cfg.Remote = "" <;> cases h2 : cfg.Fetch <;> simp [h1, String.append_assoc]
    · intro out a
      unfold repoLines
      by_cases h1 : a.2.Remote = "" <;> rcases a.2.Fetch with _ | b <;>
        simp [h1, String.append_assoc]
  · have e1 : ∀ x : String, x ++ ".fetch = " ++ "false" ++ "\n" = x ++ ".fetch = false\n" := by
      intro x
      rw [String.append_assoc, String.append_assoc]
      rfl
    have e2 : ∀ x : String, x ++ ".fetch = " ++ "true" ++ "\n" = x ++ ".fetch = true\n" := by
      intro x
      rw [String.append_assoc, String.append_assoc]
      rfl
    unfold repoLines
    rcases kv.2.Fetch with _ | b
    · simp
    · cases b <;> simp [fmtBool, e1, e2]

/-- The example of C13: a global remote with fetch false, and one repository whose only
override is fetch false. -/
theorem printConfigList_example :
    printConfigList
      { Remote := "origin", Fetch := false,
        Repos := [("/repo", { Remote := "", Fetch := some false })] } =
      "remote = origin (global)\nfetch = false (global)\nrepos./repo.fetch = false\n" ∧
    printConfigList { Remote := "", Fetch := false, Repos := [] } = "" := by
  decide

end commands

namespace commands

open strings

/-! ## Layout of the verbose report -/

theorem maxKeyWidthLoop_spec (pairs : List KeyValue) (m : Nat) :
    m ≤ maxKeyWidthLoop pairs m ∧
    (∀ p ∈ pairs, len p.Key ≤ maxKeyWidthLoop pairs m) ∧
    (maxKeyWidthLoop pairs m = m ∨ ∃ p ∈ pairs, len p.Key = maxKeyWidthLoop pairs m) := by
  induction pairs generalizing m with
  | nil => simp [maxKeyWidthLoop]
  | cons p rest ih =>
    unfold maxKeyWidthLoop
    by_cases hp : len p.Key > m
    · simp only [hp, if_true]
      obtain ⟨h1, h2, h3⟩ := ih (len p.Key)
      refine ⟨by omega, ?_, ?_⟩
      · intro q hq
        rcases List.mem_cons.mp hq with rfl | hq
        · exact h1
        · exact h2 q hq
      · right
        rcases h3 with h | ⟨q, hq, hqe⟩
        · exact ⟨p, List.mem_cons_self _ _, h.symm⟩
        · exact ⟨q, List.mem_cons_of_mem _ hq, hqe⟩
    · simp only [hp, if_false]
      obtain ⟨h1, h2, h3⟩ := ih m
      refine ⟨h1, ?_, ?_⟩
      · intro q hq
        rcases List.mem_cons.mp hq with rfl | hq
        · omega
        · exact h2 q hq
      · rcases h3 with h | ⟨q, hq, hqe⟩
        · exact Or.inl h
        · exact Or.inr ⟨q, List.mem_cons_of_mem _ hq, hqe⟩

theorem collectBuiltinPairs_ne_nil {τ ς : Type} (lib : Lib τ ς) (info : VerboseInfo τ ς) :
    collectBuiltinPairs lib info ≠ [] := by
  unfold collectBuiltinPairs
  simp only [List.nil_append]
  split <;> split <;> split <;> simp

/-- The text PrintVerboseWorktree writes: the header, one line per pair, and the raw
lines, indented, after an empty line when there is one at least. -/
theorem PrintVerboseWorktree_eq {τ ς : Type} (lib : Lib τ ς) (info : VerboseInfo τ ς) :
    PrintVerboseWorktree lib info =
      info.CurrentMarker ++ info.Name ++ "\n" ++
      hooks.concat ((collectBuiltinPairs lib info ++ (ParseHookKeyValues info.HookOutput).1).map
        (pairLine (maxKeyWidthLoop
          (collectBuiltinPairs lib info ++ (ParseHookKeyValues info.HookOutput).1) 0))) ++
      (if (ParseHookKeyValues info.HookOutput).2 = [] then ""
       else "\n" ++ hooks.concat ((ParseHookKeyValues info.HookOutput).2.map
         (fun line => "  " ++ line ++ "\n"))) := by
  unfold PrintVerboseWorktree
  simp only []
  rw [foldl_append_lines (pairLine _) _ (fun _ _ => rfl)]
  rcases hraw : (ParseHookKeyValues info.HookOutput).2 with _ | ⟨r, rs⟩
  · simp
  · simp only [List.length_cons, gt_iff_lt, Nat.zero_lt_succ, if_true]
    rw [foldl_append_lines (fun line => "  " ++ line ++ "\n") _ (fun _ _ => rfl)]
    simp [String.append_assoc]

theorem padRight_length (width : Nat) (s : String) (h : s.length ≤ width)
    (hw : width ≤ 1000000) : (padRight width s).length = width := by
  unfold padRight
  rw [if_neg (by omega), String.length_append]
  show s.length + (List.replicate (width - s.length) ' ').length = width
  rw [List.length_replicate]
  omega

/-- The layout of the report below the width limit of `fmt`.  PrintVerboseWorktree
computes one width `w`, the largest key length (`len`) over the built-in pairs followed
by the hook pairs.  When `w` is below 1000000, it writes after the header every pair of
that list, in order, as two spaces, `key:` padded with spaces on the right to `w + 1`
characters, one space, the value and a newline, and for a key of single-byte characters
the value starts `w + 4` characters into its line. -/
theorem PrintVerboseWorktree_alignment_below_limit {τ ς : Type} (lib : Lib τ ς)
    (info : VerboseInfo τ ς) :
    (∀ p ∈ collectBuiltinPairs lib info ++ (ParseHookKeyValues info.HookOutput).1,
      len p.Key ≤ maxKeyWidthLoop
        (collectBuiltinPairs lib info ++ (ParseHookKeyValues info.HookOutput).1) 0) ∧
    (∃ p ∈ collectBuiltinPairs lib info ++ (ParseHookKeyValues info.HookOutput).1,
      len p.Key = maxKeyWidthLoop
        (collectBuiltinPairs lib info ++ (ParseHookKeyValues info.HookOutput).1) 0) ∧
    (maxKeyWidthLoop
        (collectBuiltinPairs lib info ++ (ParseHookKeyValues info.HookOutput).1) 0 < 1000000 →
      (∃ rest, PrintVerboseWorktree lib info =
        info.CurrentMarker ++ info.Name ++ "\n" ++
        hooks.concat ((collectBuiltinPairs lib info ++ (ParseHookKeyValues info.HookOutput).1).map
          (fun p => "  " ++ (p.Key ++ ":" ++ String.mk (List.replicate
            (maxKeyWidthLoop
              (collectBuiltinPairs lib info ++ (ParseHookKeyValues info.HookOutput).1) 0 + 1 -
                (p.Key ++ ":").length) ' ')) ++ " " ++ p.Value ++ "\n")) ++ rest ∧
        (rest = "" ∨ ∃ raw, rest = "\n" ++ raw)) ∧
      (∀ p ∈ collectBuiltinPairs lib info ++ (ParseHookKeyValues info.HookOutput).1,
        len p.Key = p.Key.length →
        ∃ before, (pairLine (maxKeyWidthLoop
            (collectBuiltinPairs lib info ++ (ParseHookKeyValues info.HookOutput).1) 0) p).data =
          before ++ p.Value.data ++ ['\n'] ∧
          before.length = maxKeyWidthLoop
            (collectBuiltinPairs lib info ++ (ParseHookKeyValues info.HookOutput).1) 0 + 4)) := by
  generalize hp : collectBuiltinPairs lib info ++ (ParseHookKeyValues info.HookOutput).1 = pairs
  obtain ⟨_, hle, hmax⟩ := maxKeyWidthLoop_spec pairs 0
  refine ⟨hle, ?_, ?_⟩
  · rcases hmax with h0 | h
    · have hne : pairs ≠ [] := by
        rw [← hp]
        intro h
        exact collectBuiltinPairs_ne_nil lib info (List.append_eq_nil.mp h).1
      obtain ⟨p, rest, rfl⟩ := List.exists_cons_of_ne_nil hne
      refine ⟨p, List.mem_cons_self _ _, ?_⟩
      have := hle p (List.mem_cons_self _ _)
      omega
    · exact h
  · intro hlim
    refine ⟨?_, ?_⟩
    · refine ⟨(if (ParseHookKeyValues info.HookOutput).2 = [] then ""
         else "\n" ++ hooks.concat ((ParseHookKeyValues info.HookOutput).2.map
           (fun line => "  " ++ line ++ "\n"))), ?_, ?_⟩
      · rw [PrintVerboseWorktree_eq, hp]
        have hfun : pairLine (maxKeyWidthLoop pairs 0) =
            (fun p => "  " ++ (p.Key ++ ":" ++ String.mk (List.replicate
              (maxKeyWidthLoop pairs 0 + 1 - (p.Key ++ ":").length) ' ')) ++ " " ++ p.Value ++
                "\n") := by
          funext p
          exact pairLine_of_width _ p hlim
        rw [hfun]
      · split
        · exact Or.inl rfl
        · exact Or.inr ⟨_, rfl⟩
    · intro p hmem hsingle
      have hw := hle p hmem
      refine ⟨(' ' :: ' ' :: (padRight (maxKeyWidthLoop pairs 0 + 1) (p.Key ++ ":")).data) ++
        [' '], ?_, ?_⟩
      · simp [pairLine, String.data_append]
      · have hl := padRight_length (maxKeyWidthLoop pairs 0 + 1) (p.Key ++ ":") (by
          simp only [String.length_append]
          have : (":" : String).length = 1 := rfl
          omega) (by omega)
        simp only [List.length_append, List.length_cons, List.length_singleton,
          List.length_nil]
        have : (padRight (maxKeyWidthLoop pairs 0 + 1) (p.Key ++ ":")).data.length =
            maxKeyWidthLoop pairs 0 + 1 := hl
        omega

/-- C15, as amended. After the header and the key/value lines PrintVerboseWorktree writes
nothing when the hook output yields no raw line; when it yields one at least it writes
one empty line and then every raw line in the order of the parser, each after two
spaces of indentation and followed by a newline. -/
theorem PrintVerboseWorktree_raw_lines {τ ς : Type} (lib : Lib τ ς) (info : VerboseInfo τ ς) :
    PrintVerboseWorktree lib info =
      (info.CurrentMarker ++ info.Name ++ "\n" ++
        hooks.concat
          ((collectBuiltinPairs lib info ++ (ParseHookKeyValues info.HookOutput).1).map
            (pairLine (maxKeyWidthLoop
              (collectBuiltinPairs lib info ++ (ParseHookKeyValues info.HookOutput).1) 0)))) ++
      (if (ParseHookKeyValues info.HookOutput).2 = [] then ""
       else "\n" ++ hooks.concat ((ParseHookKeyValues info.HookOutput).2.map
         (fun line => "  " ++ line ++ "\n"))) :=
  PrintVerboseWorktree_eq lib info

/-- Counterexample to C15 as stated: the only raw line is `hello`; after the key/value
line and the empty line the report holds the line `  hello`, with two spaces before
the text, and not the line `hello`. -/
theorem PrintVerboseWorktree_raw_lines_counterexample :
    (ParseHookKeyValues rawInfo.HookOutput).2 = ["hello"] ∧
    PrintVerboseWorktree sampleLib rawInfo = "  test\n  Branch: main\n" ++ "\n" ++ "  hello\n" ∧
    PrintVerboseWorktree sampleLib rawInfo ≠ "  test\n  Branch: main\n" ++ "\n" ++ "hello\n" := by
  decide

end commands

namespace commands

open strings

/-! ## Algebra of the hook output parser -/

theorem splitChars_append_sep (sep : Char) (x y : List Char) :
    splitChars sep (x ++ sep :: y) = splitChars sep x ++ splitChars sep y := by
  induction x with
  | nil => simp [splitChars]
  | cons c rest ih =>
    by_cases hc : c = sep
    · simp [splitChars, hc, ih]
    · rw [List.cons_append, splitChars, if_neg hc, ih, splitChars, if_neg hc]
      rcases hs : splitChars sep rest with _ | ⟨p, ps⟩
      · exact absurd hs (splitChars_ne_nil sep rest)
      · simp

theorem splitChars_of_not_mem (sep : Char) (x : List Char) (h : sep ∉ x) :
    splitChars sep x = [x] := by
  induction x with
  | nil => simp [splitChars]
  | cons c rest ih =>
    simp only [List.mem_cons, not_or] at h
    have hc : ¬ c = sep := fun e => h.1 e.symm
    rw [splitChars, if_neg hc, ih h.2]

theorem ParseHookKeyValues_filterMap (output : String) :
    ParseHookKeyValues output =
      (((Split output '\n').map classifyLine).filterMap LineClass.pair?,
        ((Split output '\n').map classifyLine).filterMap LineClass.raw?) := by
  unfold ParseHookKeyValues
  split
  · rename_i h
    subst h
    decide
  · rw [parseLines_eq]
    simp

theorem classifyLine_empty : classifyLine "" = LineClass.blank := by decide

theorem Split_append_newline (a b : String) :
    Split (a ++ "\n" ++ b) '\n' = (splitChars '\n' a.data).map String.mk ++ Split b '\n' := by
  unfold Split
  have : (a ++ "\n" ++ b).data = a.data ++ '\n' :: b.data := by
    simp [String.data_append]
  rw [this, splitChars_append_sep, List.map_append]

theorem Split_newline_end (a : String) :
    Split (a ++ "\n") '\n' = (splitChars '\n' a.data).map String.mk ++ [String.mk []] := by
  have := Split_append_newline a ""
  simp only [String.append_empty] at this
  rw [this]
  rfl

/-- The parse of a text that ends with a newline, followed by any text, is the parse
of the first followed by the parse of the second. -/
theorem ParseHookKeyValues_append_newline (a b : String) :
    ParseHookKeyValues (a ++ "\n" ++ b) =
      ((ParseHookKeyValues (a ++ "\n")).1 ++ (ParseHookKeyValues b).1,
        (ParseHookKeyValues (a ++ "\n")).2 ++ (ParseHookKeyValues b).2) := by
  rw [ParseHookKeyValues_filterMap (a ++ "\n" ++ b), ParseHookKeyValues_filterMap (a ++ "\n"),
    ParseHookKeyValues_filterMap b, Split_append_newline, Split_newline_end]
  have e : String.mk [] = "" := rfl
  simp [List.filterMap_append, e, classifyLine_empty, LineClass.pair?, LineClass.raw?]

theorem ParseHookKeyValues_empty : ParseHookKeyValues "" = ([], []) := by decide

/-- C16. For a text `a` that is empty or ends with a newline and any text `b`, the
pairs of the parse of `a ++ b` are the pairs of `a` followed by the pairs of `b`, and
the same holds of the raw lines.  Hence the parse of the concatenation of hook outputs
that each are empty or end with a newline is the concatenation of their parses. -/
theorem ParseHookKeyValues_append (a b : String) (h : a = "" ∨ ∃ a1, a = a1 ++ "\n") :
    ParseHookKeyValues (a ++ b) =
      ((ParseHookKeyValues a).1 ++ (ParseHookKeyValues b).1,
        (ParseHookKeyValues a).2 ++ (ParseHookKeyValues b).2) ∧
    ∀ outs : List String, (∀ o ∈ outs, o = "" ∨ ∃ o1, o = o1 ++ "\n") →
      ParseHookKeyValues (hooks.concat outs) =
        ((outs.map (fun o => (ParseHookKeyValues o).1)).flatten,
          (outs.map (fun o => (ParseHookKeyValues o).2)).flatten) := by
  have hpair : ∀ x y : String, (x = "" ∨ ∃ x1, x = x1 ++ "\n") →
      ParseHookKeyValues (x ++ y) =
        ((ParseHookKeyValues x).1 ++ (ParseHookKeyValues y).1,
          (ParseHookKeyValues x).2 ++ (ParseHookKeyValues y).2) := by
    intro x y hx
    rcases hx with rfl | ⟨x1, rfl⟩
    · simp [ParseHookKeyValues_empty]
    · exact ParseHookKeyValues_append_newline x1 y
  refine ⟨hpair a b h, ?_⟩
  intro outs
  induction outs with
  | nil => intro _; simp [hooks.concat, ParseHookKeyValues_empty]
  | cons o rest ih =>
    intro hall
    rw [hooks.concat, hpair o _ (hall o (List.mem_cons_self _ _)),
      ih (fun x hx => hall x (List.mem_cons_of_mem _ hx))]
    simp

/-- Witness of C16: the output of a first hook ends with a newline. -/
theorem ParseHookKeyValues_append_witness :
    ParseHookKeyValues ("Port: 3000\nsome text\n" ++ "Database: dev") =
      ((ParseHookKeyValues "Port: 3000\nsome text\n").1 ++ (ParseHookKeyValues "Database: dev").1,
        (ParseHookKeyValues "Port: 3000\nsome text\n").2 ++
          (ParseHookKeyValues "Database: dev").2) :=
  (ParseHookKeyValues_append "Port: 3000\nsome text\n" "Database: dev"
    (Or.inr ⟨"Port: 3000\nsome text", by decide⟩)).1

end commands

namespace commands

open strings

/-! ## Rendering and parsing again -/

theorem mem_of_mem_rdropWhile (p : Char → Bool) (l : List Char) (c : Char)
    (h : c ∈ List.rdropWhile p l) : c ∈ l := by
  unfold List.rdropWhile at h
  exact List.mem_reverse.mp ((List.dropWhile_sublist p).subset (List.mem_reverse.mp h))

theorem mem_of_mem_trimSpaceChars (l : List Char) (c : Char) (h : c ∈ trimSpaceChars l) :
    c ∈ l :=
  (List.dropWhile_sublist isSpace).subset (mem_of_mem_rdropWhile _ _ _ h)

theorem dropWhile_self_head (p : Char → Bool) (h : Char) (t : List Char)
    (hd : List.dropWhile p (h :: t) = h :: t) : p h = false := by
  cases hp : p h
  · rfl
  · rw [List.dropWhile_cons_of_pos hp] at hd
    have h1 := (List.dropWhile_sublist p (l := t)).length_le
    rw [hd] at h1
    simp at h1

theorem dropWhile_append_self (p : Char → Bool) (l r : List Char) (hne : l ≠ [])
    (hd : List.dropWhile p l = l) : List.dropWhile p (l ++ r) = l ++ r := by
  obtain ⟨h, t, rfl⟩ := List.exists_cons_of_ne_nil hne
  have hp := dropWhile_self_head p h t hd
  rw [List.cons_append, List.dropWhile_cons_of_neg (by simp [hp])]

theorem rdropWhile_append_self (p : Char → Bool) (l r : List Char) (hne : r ≠ [])
    (hd : List.rdropWhile p r = r) : List.rdropWhile p (l ++ r) = l ++ r := by
  unfold List.rdropWhile at hd ⊢
  have h1 : List.dropWhile p r.reverse = r.reverse := by
    have := congrArg List.reverse hd
    simpa using this
  rw [List.reverse_append, dropWhile_append_self p _ _ (by simpa using hne) h1]
  simp

theorem trimSpaceChars_trimmed (l : List Char) : Trimmed (trimSpaceChars l) := by
  unfold Trimmed trimSpaceChars
  refine ⟨?_, List.rdropWhile_idempotent _ _⟩
  have hy : List.dropWhile isSpace (List.dropWhile isSpace l) = List.dropWhile isSpace l :=
    List.dropWhile_idempotent _ _
  generalize List.dropWhile isSpace l = y at hy
  rcases ht : List.rdropWhile isSpace y with _ | ⟨h, t⟩
  · rfl
  · have hpre : (h :: t) ++ List.rtakeWhile isSpace y = y := by
      rw [← ht]; exact rdropWhile_append_rtakeWhile _ _
    have hyc : y = h :: (t ++ List.rtakeWhile isSpace y) := by
      conv_lhs => rw [← hpre]
      rfl
    have hp : isSpace h = false := by
      rw [hyc] at hy
      exact dropWhile_self_head isSpace h _ hy
    rw [List.dropWhile_cons_of_neg (by simp [hp])]

theorem trimSpaceChars_of_trimmed (l : List Char) (h : Trimmed l) : trimSpaceChars l = l := by
  unfold trimSpaceChars
  rw [h.1, h.2]

theorem trimSpaceChars_eq_nil (l : List Char) (h : trimSpaceChars l = []) :
    ∀ c ∈ l, isSpace c = true := by
  obtain ⟨a, b, hl, ha, hb⟩ := trimSpaceChars_decomp l
  rw [h] at hl
  intro c hc
  rw [hl] at hc
  simp only [List.append_nil, List.mem_append] at hc
  rcases hc with hc | hc
  · exact ha c hc
  · exact hb c hc

theorem classifyLine_pair_good (line : String) (p : KeyValue) (hnl : '\n' ∉ line.data)
    (h : classifyLine line = LineClass.pair p) : GoodPair p := by
  unfold classifyLine at h
  split at h
  · simp at h
  · split at h
    · rename_i hc
      obtain ⟨hidx, hk, hv⟩ := hc
      simp only [LineClass.pair.injEq] at h
      subst h
      have hidx0 : 0 ≤ indexChars ':' line.data := by
        have : 0 < indexChars ':' line.data := hidx
        omega
      obtain ⟨_, hnot⟩ := indexChars_split ':' line.data hidx0
      refine ⟨?_, trimSpaceChars_trimmed _, ?_, ?_, ?_, trimSpaceChars_trimmed _, ?_⟩
      · intro he
        apply hk
        simp only [TrimSpace, sliceTo, Index] at he ⊢
        rw [he]
      · intro hm
        exact hnot (mem_of_mem_trimSpaceChars _ _ hm)
      · intro hm
        exact hnl (List.mem_of_mem_take (mem_of_mem_trimSpaceChars _ _ hm))
      · intro he
        apply hv
        simp only [TrimSpace, sliceFrom, Index] at he ⊢
        rw [he]
      · intro hm
        exact hnl (List.mem_of_mem_drop (mem_of_mem_trimSpaceChars _ _ hm))
    · simp at h

theorem parsed_pairs_good (x : String) : ∀ p ∈ (ParseHookKeyValues x).1, GoodPair p := by
  intro p hp
  rw [ParseHookKeyValues_filterMap] at hp
  simp only [List.mem_filterMap, List.mem_map] at hp
  obtain ⟨c, ⟨line, hline, hc⟩, hpc⟩ := hp
  subst hc
  unfold Split at hline
  obtain ⟨piece, hpiece, rfl⟩ := List.mem_map.mp hline
  have hnl := splitChars_no_sep '\n' x.data piece hpiece
  cases hcl : classifyLine (String.mk piece) with
  | blank => rw [hcl] at hpc; simp [LineClass.pair?] at hpc
  | raw t => rw [hcl] at hpc; simp [LineClass.pair?] at hpc
  | pair kv =>
    rw [hcl] at hpc
    simp only [LineClass.pair?, Option.some.injEq] at hpc
    subst hpc
    exact classifyLine_pair_good _ _ hnl hcl

theorem isSpace_space : isSpace ' ' = true := by decide

theorem isSpace_replicate (n : Nat) : ∀ c ∈ List.replicate n ' ', isSpace c = true := by
  intro c hc
  rw [(List.mem_replicate.mp hc).2]
  exact isSpace_space

/-- A line that holds a good pair is classified as that pair, whatever the numbers of
spaces before the key and before the value. -/
theorem classifyLine_pairLineBody (lead pad : Nat) (p : KeyValue) (hg : GoodPair p) :
    classifyLine (String.mk (pairLineBody lead pad p)) = LineClass.pair p ∧
    '\n' ∉ pairLineBody lead pad p := by
  obtain ⟨hk, hkt, hkc, hkn, hv, hvt, hvn⟩ := hg
  have hcolon : ':' ∉ List.replicate lead ' ' ++ p.Key.data := by
    simp only [List.mem_append, List.mem_replicate, not_or]
    refine ⟨?_, hkc⟩
    rintro ⟨_, h⟩
    exact absurd h (by decide)
  have hlen : 0 < (List.replicate lead ' ' ++ p.Key.data).length := by
    rw [List.length_append]
    have := List.length_pos.mpr hk
    omega
  have hidx : indexChars ':' (pairLineBody lead pad p) =
      ((List.replicate lead ' ' ++ p.Key.data).length : Nat) := by
    unfold pairLineBody
    exact indexChars_append_cons _ _ _ hcolon
  have htoNat : (indexChars ':' (pairLineBody lead pad p)).toNat =
      (List.replicate lead ' ' ++ p.Key.data).length := by rw [hidx]; omega
  have htoNat1 : (indexChars ':' (pairLineBody lead pad p) + 1).toNat =
      (List.replicate lead ' ' ++ p.Key.data).length + 1 := by rw [hidx]; omega
  have htake : (pairLineBody lead pad p).take (List.replicate lead ' ' ++ p.Key.data).length =
      List.replicate lead ' ' ++ p.Key.data := by
    unfold pairLineBody
    rw [List.take_left]
  have hdrop : (pairLineBody lead pad p).drop
      ((List.replicate lead ' ' ++ p.Key.data).length + 1) =
      List.replicate pad ' ' ++ p.Value.data := by
    unfold pairLineBody
    rw [List.drop_append]
    rfl
  have hkey : trimSpaceChars (List.replicate lead ' ' ++ p.Key.data) = p.Key.data := by
    rw [trimSpaceChars_append_left _ _ (isSpace_replicate lead), trimSpaceChars_of_trimmed _ hkt]
  have hval : trimSpaceChars (List.replicate pad ' ' ++ p.Value.data) = p.Value.data := by
    rw [trimSpaceChars_append_left _ _ (isSpace_replicate pad), trimSpaceChars_of_trimmed _ hvt]
  have hnotblank : trimSpaceChars (pairLineBody lead pad p) ≠ [] := by
    intro he
    obtain ⟨h, t, hht⟩ := List.exists_cons_of_ne_nil hk
    have hall := trimSpaceChars_eq_nil _ he h (by
      unfold pairLineBody
      simp [hht])
    have hp : isSpace h = false := by
      have := hkt.1
      rw [hht] at this
      exact dropWhile_self_head isSpace h t this
    rw [hp] at hall
    exact absurd hall (by decide)
  constructor
  · unfold classifyLine
    have e1 : ¬ TrimSpace (String.mk (pairLineBody lead pad p)) = "" := by
      intro he
      apply hnotblank
      have := congrArg String.data he
      simpa [TrimSpace] using this
    have e2 : Index (String.mk (pairLineBody lead pad p)) ':' > 0 := by
      show indexChars ':' (pairLineBody lead pad p) > 0
      rw [hidx]
      omega
    have e3 : TrimSpace (sliceTo (String.mk (pairLineBody lead pad p))
        (Index (String.mk (pairLineBody lead pad p)) ':')) = p.Key := by
      show String.mk (trimSpaceChars ((pairLineBody lead pad p).take
        (indexChars ':' (pairLineBody lead pad p)).toNat)) = p.Key
      rw [htoNat, htake, hkey]
    have e4 : TrimSpace (sliceFrom (String.mk (pairLineBody lead pad p))
        (Index (String.mk (pairLineBody lead pad p)) ':' + 1)) = p.Value := by
      show String.mk (trimSpaceChars ((pairLineBody lead pad p).drop
        (indexChars ':' (pairLineBody lead pad p) + 1).toNat)) = p.Value
      rw [htoNat1, hdrop, hval]
    have e5 : ¬ p.Key = "" := by
      intro he
      apply hk
      rw [he]
    have e6 : ¬ p.Value = "" := by
      intro he
      apply hv
      rw [he]
    simp only [e1, if_false, e2, e3, e4, ne_eq, e5, e6, not_false_eq_true, and_self, if_true]
  · unfold pairLineBody
    simp only [List.mem_append, List.mem_cons, List.mem_replicate, not_or]
    refine ⟨⟨?_, hkn⟩, by decide, ?_, hvn⟩
    · rintro ⟨_, h⟩
      exact absurd h (by decide)
    · rintro ⟨_, h⟩
      exact absurd h (by decide)

/-- Parsing a text that starts with a line holding a good pair. -/
theorem ParseHookKeyValues_pairLineBody (lead pad : Nat) (p : KeyValue) (hg : GoodPair p)
    (rest : String) :
    ParseHookKeyValues (String.mk (pairLineBody lead pad p) ++ "\n" ++ rest) =
      (p :: (ParseHookKeyValues rest).1, (ParseHookKeyValues rest).2) := by
  obtain ⟨hclass, hnl⟩ := classifyLine_pairLineBody lead pad p hg
  rw [ParseHookKeyValues_append_newline,
    ParseHookKeyValues_filterMap (String.mk (pairLineBody lead pad p) ++ "\n"),
    Split_newline_end]
  have hsplit : splitChars '\n' (String.mk (pairLineBody lead pad p)).data =
      [pairLineBody lead pad p] := splitChars_of_not_mem _ _ hnl
  rw [hsplit]
  have e : String.mk [] = "" := rfl
  simp [hclass, e, classifyLine_empty, LineClass.pair?, LineClass.raw?]

/-- Below the width limit a pair line is two spaces, the key, the colon, the padding
and one space more, and the value. -/
theorem pairLine_body (maxKeyWidth : Nat) (p : KeyValue) (hw : maxKeyWidth < 1000000) :
    pairLine maxKeyWidth p =
      String.mk (pairLineBody 2 (maxKeyWidth + 1 - (p.Key ++ ":").length + 1) p) ++ "\n" := by
  rw [pairLine_of_width maxKeyWidth p hw]
  apply String.ext
  simp [pairLineBody, String.data_append, List.replicate_succ']

/-- From the width limit on a pair line is two spaces, `%!(BADWIDTH)` and the key, the
colon, one space and the value. -/
theorem pairLine_bad_body (maxKeyWidth : Nat) (p : KeyValue) (hw : 1000000 ≤ maxKeyWidth) :
    pairLine maxKeyWidth p = String.mk (pairLineBody 2 1 (badWidthPair p)) ++ "\n" := by
  rw [pairLine_bad_width maxKeyWidth p hw]
  apply String.ext
  simp [pairLineBody, badWidthPair, String.data_append]

theorem badWidthPair_good (p : KeyValue) (hg : GoodPair p) : GoodPair (badWidthPair p) := by
  obtain ⟨hk, hkt, hkc, hkn, hv, hvt, hvn⟩ := hg
  have hpre : ("%!(BADWIDTH)" : String).data =
      ['%', '!', '(', 'B', 'A', 'D', 'W', 'I', 'D', 'T', 'H', ')'] := rfl
  have hdata : (badWidthPair p).Key.data =
      ['%', '!', '(', 'B', 'A', 'D', 'W', 'I', 'D', 'T', 'H', ')'] ++ p.Key.data := by
    show ("%!(BADWIDTH)" ++ p.Key).data = _
    rw [String.data_append, hpre]
  refine ⟨?_, ⟨?_, ?_⟩, ?_, ?_, hv, hvt, hvn⟩
  · rw [hdata]; simp
  · rw [hdata]
    exact dropWhile_append_self isSpace _ _ (by simp) (by decide)
  · rw [hdata]
    exact rdropWhile_append_self isSpace _ _ hk hkt.2
  · rw [hdata]
    simp only [List.mem_append, not_or]
    exact ⟨by decide, hkc⟩
  · rw [hdata]
    simp only [List.mem_append, not_or]
    exact ⟨by decide, hkn⟩

theorem ParseHookKeyValues_pairLine (maxKeyWidth : Nat) (p : KeyValue) (hg : GoodPair p)
    (rest : String) :
    ParseHookKeyValues (pairLine maxKeyWidth p ++ rest) =
      ((if maxKeyWidth < 1000000 then p else badWidthPair p) :: (ParseHookKeyValues rest).1,
        (ParseHookKeyValues rest).2) := by
  by_cases hw : maxKeyWidth < 1000000
  · rw [pairLine_body maxKeyWidth p hw, ParseHookKeyValues_pairLineBody _ _ p hg, if_pos hw]
  · rw [pairLine_bad_body maxKeyWidth p (by omega),
      ParseHookKeyValues_pairLineBody _ _ _ (badWidthPair_good p hg), if_neg hw]

/-- Parsing the rendered lines of good pairs gives the pairs back below the width limit,
and from the limit on the pairs with `%!(BADWIDTH)` before every key; no raw line in
either case. -/
theorem ParseHookKeyValues_render (maxKeyWidth : Nat) (ps : List KeyValue)
    (hg : ∀ p ∈ ps, GoodPair p) :
    ParseHookKeyValues (hooks.concat (ps.map (pairLine maxKeyWidth))) =
      (ps.map (fun p => if maxKeyWidth < 1000000 then p else badWidthPair p), []) := by
  induction ps with
  | nil => simp [hooks.concat, ParseHookKeyValues_empty]
  | cons p rest ih =>
    rw [List.map_cons, hooks.concat,
      ParseHookKeyValues_pairLine maxKeyWidth p (hg p (List.mem_cons_self _ _)),
      ih (fun q hq => hg q (List.mem_cons_of_mem _ hq))]
    rfl

/-- The round trip below the width limit of `fmt`.  For every input and every alignment
width below 1000000, rendering the parsed pairs the way PrintVerboseWorktree renders
key/value lines and parsing the rendered text gives the same pairs in the same order and
no raw line; every parsed key is not empty, without white space at either end and free
of colons and newlines, and every parsed value is not empty, without white space at
either end and free of newlines. -/
theorem ParseHookKeyValues_roundtrip_below_limit (x : String) (maxKeyWidth : Nat)
    (hw : maxKeyWidth < 1000000) :
    ParseHookKeyValues
      (hooks.concat ((ParseHookKeyValues x).1.map (pairLine maxKeyWidth))) =
        ((ParseHookKeyValues x).1, []) ∧
    (∀ p ∈ (ParseHookKeyValues x).1, GoodPair p) ∧
    (∀ p : KeyValue, pairLine maxKeyWidth p =
      "  " ++ (p.Key ++ ":" ++ String.mk (List.replicate
        (maxKeyWidth + 1 - (p.Key ++ ":").length) ' ')) ++ " " ++ p.Value ++ "\n") := by
  refine ⟨?_, parsed_pairs_good x, fun p => pairLine_of_width maxKeyWidth p hw⟩
  rw [ParseHookKeyValues_render maxKeyWidth _ (parsed_pairs_good x)]
  simp [hw]

/-- An example of the round trip below the width limit: a value with colons and a key
with inner spaces survive. -/
theorem ParseHookKeyValues_roundtrip_example :
    (ParseHookKeyValues "  API Endpoint :  http://localhost:3000 \nnote\nPort:1").1 =
      [⟨"API Endpoint", "http://localhost:3000"⟩, ⟨"Port", "1"⟩] ∧
    hooks.concat ([⟨"API Endpoint", "http://localhost:3000"⟩, ⟨"Port", "1"⟩].map (pairLine 12)) =
      "  API Endpoint: http://localhost:3000\n  Port:         1\n" ∧
    ParseHookKeyValues "  API Endpoint: http://localhost:3000\n  Port:         1\n" =
      ([⟨"API Endpoint", "http://localhost:3000"⟩, ⟨"Port", "1"⟩], []) := by
  decide

end commands

namespace commands

open strings

/-! ## Keys beyond the width limit of `fmt` -/

theorem len_longKey (n : Nat) : len (longKey n) = n := by
  have h : ∀ m, String.utf8ByteSize.go (List.replicate m 'k') = m := by
    intro m
    induction m with
    | zero => rfl
    | succ m ih =>
      rw [List.replicate_succ]
      show String.utf8ByteSize.go (List.replicate m 'k') + Char.utf8Size 'k' = m + 1
      rw [ih]
      rfl
  exact h n

theorem dropWhile_of_forall (p : Char → Bool) (l : List Char) (h : ∀ c ∈ l, p c = false) :
    List.dropWhile p l = l := by
  cases l with
  | nil => rfl
  | cons a t => rw [List.dropWhile_cons_of_neg (by simp [h a (List.mem_cons_self _ _)])]

theorem trimmed_of_forall (l : List Char) (h : ∀ c ∈ l, isSpace c = false) : Trimmed l := by
  refine ⟨dropWhile_of_forall _ _ h, ?_⟩
  unfold List.rdropWhile
  rw [dropWhile_of_forall _ _ (fun c hc => h c (List.mem_reverse.mp hc)), List.reverse_reverse]

theorem longKey_good (n : Nat) (hn : 0 < n) : GoodPair ⟨longKey n, "v"⟩ := by
  have hmem : ∀ c ∈ List.replicate n 'k', c = 'k' := fun c hc => (List.mem_replicate.mp hc).2
  refine ⟨?_, ?_, ?_, ?_, ?_, ?_, ?_⟩
  · show List.replicate n 'k' ≠ []
    intro h
    have := congrArg List.length h
    rw [List.length_replicate] at this
    simp at this
    omega
  · apply trimmed_of_forall
    intro c hc
    rw [hmem c hc]
    decide
  · intro hc
    exact absurd (hmem _ hc) (by decide)
  · intro hc
    exact absurd (hmem _ hc) (by decide)
  · show ['v'] ≠ []
    simp
  · apply trimmed_of_forall
    intro c hc
    have : c = 'v' := by simpa using hc
    rw [this]
    decide
  · show '\n' ∉ ['v']
    decide

/-- The hook output `<key>: v` of a key of `n` letters parses to that one pair. -/
theorem ParseHookKeyValues_longKey (n : Nat) (hn : 0 < n) :
    ParseHookKeyValues (longKey n ++ ": v\n") = ([⟨longKey n, "v"⟩], []) := by
  have hbody : longKey n ++ ": v\n" =
      String.mk (pairLineBody 0 1 ⟨longKey n, "v"⟩) ++ "\n" ++ "" := by
    apply String.ext
    simp [pairLineBody, String.data_append]
  rw [hbody, ParseHookKeyValues_pairLineBody 0 1 _ (longKey_good n hn), ParseHookKeyValues_empty]

/-- The line written for a pair with the value `v` when the width is refused. -/
theorem pairLine_bad_width_v (maxKeyWidth : Nat) (key : String) (hw : 1000000 ≤ maxKeyWidth) :
    pairLine maxKeyWidth ⟨key, "v"⟩ = "  %!(BADWIDTH)" ++ key ++ ": v\n" := by
  rw [pairLine_bad_width maxKeyWidth _ hw]
  apply String.ext
  simp [String.data_append]

theorem maxKeyWidthLoop_longKey (n : Nat) (hn : 6 ≤ n) :
    maxKeyWidthLoop [⟨"Branch", "main"⟩, ⟨longKey n, "v"⟩] 0 = n := by
  have hb : len "Branch" = 6 := by decide
  simp only [maxKeyWidthLoop, len_longKey, hb]
  split_ifs <;> omega

/-- C14, at the failing input. The info hook printed one line, a key of 1000000 bytes with
the value `v`.  The parser returns that pair, the width PrintVerboseWorktree computes is
1000000, `fmt` refuses the width 1000001, and the report is the header followed by the
two pair lines `  %!(BADWIDTH)Branch: main` and `  %!(BADWIDTH)<key>: v`: no key is
padded, and the value `main` starts 22 characters into its line, not 1000004. -/
theorem PrintVerboseWorktree_bad_width :
    ParseHookKeyValues longKeyInfo.HookOutput = ([⟨longKey 1000000, "v"⟩], []) ∧
    len (longKey 1000000) = 1000000 ∧
    maxKeyWidthLoop (collectBuiltinPairs sampleLib longKeyInfo ++
      (ParseHookKeyValues longKeyInfo.HookOutput).1) 0 = 1000000 ∧
    PrintVerboseWorktree sampleLib longKeyInfo =
      "  test\n" ++ ("  %!(BADWIDTH)Branch: main\n" ++
        ("  %!(BADWIDTH)" ++ longKey 1000000 ++ ": v\n")) ∧
    Index "  %!(BADWIDTH)Branch: main\n" 'm' = 22 := by
  have hparse : ParseHookKeyValues longKeyInfo.HookOutput = ([⟨longKey 1000000, "v"⟩], []) :=
    ParseHookKeyValues_longKey 1000000 (by decide)
  have hbuiltin : collectBuiltinPairs sampleLib longKeyInfo = [⟨"Branch", "main"⟩] := rfl
  have hwidth : maxKeyWidthLoop (collectBuiltinPairs sampleLib longKeyInfo ++
      (ParseHookKeyValues longKeyInfo.HookOutput).1) 0 = 1000000 := by
    rw [hparse, hbuiltin]
    exact maxKeyWidthLoop_longKey 1000000 (by decide)
  refine ⟨hparse, len_longKey 1000000, hwidth, ?_, by decide⟩
  rw [PrintVerboseWorktree_eq, hwidth, hparse, hbuiltin]
  have h1 : longKeyInfo.CurrentMarker ++ longKeyInfo.Name ++ "\n" = "  test\n" := rfl
  have h2 : pairLine 1000000 ⟨"Branch", "main"⟩ = "  %!(BADWIDTH)Branch: main\n" := by decide
  have h3 := pairLine_bad_width_v 1000000 (longKey 1000000) (le_refl _)
  simp only [List.cons_append, List.nil_append, List.map_cons, List.map_nil, hooks.concat,
    h1, h2, h3, if_true, String.append_empty, String.append_assoc]

/-- C17, at the failing input. The hook output is one line, a key of 1000000 bytes with the
value `v`, and the width is 1000000, the one PrintVerboseWorktree computes for it.  The
parser returns that pair; its rendering is `  %!(BADWIDTH)<key>: v`; parsing the
rendering gives a pair whose key starts with `%!(BADWIDTH)`, not the pair rendered.  The
same happens to the pair of `Port: 3000` at that width. -/
theorem ParseHookKeyValues_roundtrip_bad_width :
    (ParseHookKeyValues (longKey 1000000 ++ ": v\n")).1 = [⟨longKey 1000000, "v"⟩] ∧
    hooks.concat ((ParseHookKeyValues (longKey 1000000 ++ ": v\n")).1.map (pairLine 1000000)) =
      "  %!(BADWIDTH)" ++ longKey 1000000 ++ ": v\n" ∧
    ParseHookKeyValues
      (hooks.concat ((ParseHookKeyValues (longKey 1000000 ++ ": v\n")).1.map
        (pairLine 1000000))) = ([⟨"%!(BADWIDTH)" ++ longKey 1000000, "v"⟩], []) ∧
    ParseHookKeyValues
      (hooks.concat ((ParseHookKeyValues (longKey 1000000 ++ ": v\n")).1.map
        (pairLine 1000000))) ≠ ((ParseHookKeyValues (longKey 1000000 ++ ": v\n")).1, []) ∧
    (ParseHookKeyValues "Port: 3000").1 = [⟨"Port", "3000"⟩] ∧
    ParseHookKeyValues
      (hooks.concat ((ParseHookKeyValues "Port: 3000").1.map (pairLine 1000000))) =
        ([⟨"%!(BADWIDTH)Port", "3000"⟩], []) := by
  have hparse := ParseHookKeyValues_longKey 1000000 (by decide)
  have hrender := ParseHookKeyValues_render 1000000 [⟨longKey 1000000, "v"⟩] (by
    intro p hp
    rw [List.mem_singleton.mp hp]
    exact longKey_good 1000000 (by decide))
  have hlim : ¬ (1000000 : Nat) < 1000000 := by decide
  simp only [hlim, if_false, List.map_cons, List.map_nil] at hrender
  have hne : "%!(BADWIDTH)" ++ longKey 1000000 ≠ longKey 1000000 := by
    intro h
    have := congrArg String.length h
    rw [String.length_append] at this
    have h12 : ("%!(BADWIDTH)" : String).length = 12 := by decide
    omega
  rw [hparse]
  refine ⟨rfl, ?_, hrender, ?_, by decide, by decide⟩
  · simp only [List.map_cons, List.map_nil, hooks.concat, String.append_empty]
    exact pairLine_bad_width_v 1000000 (longKey 1000000) (le_refl _)
  · intro h
    have h2 : ([badWidthPair ⟨longKey 1000000, "v"⟩], ([] : List String)) =
        ([⟨longKey 1000000, "v"⟩], []) := hrender.symm.trans h
    simp only [Prod.mk.injEq, List.cons.injEq, and_true] at h2
    exact hne (congrArg KeyValue.Key h2)

end commands

namespace commands

/-! ## Age of a worktree created in the future -/

theorem Hours_den_pos (d : ℤ) : 0 < (Hours d).den := by
  obtain ⟨_, fcd⟩ := float64_val 3600000000000 (by decide)
  obtain ⟨fc, _⟩ := float64_val 3600000000000 (by decide)
  have fcn : 0 < (float64 3600000000000).num :=
    Frac.num_pos_of_val_pos _ fcd (by rw [fc]; norm_num)
  have fhd : 0 < (float64 (Int.tdiv d Hour)).den := round64_den_pos _ (by norm_num)
  have fnd : 0 < (float64 (Int.tmod d Hour)).den := round64_den_pos _ (by norm_num)
  obtain ⟨_, xd⟩ := Frac.val_div _ _ fnd fcd fcn
  obtain ⟨_, yd⟩ := Frac.val_add _ _ fhd (round64_den_pos _ xd)
  exact round64_den_pos _ yd

/-- A lower bound on the float64 hours, from lower bounds on the whole hours and on the
fraction of an hour. -/
theorem Hours_lower (d n : ℤ) (hn : Int.tmod d Hour = n) (hnb : |n| < 2 ^ 53)
    (hl ql lo : ℚ) (rhl : Representable hl) (rql : Representable ql) (rlo : Representable lo)
    (h1 : hl ≤ ((Int.tdiv d Hour : ℤ) : ℚ)) (h2 : ql ≤ (n : ℚ) / 3600000000000)
    (h3 : lo ≤ hl + ql) : lo ≤ (Hours d).val := by
  obtain ⟨fc, fcd⟩ := float64_val 3600000000000 (by decide)
  have fcn : 0 < (float64 3600000000000).num :=
    Frac.num_pos_of_val_pos _ fcd (by rw [fc]; norm_num)
  have fhd : 0 < (float64 (Int.tdiv d Hour)).den := round64_den_pos _ (by norm_num)
  have fh : hl ≤ (float64 (Int.tdiv d Hour)).val :=
    round64_ge _ (by norm_num) hl rhl (by simpa [Frac.val] using h1)
  obtain ⟨fn, fnd⟩ := float64_val n hnb
  obtain ⟨xv, xd⟩ := Frac.val_div _ _ fnd fcd fcn
  rw [fn, fc] at xv
  have hq := round64_ge _ xd ql rql (by rw [xv]; exact_mod_cast h2)
  obtain ⟨yv, yd⟩ := Frac.val_add _ _ fhd (round64_den_pos _ xd)
  unfold Hours
  rw [hn]
  apply round64_ge _ yd lo rlo
  rw [yv]
  linarith

/-- An upper bound on the float64 hours, from upper bounds on the whole hours and on
the fraction of an hour. -/
theorem Hours_upper (d n : ℤ) (hn : Int.tmod d Hour = n) (hnb : |n| < 2 ^ 53)
    (hh qh hi : ℚ) (rhh : Representable hh) (rqh : Representable qh) (rhi : Representable hi)
    (h1 : ((Int.tdiv d Hour : ℤ) : ℚ) ≤ hh) (h2 : (n : ℚ) / 3600000000000 ≤ qh)
    (h3 : hh + qh ≤ hi) : (Hours d).val ≤ hi := by
  obtain ⟨fc, fcd⟩ := float64_val 3600000000000 (by decide)
  have fcn : 0 < (float64 3600000000000).num :=
    Frac.num_pos_of_val_pos _ fcd (by rw [fc]; norm_num)
  have fhd : 0 < (float64 (Int.tdiv d Hour)).den := round64_den_pos _ (by norm_num)
  have fh : (float64 (Int.tdiv d Hour)).val ≤ hh :=
    round64_le _ (by norm_num) hh rhh (by simpa [Frac.val] using h1)
  obtain ⟨fn, fnd⟩ := float64_val n hnb
  obtain ⟨xv, xd⟩ := Frac.val_div _ _ fnd fcd fcn
  rw [fn, fc] at xv
  have hq := round64_le _ xd qh rqh (by rw [xv]; exact_mod_cast h2)
  obtain ⟨yv, yd⟩ := Frac.val_add _ _ fhd (round64_den_pos _ xd)
  unfold Hours
  rw [hn]
  apply round64_le _ yd hi rhi
  rw [yv]
  linarith

theorem representable_zero : Representable 0 := ⟨0, 0, by norm_num, by norm_num, by simp⟩

theorem representable_one : Representable 1 := ⟨1, 0, by norm_num, by norm_num, by simp⟩

theorem representable_neg_one : Representable (-1) :=
  ⟨-1, 0, by norm_num, by norm_num, by simp⟩

theorem Frac.trunc_pos (x : Frac) (hden : 0 < x.den) (h : 1 ≤ x.val) : 1 ≤ x.trunc := by
  have hdq : (0 : ℚ) < x.den := by exact_mod_cast hden
  unfold Frac.val at h
  rw [le_div_iff₀ hdq] at h
  have h1 : (1 : ℤ) * x.den ≤ x.num := by exact_mod_cast h
  have hd : (0 : ℤ) < x.den := by exact_mod_cast hden
  unfold Frac.trunc
  rw [Int.tdiv_eq_ediv (by omega) hd.le]
  exact Int.le_ediv_of_mul_le hd h1

theorem Frac.trunc_nonneg (x : Frac) (h : 0 ≤ x.val) (hden : 0 < x.den) : 0 ≤ x.trunc := by
  have hdq : (0 : ℚ) < x.den := by exact_mod_cast hden
  unfold Frac.val at h
  have h1 : (0 : ℚ) ≤ x.num := by
    by_contra hc
    push_neg at hc
    have := div_neg_of_neg_of_pos hc hdq
    linarith
  have h2 : (0 : ℤ) ≤ x.num := by exact_mod_cast h1
  unfold Frac.trunc
  exact Int.tdiv_nonneg h2 (by omega)

theorem Frac.trunc_neg_fraction (x : Frac) : Frac.trunc ⟨-x.num, x.den⟩ = -x.trunc := by
  unfold Frac.trunc
  exact Int.neg_tdiv _ _

theorem Frac.val_neg_fraction (x : Frac) : Frac.val ⟨-x.num, x.den⟩ = -x.val := by
  unfold Frac.val
  push_cast
  rw [neg_div]

theorem Frac.trunc_neg (x : Frac) (hden : 0 < x.den) (h : x.val ≤ -1) : x.trunc ≤ -1 := by
  have h1 := Frac.trunc_pos ⟨-x.num, x.den⟩ hden (by rw [Frac.val_neg_fraction]; linarith)
  rw [Frac.trunc_neg_fraction] at h1
  omega

theorem Frac.trunc_nonpos (x : Frac) (hden : 0 < x.den) (h : x.val ≤ 0) : x.trunc ≤ 0 := by
  have h1 := Frac.trunc_nonneg ⟨-x.num, x.den⟩ (by rw [Frac.val_neg_fraction]; linarith) hden
  rw [Frac.trunc_neg_fraction] at h1
  omega

theorem Frac.trunc_zero (x : Frac) (hden : 0 < x.den) (h1 : -1 < x.val) (h2 : x.val < 1) :
    x.trunc = 0 := by
  rcases le_or_lt 0 x.val with h | h
  · exact Frac.trunc_eq x 0 hden le_rfl (by simpa using h) (by simpa using h2)
  · have := Frac.trunc_eq ⟨-x.num, x.den⟩ 0 hden le_rfl
      (by rw [Frac.val_neg_fraction]; simp; linarith)
      (by rw [Frac.val_neg_fraction]; simp; linarith)
    rw [Frac.trunc_neg_fraction] at this
    omega

theorem div24_val (H : Frac) (hden : 0 < H.den) :
    (H.div (float64 24)).val = H.val / 24 ∧ 0 < (H.div (float64 24)).den := by
  obtain ⟨fc, fcd⟩ := float64_val 24 (by decide)
  have fcn : 0 < (float64 24).num := Frac.num_pos_of_val_pos _ fcd (by rw [fc]; norm_num)
  obtain ⟨zv, zd⟩ := Frac.val_div H _ hden fcd fcn
  rw [fc] at zv
  exact ⟨by exact_mod_cast zv, zd⟩

/-- The truncating division of Go on a duration and `time.Hour`. -/
theorem tdiv_tmod_Hour (d : ℤ) :
    (0 ≤ d → Int.tdiv d Hour = d / Hour ∧ Int.tmod d Hour = d % Hour) ∧
    (d ≤ 0 → Int.tdiv d Hour = -((-d) / Hour) ∧ Int.tmod d Hour = -((-d) % Hour)) := by
  have hH : (0 : ℤ) < Hour := by decide
  constructor
  · intro h
    exact ⟨Int.tdiv_eq_ediv h hH.le, Int.tmod_eq_emod h hH.le⟩
  · intro h
    have h1 : Int.tdiv d Hour = -((-d) / Hour) := by
      conv_lhs => rw [show d = -(-d) by ring]
      rw [Int.neg_tdiv, Int.tdiv_eq_ediv (by omega) hH.le]
    refine ⟨h1, ?_⟩
    have h2 := Int.tmod_add_tdiv d Hour
    rw [h1] at h2
    have h3 := Int.emod_add_ediv (-d) Hour
    linarith

theorem representable_hour_fraction : Representable (1 - 9 / 35184372088832) :=
  ⟨35184372088832 - 9, -45, by norm_num, by norm_num, by
    push_cast
    rw [show (2 : ℚ) ^ (-45 : ℤ) = 1 / 35184372088832 by norm_num]
    ring⟩

theorem representable_half : Representable (1 / 2) :=
  ⟨1, -1, by norm_num, by norm_num, by norm_num⟩

/-- From one hour on, the float64 hours are at least 1. -/
theorem Hours_of_past (d : ℤ) (h : Hour ≤ d) : 1 ≤ (Hours d).val := by
  have hH : Hour = 3600000000000 := rfl
  have e1 : d / Hour = d / 3600000000000 := rfl
  have e2 : d % Hour = d % 3600000000000 := rfl
  obtain ⟨hdiv, hmod⟩ := (tdiv_tmod_Hour d).1 (by omega)
  have h1 : 1 ≤ d / Hour := by omega
  have h2 : 0 ≤ d % Hour ∧ d % Hour < Hour := by omega
  apply Hours_lower d (d % Hour) hmod (by rw [abs_of_nonneg h2.1]; omega) 1 0 1
    representable_one representable_zero representable_one
  · rw [hdiv]; exact_mod_cast h1
  · have : (0 : ℚ) ≤ ((d % Hour : ℤ) : ℚ) := by exact_mod_cast h2.1
    positivity
  · norm_num

/-- From one hour in the future on, the float64 hours are at most -1. -/
theorem Hours_of_future (d : ℤ) (h : d ≤ -Hour) : (Hours d).val ≤ -1 := by
  have hH : Hour = 3600000000000 := rfl
  have e1 : (-d) / Hour = (-d) / 3600000000000 := rfl
  have e2 : (-d) % Hour = (-d) % 3600000000000 := rfl
  obtain ⟨hdiv, hmod⟩ := (tdiv_tmod_Hour d).2 (by omega)
  have h1 : 1 ≤ (-d) / Hour := by omega
  have h2 : 0 ≤ (-d) % Hour ∧ (-d) % Hour < Hour := by omega
  apply Hours_upper d (-((-d) % Hour)) hmod (by rw [abs_neg, abs_of_nonneg h2.1]; omega)
    (-1) 0 (-1) representable_neg_one representable_zero representable_neg_one
  · rw [hdiv]
    have : -((-d) / Hour) ≤ -1 := by omega
    exact_mod_cast this
  · have : ((-((-d) % Hour) : ℤ) : ℚ) ≤ 0 := by
      have : -((-d) % Hour) ≤ 0 := by omega
      exact_mod_cast this
    exact div_nonpos_of_nonpos_of_nonneg this (by norm_num)
  · norm_num

/-- Within one hour of now, either way, the float64 hours are strictly between -1
and 1. -/
theorem Hours_of_recent (d : ℤ) (h1 : -Hour < d) (h2 : d < Hour) :
    -(1 - 9 / 35184372088832) ≤ (Hours d).val ∧ (Hours d).val ≤ 1 - 9 / 35184372088832 := by
  have hH : Hour = 3600000000000 := rfl
  have e1 : d / Hour = d / 3600000000000 := rfl
  have e2 : d % Hour = d % 3600000000000 := rfl
  have e3 : (-d) / Hour = (-d) / 3600000000000 := rfl
  have e4 : (-d) % Hour = (-d) % 3600000000000 := rfl
  have hdm : Int.tdiv d Hour = 0 ∧ Int.tmod d Hour = d := by
    rcases le_total 0 d with hd | hd
    · obtain ⟨hdiv, hmod⟩ := (tdiv_tmod_Hour d).1 hd
      rw [hdiv, hmod]
      omega
    · obtain ⟨hdiv, hmod⟩ := (tdiv_tmod_Hour d).2 hd
      rw [hdiv, hmod]
      omega
  have habs : |d| < 2 ^ 53 := by
    rw [abs_lt]
    omega
  have hlo : (-(3600000000000 - 1) : ℚ) ≤ (d : ℚ) := by
    have : -(3600000000000 - 1) ≤ d := by omega
    exact_mod_cast this
  have hhi : (d : ℚ) ≤ 3600000000000 - 1 := by
    have : d ≤ 3600000000000 - 1 := by omega
    exact_mod_cast this
  constructor
  · apply Hours_lower d d hdm.2 habs 0 (-(1 - 9 / 35184372088832)) _ representable_zero
      (representable_neg _ representable_hour_fraction)
      (representable_neg _ representable_hour_fraction)
    · rw [hdm.1]; simp
    · rw [le_div_iff₀ (by norm_num)]
      linarith
    · linarith
  · apply Hours_upper d d hdm.2 habs 0 (1 - 9 / 35184372088832) _ representable_zero
      representable_hour_fraction representable_hour_fraction
    · rw [hdm.1]; simp
    · rw [div_le_iff₀ (by norm_num)]
      linarith
    · linarith

theorem append_ne_of_tail (a b t1 t2 : String) (k : Nat) (h1 : k ≤ t1.data.length)
    (h2 : k ≤ t2.data.length) (hne : t1.data.reverse.take k ≠ t2.data.reverse.take k) :
    a ++ t1 ≠ b ++ t2 := by
  intro h
  apply hne
  have hd := congrArg (fun s : String => s.data.reverse.take k) h
  simp only [String.data_append, List.reverse_append] at hd
  rw [List.take_append_of_le_length (by simpa using h1),
    List.take_append_of_le_length (by simpa using h2)] at hd
  exact hd

theorem append_ne_literal (a t1 lit : String) (k : Nat) (h1 : k ≤ t1.data.length)
    (h2 : k ≤ lit.data.length) (hne : t1.data.reverse.take k ≠ lit.data.reverse.take k) :
    a ++ t1 ≠ lit := by
  have := append_ne_of_tail a "" t1 lit k h1 h2 hne
  simpa using this

/-- The truncated float64 hours and days of a duration. -/
theorem formatAge_eq (d : ℤ) :
    formatAge d =
      (if (round64 ((Hours d).div (float64 24))).trunc = 0 then
        (if (Hours d).trunc = 0 then "less than an hour"
         else if (Hours d).trunc = 1 then "1 hour"
         else Itoa (Hours d).trunc ++ " hours")
      else if (round64 ((Hours d).div (float64 24))).trunc = 1 then "1 day"
      else if Int.tdiv (round64 ((Hours d).div (float64 24))).trunc 7 ≥ 1 then
        (if Int.tdiv (round64 ((Hours d).div (float64 24))).trunc 7 = 1 then "1 week"
         else Itoa (Int.tdiv (round64 ((Hours d).div (float64 24))).trunc 7) ++ " weeks")
      else Itoa (round64 ((Hours d).div (float64 24))).trunc ++ " days") := rfl

theorem formatAge_lt_iff (d : ℤ) :
    formatAge d = "less than an hour" ↔
      (round64 ((Hours d).div (float64 24))).trunc = 0 ∧ (Hours d).trunc = 0 := by
  rw [formatAge_eq]
  generalize (round64 ((Hours d).div (float64 24))).trunc = days
  generalize (Hours d).trunc = hours
  have n1 : ∀ a : String, a ++ " hours" ≠ "less than an hour" := fun a =>
    append_ne_literal a _ _ 1 (by decide) (by decide) (by decide)
  have n2 : ∀ a : String, a ++ " weeks" ≠ "less than an hour" := fun a =>
    append_ne_literal a _ _ 1 (by decide) (by decide) (by decide)
  have n3 : ∀ a : String, a ++ " days" ≠ "less than an hour" := fun a =>
    append_ne_literal a _ _ 1 (by decide) (by decide) (by decide)
  by_cases hd : days = 0
  · by_cases hh : hours = 0
    · simp [hd, hh]
    · by_cases hh1 : hours = 1
      · simp [hd, hh1]
      · simp [hd, hh, hh1, n1]
  · by_cases hd1 : days = 1
    · simp [hd1]
    · by_cases hw : Int.tdiv days 7 ≥ 1
      · by_cases hw1 : Int.tdiv days 7 = 1
        · simp [hd, hd1, hw1]
        · simp [hd, hd1, hw, hw1, n2]
      · simp [hd, hd1, hw, n3]

/-- Truncated hours and days of a duration of one hour or more. -/
theorem trunc_of_past (d : ℤ) (h : Hour ≤ d) :
    1 ≤ (Hours d).trunc ∧ 0 ≤ (round64 ((Hours d).div (float64 24))).trunc := by
  have hH := Hours_of_past d h
  have hden := Hours_den_pos d
  obtain ⟨zv, zd⟩ := div24_val (Hours d) hden
  refine ⟨Frac.trunc_pos _ hden hH, Frac.trunc_nonneg _ ?_ (round64_den_pos _ zd)⟩
  apply round64_ge _ zd 0 representable_zero
  rw [zv]
  linarith

/-- Truncated hours and days of a duration of minus one hour or less. -/
theorem trunc_of_future (d : ℤ) (h : d ≤ -Hour) :
    (Hours d).trunc ≤ -1 ∧ (round64 ((Hours d).div (float64 24))).trunc ≤ 0 := by
  have hH := Hours_of_future d h
  have hden := Hours_den_pos d
  obtain ⟨zv, zd⟩ := div24_val (Hours d) hden
  refine ⟨Frac.trunc_neg _ hden hH, Frac.trunc_nonpos _ (round64_den_pos _ zd) ?_⟩
  apply round64_le _ zd 0 representable_zero
  rw [zv]
  linarith

/-- Truncated hours and days of a duration strictly within one hour of zero. -/
theorem trunc_of_recent (d : ℤ) (h1 : -Hour < d) (h2 : d < Hour) :
    (Hours d).trunc = 0 ∧ (round64 ((Hours d).div (float64 24))).trunc = 0 := by
  obtain ⟨hlo, hhi⟩ := Hours_of_recent d h1 h2
  have hden := Hours_den_pos d
  obtain ⟨zv, zd⟩ := div24_val (Hours d) hden
  refine ⟨Frac.trunc_zero _ hden (by linarith) (by linarith),
    Frac.trunc_zero _ (round64_den_pos _ zd) ?_ ?_⟩
  · have := round64_ge _ zd (-(1 / 2)) (representable_neg _ representable_half)
      (by rw [zv]; linarith)
    linarith
  · have := round64_le _ zd (1 / 2) representable_half (by rw [zv]; linarith)
    linarith

/-- C18. For every duration d, negative ones included, formatAge d is
"less than an hour" exactly when d is strictly between minus one hour and plus one
hour; for d of minus one hour or less the result is the signed decimal of a count
n ≤ -1 (a minus sign and the digits of |n|) followed by " hours" or " days", and it
is neither "1 week" nor of the form "<m> weeks"; minus five hours and minus three
days give "-5 hours" and "-3 days". -/
theorem formatAge_signed (d : ℤ) :
    (formatAge d = "less than an hour" ↔ -Hour < d ∧ d < Hour) ∧
    (d ≤ -Hour →
      (∃ n : ℤ, n ≤ -1 ∧ Itoa n = "-" ++ Nat.repr n.natAbs ∧
        (formatAge d = Itoa n ++ " hours" ∨ formatAge d = Itoa n ++ " days")) ∧
      formatAge d ≠ "1 week" ∧ ∀ m : ℤ, formatAge d ≠ Itoa m ++ " weeks") ∧
    formatAge (-5 * Hour) = "-5 hours" ∧ formatAge (-3 * 24 * Hour) = "-3 days" := by
  have hneg : ∀ n : ℤ, n ≤ -1 → Itoa n = "-" ++ Nat.repr n.natAbs := by
    intro n hn
    unfold Itoa
    rw [if_pos (by omega)]
  have hw1 : ∀ a : String, a ++ " hours" ≠ "1 week" := fun a =>
    append_ne_literal a _ _ 2 (by decide) (by decide) (by decide)
  have hw2 : ∀ a : String, a ++ " days" ≠ "1 week" := fun a =>
    append_ne_literal a _ _ 2 (by decide) (by decide) (by decide)
  have hw3 : ∀ a b : String, a ++ " hours" ≠ b ++ " weeks" := fun a b =>
    append_ne_of_tail a b _ _ 2 (by decide) (by decide) (by decide)
  have hw4 : ∀ a b : String, a ++ " days" ≠ b ++ " weeks" := fun a b =>
    append_ne_of_tail a b _ _ 2 (by decide) (by decide) (by decide)
  have hfut : ∀ e : ℤ, e ≤ -Hour →
      ∃ n : ℤ, n ≤ -1 ∧ (formatAge e = Itoa n ++ " hours" ∨ formatAge e = Itoa n ++ " days") := by
    intro e he
    obtain ⟨hh, hd⟩ := trunc_of_future e he
    rw [formatAge_eq]
    generalize (round64 ((Hours e).div (float64 24))).trunc = days at hd
    generalize (Hours e).trunc = hours at hh
    by_cases hd0 : days = 0
    · refine ⟨hours, hh, Or.inl ?_⟩
      rw [if_pos hd0, if_neg (by omega), if_neg (by omega)]
    · refine ⟨days, by omega, Or.inr ?_⟩
      have hwk : ¬ Int.tdiv days 7 ≥ 1 := by
        have : Int.tdiv days 7 = -((-days) / 7) := by
          conv_lhs => rw [show days = -(-days) by ring]
          rw [Int.neg_tdiv, Int.tdiv_eq_ediv (by omega) (by norm_num)]
        omega
      rw [if_neg hd0, if_neg (by omega), if_neg hwk]
  refine ⟨?_, ?_, by decide, by decide⟩
  · rw [formatAge_lt_iff]
    constructor
    · rintro ⟨-, hh⟩
      have hH : Hour = 3600000000000 := rfl
      by_contra hc
      rcases le_or_lt Hour d with hp | hp
      · have := (trunc_of_past d hp).1
        omega
      · have hf : d ≤ -Hour := by omega
        have := (trunc_of_future d hf).1
        omega
    · rintro ⟨h1, h2⟩
      obtain ⟨a, b⟩ := trunc_of_recent d h1 h2
      exact ⟨b, a⟩
  · intro hd
    obtain ⟨n, hn, hform⟩ := hfut d hd
    refine ⟨⟨n, hn, hneg n hn, hform⟩, ?_, ?_⟩
    · rcases hform with hf | hf <;> rw [hf]
      · exact hw1 _
      · exact hw2 _
    · intro m
      rcases hform with hf | hf <;> rw [hf]
      · exact hw3 _ _
      · exact hw4 _ _

theorem formatAge_signed_witness :
    (-5 * Hour ≤ -Hour) ∧
    ((∃ n : ℤ, n ≤ -1 ∧ Itoa n = "-" ++ Nat.repr n.natAbs ∧
        (formatAge (-5 * Hour) = Itoa n ++ " hours" ∨
          formatAge (-5 * Hour) = Itoa n ++ " days")) ∧
      formatAge (-5 * Hour) ≠ "1 week" ∧ ∀ m : ℤ, formatAge (-5 * Hour) ≠ Itoa m ++ " weeks") :=
  ⟨by decide, (formatAge_signed (-5 * Hour)).2.1 (by decide)⟩

end commands
